import Mathlib

/-!
# Unscented Kalman filter (`src/ukf.cpp`): a shallow embedding

The C++ class `UKF` is embedded over an arbitrary linearly ordered field `K`
(the reals for the theorems, the rationals for evaluation).  In this embedding
doubles are read as exact field elements: decimal literals such as `0.001` are
the rationals `1/1000`.

Where the rounding of `double` arithmetic decides a property, the code is also
given in that arithmetic (section "The arithmetic of `double`"): the rounding
`round64`, the constructor's `lambda_` and weights (`ctorLambda64`,
`ctorWeightsM64`, `ctorWeightsC64`), the loops of `NormalizeAngle`
(`NormalizeAngle64`), and the filter `UKF.new64` that holds the stored weights.

* The routines of `<cmath>` used by the source (`std::sqrt`, `std::sin`,
  `std::cos`, `std::atan2`) and the constant `M_PI` are the fields of the
  structure `Libm`; the theorems instantiate them with `Real.sqrt`,
  `Real.sin`, `Real.cos` and `Real.pi`.
* `while` loops take a fuel argument and return `none` when it runs out.
* `exit(-1)` is the result `none` as well.
* Eigen vectors and matrices are Mathlib's `Fin n → K` and `Matrix`.
-/

open Matrix

namespace UKFModel

variable {K : Type} [LinearOrderedField K]

/-! ## External collaborators -/

/-- The part of `<cmath>` the filter calls. -/
structure Libm (K : Type) where
  /-- The constant `M_PI`. -/
  M_PI : K
  /-- The function `std::sqrt`. -/
  sqrt : K → K
  /-- The function `std::sin`. -/
  sin : K → K
  /-- The function `std::cos`. -/
  cos : K → K
  /-- The function `std::atan2(y, x)`. -/
  atan2 : K → K → K

/-- Modelled from the spec: the sensor tag `MeasurementPackage::SensorType` of
`measurement_package.h`, which is not part of `src/`: "sensor-type tag ∈ {LASER,
RADAR}". -/
inductive SensorType where
  | LASER
  | RADAR
  deriving DecidableEq, Repr

/-- Modelled from the spec: the class `MeasurementPackage` of
`measurement_package.h`, which is not part of `src/`: "sensor-type tag, a timestamp,
and a raw measurement vector whose length and meaning depend on sensor type".  The
members are the three that `ukf.cpp` reads; the raw vector is an Eigen vector of
dynamic length. -/
structure MeasurementPackage (K : Type) where
  timestamp_ : ℤ
  sensor_type_ : SensorType
  raw_measurements_ : List K

/-! ## The filter object -/

/-- Dimension of the state vector, `n_x_ = 5`. -/
abbrev n_x_ : ℕ := 5

/-- Dimension of the augmented state vector, `n_aug_ = 7`. -/
abbrev n_aug_ : ℕ := 7

/-- Modelled from the spec: the class `UKF` is declared in `ukf.h`, which is not part
of `src/`; these are the data members that `ukf.cpp` reads and writes, with the
dimensions the constructor gives them (`n_x_ = 5`, `n_aug_ = 7`, `2*n_aug_+1 = 15`). -/
structure UKF (K : Type) where
  is_initialized_ : Bool
  use_laser_ : Bool
  use_radar_ : Bool
  x_ : Fin 5 → K
  P_ : Matrix (Fin 5) (Fin 5) K
  Xsig_pred_ : Matrix (Fin 5) (Fin 15) K
  time_us_ : ℤ
  std_a_ : K
  std_yawdd_ : K
  std_laspx_ : K
  std_laspy_ : K
  std_radr_ : K
  std_radphi_ : K
  std_radrd_ : K
  weights_m_ : Fin 15 → K
  weights_c_ : Fin 15 → K
  lambda_ : K
  last_meas_ : Option (MeasurementPackage K)

/-- Line 68: `lambda_ = alpha*alpha*(n_aug_ + kappa) - n_aug_`. -/
def ctorLambda (kappa alpha : K) : K :=
  alpha * alpha * ((n_aug_ : K) + kappa) - (n_aug_ : K)

/-- Lines 69, 71-72: `weights_m_(0) = lambda_/(n_aug_ + lambda_)` and
`weights_m_(i) = 1.0/(2*(n_aug_+lambda_))` for `i = 1 .. 2*n_aug_`. -/
def ctorWeightsM (lambda : K) : Fin 15 → K := fun i =>
  if i = 0 then lambda / ((n_aug_ : K) + lambda)
  else 1 / (2 * ((n_aug_ : K) + lambda))

/-- Lines 70-73: `weights_c_(0) = lambda_/(n_aug_ + lambda_) + (1-alpha*alpha+beta)`
and `weights_c_(i) = weights_m_(i)` for `i = 1 .. 2*n_aug_`. -/
def ctorWeightsC (beta alpha lambda : K) : Fin 15 → K := fun i =>
  if i = 0 then lambda / ((n_aug_ : K) + lambda) + (1 - alpha * alpha + beta)
  else ctorWeightsM lambda i

/-- The constructor `UKF::UKF()` with the three spread parameters, which the
source fixes on line 62, turned into arguments.  `x0` and `X0` stand for the
contents of `x_` and `Xsig_pred_`, which the constructor does not set; `time_us_`
and `last_meas_`, which it does not set either, are `0` and `none` (the first
record overwrites both). -/
def UKF.construct (kappa beta alpha : K) (x0 : Fin 5 → K)
    (X0 : Matrix (Fin 5) (Fin 15) K) : UKF K where
  is_initialized_ := false
  use_laser_ := true
  use_radar_ := true
  x_ := x0
  P_ := 1
  Xsig_pred_ := X0
  time_us_ := 0
  std_a_ := 8 / 10
  std_yawdd_ := 6 / 10
  std_laspx_ := 15 / 100
  std_laspy_ := 15 / 100
  std_radr_ := 3 / 10
  std_radphi_ := 3 / 100
  std_radrd_ := 3 / 10
  weights_m_ := ctorWeightsM (ctorLambda kappa alpha)
  weights_c_ := ctorWeightsC beta alpha (ctorLambda kappa alpha)
  lambda_ := ctorLambda kappa alpha
  last_meas_ := none

/-- The constructor `UKF::UKF()`: line 62 sets `kappa = 0.0, beta = 2.0,
alpha = 0.001`. -/
def UKF.new (x0 : Fin 5 → K) (X0 : Matrix (Fin 5) (Fin 15) K) : UKF K :=
  UKF.construct 0 2 (1 / 1000) x0 X0

/-! ## `NormalizeAngle` -/

/-- Line 108: `while (angle > M_PI) angle -= 2.*M_PI;`. -/
def whileAbove (M_PI : K) : ℕ → K → Option K
  | 0, angle => if angle > M_PI then none else some angle
  | fuel + 1, angle =>
    if angle > M_PI then whileAbove M_PI fuel (angle - 2 * M_PI) else some angle

/-- Line 109: `while (angle < -M_PI) angle += 2.*M_PI;`. -/
def whileBelow (M_PI : K) : ℕ → K → Option K
  | 0, angle => if angle < -M_PI then none else some angle
  | fuel + 1, angle =>
    if angle < -M_PI then whileBelow M_PI fuel (angle + 2 * M_PI) else some angle

/-- The method `UKF::NormalizeAngle`; each of the two loops may run `fuel`
times.  The result is the value left in the reference argument. -/
def NormalizeAngle (M_PI : K) (fuel : ℕ) (angle : K) : Option K :=
  (whileAbove M_PI fuel angle).bind (whileBelow M_PI fuel)

/-! ## Eigen routines -/

/-- Modelled from the spec: Eigen's `LLT` (the Cholesky factorisation, whose
source is not part of `src/`), one step of the column-by-column algorithm.
Column `j` of the factor is computed from the lower triangle of `A` and the
columns already present in `L`, the later columns of `L` being zero; a pivot
that is not positive is the failure `NumericalIssue`. -/
def lltColumn {n : ℕ} (sqrt : K → K) (A L : Matrix (Fin n) (Fin n) K) (j : Fin n) :
    Option (Matrix (Fin n) (Fin n) K) :=
  let x := A j j - ∑ k, L j k * L j k
  if x ≤ 0 then none
  else some (fun i c =>
    if c = j then
      if i < j then 0
      else if i = j then sqrt x
      else (A i j - ∑ k, L i k * L j k) / sqrt x
    else L i c)

/-- Modelled from the spec: `A.llt().matrixL()` of Eigen, "a lower-triangular
square root (Cholesky)"; `none` is `A.llt().info() == Eigen::NumericalIssue`,
"the covariance is not positive-definite (Cholesky fails)". -/
def llt {n : ℕ} (sqrt : K → K) (A : Matrix (Fin n) (Fin n) K) :
    Option (Matrix (Fin n) (Fin n) K) :=
  (List.finRange n).foldlM (fun L j => lltColumn sqrt A L j) 0

/-- Modelled from the spec: `A.inverse()` of Eigen (not part of `src/`), the
matrix inverse, as the adjugate divided by the determinant. -/
def inverse {n : ℕ} (A : Matrix (Fin n) (Fin n) K) : Matrix (Fin n) (Fin n) K :=
  (A.det)⁻¹ • A.adjugate

/-! ## Sigma points -/

/-- Lines 124-126: `x_aug.head(5) = x_; x_aug(5) = 0; x_aug(6) = 0;`. -/
def augmentedMean (x : Fin 5 → K) : Fin 7 → K := fun i =>
  if h : i.val < 5 then x ⟨i.val, h⟩ else 0

/-- Lines 130-133: `P_aug` is zero except for `P_` in the top left corner,
`std_a_*std_a_` at `(5,5)` and `std_yawdd_*std_yawdd_` at `(6,6)`. -/
def augmentedCovariance (s : UKF K) : Matrix (Fin 7) (Fin 7) K := fun i j =>
  if h : i.val < 5 ∧ j.val < 5 then s.P_ ⟨i.val, h.1⟩ ⟨j.val, h.2⟩
  else if i.val = 5 ∧ j.val = 5 then s.std_a_ * s.std_a_
  else if i.val = 6 ∧ j.val = 6 then s.std_yawdd_ * s.std_yawdd_
  else 0

/-- Lines 147-151: column 0 is `x_aug`, column `i` is `x_aug + A.col(i-1)` and
column `i + n_aug_` is `x_aug - A.col(i-1)` for `i = 1 .. n_aug_`. -/
def sigmaColumns (x_aug : Fin 7 → K) (A : Matrix (Fin 7) (Fin 7) K) :
    Matrix (Fin 7) (Fin 15) K := fun r c =>
  if c.val = 0 then x_aug r
  else if h : c.val ≤ 7 then x_aug r + A r ⟨c.val - 1, by omega⟩
  else x_aug r - A r ⟨c.val - 8, by omega⟩

/-- The method `UKF::GenerateAugmentedSigmaPoints`; the result is the matrix left
in `Xsig_aug`, and `none` is the `exit(-1)` of line 140. -/
def GenerateAugmentedSigmaPoints (m : Libm K) (s : UKF K) :
    Option (Matrix (Fin 7) (Fin 15) K) :=
  match llt m.sqrt (augmentedCovariance s) with
  | none => none
  | some L =>
    some (sigmaColumns (augmentedMean s.x_) (m.sqrt (s.lambda_ + (n_aug_ : K)) • L))

/-- Lines 163-206: the body of the loop of `PredictSigmaPoints`, from one column
of `Xsig_aug` to one column of `Xsig_pred_`. -/
def predictColumn (m : Libm K) (fuel : ℕ) (c : Fin 7 → K) (delta_t : K) :
    Option (Fin 5 → K) :=
  let p_x := c 0
  let p_y := c 1
  let v := c 2
  let yaw := c 3
  let yawd := c 4
  let nu_a := c 5
  let nu_yawdd := c 6
  let px_p :=
    if |yawd| > 1 / 10000 then p_x + v / yawd * (m.sin (yaw + yawd * delta_t) - m.sin yaw)
    else p_x + v * delta_t * m.cos yaw
  let py_p :=
    if |yawd| > 1 / 10000 then p_y + v / yawd * (m.cos yaw - m.cos (yaw + yawd * delta_t))
    else p_y + v * delta_t * m.sin yaw
  let v_p := v
  let yaw_p := yaw + yawd * delta_t
  let yawd_p := yawd
  let px_p := px_p + 1 / 2 * nu_a * delta_t * delta_t * m.cos yaw
  let py_p := py_p + 1 / 2 * nu_a * delta_t * delta_t * m.sin yaw
  let v_p := v_p + nu_a * delta_t
  let yaw_p := yaw_p + 1 / 2 * nu_yawdd * delta_t * delta_t
  let yawd_p := yawd_p + nu_yawdd * delta_t
  (NormalizeAngle m.M_PI fuel yaw_p).map fun yaw_p =>
    ![px_p, py_p, v_p, yaw_p, yawd_p]

/-- A loop `for (i = ...)` that fills the columns listed in `cols` of a matrix,
column `i` with `body i`, and stops with `none` as soon as a body does. -/
def fillColumns {r n : ℕ} (body : Fin n → Option (Fin r → K)) (cols : List (Fin n))
    (X : Matrix (Fin r) (Fin n) K) : Option (Matrix (Fin r) (Fin n) K) :=
  cols.foldlM (fun X i => (body i).map fun col => X.updateColumn i col) X

/-- The method `UKF::PredictSigmaPoints`: it replaces `Xsig_pred_`. -/
def PredictSigmaPoints (m : Libm K) (fuel : ℕ) (s : UKF K)
    (Xsig_aug : Matrix (Fin 7) (Fin 15) K) (delta_t : K) : Option (UKF K) :=
  (fillColumns (fun i => predictColumn m fuel (fun r => Xsig_aug r i) delta_t)
      (List.finRange 15) 0).map
    fun X => { s with Xsig_pred_ := X }

/-- A difference of two vectors with `NormalizeAngle` applied to component `k`:
`VectorXd d = a - b; NormalizeAngle(d(k));`. -/
def angleDiff {n : ℕ} (m : Libm K) (fuel : ℕ) (k : Fin n) (a b : Fin n → K) :
    Option (Fin n → K) :=
  (NormalizeAngle m.M_PI fuel (a k - b k)).map fun t => Function.update (a - b) k t

/-- The columns `1 .. 2*n_aug_` visited by the loops `for (i = 1; i < 2*n_aug_+1; i++)`. -/
def tailColumns : List (Fin 15) := (List.finRange 14).map Fin.succ

/-- Lines 259-265: `P_.fill(0.0)` and the loop that accumulates
`weights_c_(i)*x_diff*x_diff.transpose()` over the columns `1 .. 2*n_aug_`. -/
def predictCovariance (m : Libm K) (fuel : ℕ) (w : Fin 15 → K)
    (X : Matrix (Fin 5) (Fin 15) K) (x : Fin 5 → K) : Option (Matrix (Fin 5) (Fin 5) K) :=
  tailColumns.foldlM
    (fun P i => (angleDiff m fuel 3 (fun r => X r i) x).map fun x_diff =>
      P + w i • vecMulVec x_diff x_diff)
    0

/-- The method `UKF::Prediction`. -/
def Prediction (m : Libm K) (fuel : ℕ) (s : UKF K) (delta_t : K) : Option (UKF K) :=
  (GenerateAugmentedSigmaPoints m s).bind fun Xsig_aug =>
  (PredictSigmaPoints m fuel s Xsig_aug delta_t).bind fun s =>
  let x := s.Xsig_pred_ *ᵥ s.weights_m_
  (predictCovariance m fuel s.weights_c_ s.Xsig_pred_ x).map fun P =>
    { s with x_ := x, P_ := P }

/-! ## Measurement updates -/

/-- Lines 281-283: the measurement matrix `H` of the lidar. -/
def lidarH : Matrix (Fin 2) (Fin 5) K := !![1, 0, 0, 0, 0; 0, 1, 0, 0, 0]

/-- Lines 285-287: the measurement noise `R` of the lidar. -/
def lidarR (s : UKF K) : Matrix (Fin 2) (Fin 2) K :=
  !![s.std_laspx_ * s.std_laspx_, 0; 0, s.std_laspy_ * s.std_laspy_]

/-- Lines 290-292: the innovation covariance `S = H*P_*Ht + R` of the lidar. -/
def lidarS (s : UKF K) : Matrix (Fin 2) (Fin 2) K :=
  lidarH * s.P_ * lidarHᵀ + lidarR s

/-- Line 293: the gain `K = P_*Ht*S.inverse()` of the lidar. -/
def lidarK (s : UKF K) : Matrix (Fin 5) (Fin 2) K :=
  s.P_ * lidarHᵀ * inverse (lidarS s)

/-- The method `UKF::UpdateLidar`.  The subtraction of line 289 needs a raw
measurement vector of length 2; any other length is `none`. -/
def UpdateLidar (s : UKF K) (meas_package : MeasurementPackage K) : Option (UKF K) :=
  match meas_package.raw_measurements_ with
  | [z0, z1] =>
    let y : Fin 2 → K := ![z0, z1] - lidarH *ᵥ s.x_
    let I : Matrix (Fin 5) (Fin 5) K := 1
    some { s with x_ := s.x_ + lidarK s *ᵥ y, P_ := (I - lidarK s * lidarH) * s.P_ }
  | _ => none

/-- Lines 330-342: the body of the first loop of `UpdateRadar`, from one column
of `Xsig_pred_` to one column of `Zsig_pred`; `none` is the `return` of line 339. -/
def radarColumn (m : Libm K) (c : Fin 5 → K) : Option (Fin 3 → K) :=
  let px := c 0
  let py := c 1
  let v := c 2
  let phi := c 3
  let px := if px < 1 / 1000000 then 1 / 100000 else px
  let rho := m.sqrt (px * px + py * py)
  if |rho| < 1 / 100000 then none
  else some ![rho, m.atan2 py px, (px * m.cos phi * v + py * m.sin phi * v) / rho]

/-- Lines 353-359: `S.fill(0.0)` and the loop that accumulates
`weights_c_(i)*z_diff*z_diff.transpose()` over the columns `1 .. 2*n_aug_`. -/
def radarS (m : Libm K) (fuel : ℕ) (w : Fin 15 → K)
    (Z : Matrix (Fin 3) (Fin 15) K) (z_pred : Fin 3 → K) :
    Option (Matrix (Fin 3) (Fin 3) K) :=
  tailColumns.foldlM
    (fun S i => (angleDiff m fuel 1 (fun r => Z r i) z_pred).map fun z_diff =>
      S + w i • vecMulVec z_diff z_diff)
    0

/-- Lines 368-379: `Tc.fill(0.0)` and the loop that accumulates
`weights_c_(i)*Xsig_diff*z_diff.transpose()` over the columns `1 .. 2*n_aug_`. -/
def radarTc (m : Libm K) (fuel : ℕ) (w : Fin 15 → K)
    (X : Matrix (Fin 5) (Fin 15) K) (x : Fin 5 → K)
    (Z : Matrix (Fin 3) (Fin 15) K) (z_pred : Fin 3 → K) :
    Option (Matrix (Fin 5) (Fin 3) K) :=
  tailColumns.foldlM
    (fun Tc i =>
      (angleDiff m fuel 3 (fun r => X r i) x).bind fun Xsig_diff =>
      (angleDiff m fuel 1 (fun r => Z r i) z_pred).map fun z_diff =>
        Tc + w i • vecMulVec Xsig_diff z_diff)
    0

/-- Lines 362-364: the radar noise variances added to the diagonal of `S`. -/
def radarR (s : UKF K) : Matrix (Fin 3) (Fin 3) K :=
  Matrix.diagonal ![s.std_radr_ * s.std_radr_, s.std_radphi_ * s.std_radphi_,
    s.std_radrd_ * s.std_radrd_]

/-- The method `UKF::UpdateRadar`.  The two early `return`s give back the filter
as it is; the subtraction `z - z_pred` of line 386 needs a raw measurement vector
of length 3 and any other length is `none`, as is running out of fuel. -/
def UpdateRadar (m : Libm K) (fuel : ℕ) (s : UKF K) (meas_package : MeasurementPackage K) :
    Option (UKF K) :=
  if meas_package.sensor_type_ ≠ SensorType.RADAR then some s
  else
    match fillColumns (fun i => radarColumn m (fun r => s.Xsig_pred_ r i))
        (List.finRange 15) 0 with
    | none => some s
    | some Zsig_pred =>
      (NormalizeAngle m.M_PI fuel ((Zsig_pred *ᵥ s.weights_m_) 1)).bind fun phi =>
      let z_pred := Function.update (Zsig_pred *ᵥ s.weights_m_) 1 phi
      (radarS m fuel s.weights_c_ Zsig_pred z_pred).bind fun S =>
      let S := S + radarR s
      (radarTc m fuel s.weights_c_ s.Xsig_pred_ s.x_ Zsig_pred z_pred).bind fun Tc =>
      let K' := Tc * inverse S
      match meas_package.raw_measurements_ with
      | [z0, z1, z2] =>
        some { s with
          x_ := s.x_ + K' *ᵥ (![z0, z1, z2] - z_pred)
          P_ := s.P_ - K' * S * K'ᵀ }
      | _ => none

/-! ## The controller -/

/-- The method `UKF::InitMeasurement`.  Reading entries 0 and 1 of a raw
measurement vector that is shorter is `none`. -/
def InitMeasurement (m : Libm K) (s : UKF K) (meas_package : MeasurementPackage K) :
    Option (UKF K) :=
  let s := { s with time_us_ := meas_package.timestamp_ }
  let done (s : UKF K) : UKF K :=
    { s with is_initialized_ := true, last_meas_ := some meas_package }
  if meas_package.sensor_type_ = SensorType.RADAR ∧ s.use_radar_ = true then
    match meas_package.raw_measurements_ with
    | r0 :: r1 :: _ =>
      let px := r0 * m.cos r1
      let py := r0 * m.sin r1
      some (done { s with x_ := ![px, py, 0, 0, 0] })
    | _ => none
  else if meas_package.sensor_type_ = SensorType.LASER ∧ s.use_laser_ = true then
    match meas_package.raw_measurements_ with
    | r0 :: r1 :: _ => some (done { s with x_ := ![r0, r1, 0, 0, 0] })
    | _ => none
  else some (done s)

/-- The method `UKF::ProcessMeasurement`.  Timestamps are mathematical integers
(the `long long` subtraction of line 228 is taken not to overflow). -/
def ProcessMeasurement (m : Libm K) (fuel : ℕ) (s : UKF K)
    (meas_package : MeasurementPackage K) : Option (UKF K) :=
  if s.is_initialized_ = false then InitMeasurement m s meas_package
  else
    let delta_t : K := ((meas_package.timestamp_ - s.time_us_ : ℤ) : K) / 1000000
    (Prediction m fuel s delta_t).bind fun s =>
    (if meas_package.sensor_type_ = SensorType.RADAR ∧ s.use_radar_ = true then
        UpdateRadar m fuel s meas_package
      else if meas_package.sensor_type_ = SensorType.LASER ∧ s.use_laser_ = true then
        UpdateLidar s meas_package
      else some s).map fun s =>
    { s with last_meas_ := some meas_package, time_us_ := meas_package.timestamp_ }

/-! ## The configuration fixed at construction -/

/-- The members `lambda_`, `weights_m_` and `weights_c_`, which only the
constructor assigns, hold the values the constructor gives them. -/
def UKF.Configured (s : UKF K) : Prop :=
  s.lambda_ = ctorLambda 0 (1 / 1000) ∧ s.weights_m_ = ctorWeightsM s.lambda_ ∧
    s.weights_c_ = ctorWeightsC 2 (1 / 1000) s.lambda_

/-! ## Invariants used by the proofs -/

/-- The state of the factorisation before column `k`: the columns from `k` on are
still zero and the product `L * Lᵀ` agrees with `A` in the rows and columns
before `k`. -/
def LltInv {n : ℕ} (A : Matrix (Fin n) (Fin n) K) (k : ℕ) (L : Matrix (Fin n) (Fin n) K) :
    Prop :=
  (∀ i c : Fin n, k ≤ c.val → L i c = 0) ∧
    ∀ a b : Fin n, a.val < k ∨ b.val < k → ∑ c, L a c * L b c = A a b

/-- The determinant of the innovation covariance of the lidar. -/
def lidarDet (s : UKF K) : K :=
  (s.P_ 0 0 + s.std_laspx_ * s.std_laspx_) * (s.P_ 1 1 + s.std_laspy_ * s.std_laspy_)
    - s.P_ 0 1 * s.P_ 1 0

/-- For `delta_t = 1` and an augmented sigma point all of whose components are zero
but the `j`-th, of value `t`: column `j` of this matrix times `t` is what
`predictColumn` returns (rows 5 and 6 are padding). -/
def unitStep : Matrix (Fin 7) (Fin 7) K :=
  !![1, 0, 1, 0, 0, 1 / 2, 0;
     0, 1, 0, 0, 0, 0, 0;
     0, 0, 1, 0, 0, 1, 0;
     0, 0, 0, 1, 1, 0, 1 / 2;
     0, 0, 0, 0, 1, 0, 1;
     0, 0, 0, 0, 0, 0, 0;
     0, 0, 0, 0, 0, 0, 0]

/-! ## Inputs of the radar examples -/

/-- The signs of one pair of sigma points: `+1` in column 1, `-1` in column
`1 + n_aug_ = 8`, and `0` in every other column. -/
def spread (i : Fin 15) : K := if i = 1 then 1 else if i = 8 then -1 else 0

/-- A tracking filter with the constructor's parameters and `P_`, the state
`(0, 5, 0, 0, 0)`, and predicted sigma points that all have `px = 0`, `py = 5` and
yaw `0`, with speed `+1` in column 1, `-1` in column 8 and `0` elsewhere. -/
def besideSensor : UKF K :=
  { UKF.new ![0, 5, 0, 0, 0] (Matrix.of fun r i => ![0, 5, spread i, 0, 0] r) with
    is_initialized_ := true }

/-- A tracking filter with the constructor's parameters and `P_`, the state
`(1, 0, 0, 0, 0)`, and predicted sigma points at rest on the unit circle:
`(3/5, 4/5)` in column 1, `(3/5, -4/5)` in column 8 and `(1, 0)` elsewhere. -/
def onUnitCircle : UKF K :=
  { UKF.new ![1, 0, 0, 0, 0]
      (Matrix.of fun r i =>
        ![1 - 2 / 5 * (spread i * spread i), 4 / 5 * spread i, 0, 0, 0] r) with
    is_initialized_ := true }

/-! ## The arithmetic of `double`

The members and locals of the filter are C++ `double`s: IEEE 754 binary64 numbers.
A finite binary64 number is a rational, and each arithmetic operation returns the
exact result rounded to the nearest binary64 number, ties to the even significand.
The rounding below is the one of the normal range (magnitudes from `2^-1022` up to
`2^1024`), in which all the values met below lie. -/

/-- Rounding to the nearest integer, ties to the even one. -/
def roundEven (t : ℚ) : ℤ :=
  if t - ⌊t⌋ < 1 / 2 then ⌊t⌋
  else if 1 / 2 < t - ⌊t⌋ then ⌊t⌋ + 1
  else if ⌊t⌋ % 2 = 0 then ⌊t⌋ else ⌊t⌋ + 1

/-- The spacing of the binary64 numbers around `q`: `2^(e-52)` for
`2^e ≤ |q| < 2^(e+1)` (53 significant bits). -/
def ulp64 (q : ℚ) : ℚ := (2 : ℚ) ^ (Int.log 2 |q| - 52)

/-- The binary64 number nearest to `q`, ties to even. -/
def round64 (q : ℚ) : ℚ := roundEven (q / ulp64 q) * ulp64 q

/-- The `double` sum `a + b`. -/
def add64 (a b : ℚ) : ℚ := round64 (a + b)

/-- The `double` difference `a - b`. -/
def sub64 (a b : ℚ) : ℚ := round64 (a - b)

/-- The `double` product `a * b`. -/
def mul64 (a b : ℚ) : ℚ := round64 (a * b)

/-- The `double` quotient `a / b`. -/
def div64 (a b : ℚ) : ℚ := round64 (a / b)

/-- The constant `M_PI` of `<cmath>`, `3.14159265358979323846` as a `double`:
`884279719003555 / 2^48`. -/
def M_PI64 : ℚ := 884279719003555 / 281474976710656

/-- Line 108 in `double` arithmetic: `while (angle > M_PI) angle -= 2.*M_PI;`. -/
def whileAbove64 : ℕ → ℚ → Option ℚ
  | 0, angle => if angle > M_PI64 then none else some angle
  | fuel + 1, angle =>
    if angle > M_PI64 then whileAbove64 fuel (sub64 angle (mul64 2 M_PI64)) else some angle

/-- Line 109 in `double` arithmetic: `while (angle < -M_PI) angle += 2.*M_PI;`. -/
def whileBelow64 : ℕ → ℚ → Option ℚ
  | 0, angle => if angle < -M_PI64 then none else some angle
  | fuel + 1, angle =>
    if angle < -M_PI64 then whileBelow64 fuel (add64 angle (mul64 2 M_PI64)) else some angle

/-- The method `UKF::NormalizeAngle` in `double` arithmetic; each of the two loops
may run `fuel` times. -/
def NormalizeAngle64 (fuel : ℕ) (angle : ℚ) : Option ℚ :=
  (whileAbove64 fuel angle).bind (whileBelow64 fuel)

/-- Line 68 in `double` arithmetic:
`lambda_ = alpha*alpha*(n_aug_ + kappa) - n_aug_`. -/
def ctorLambda64 (kappa alpha : ℚ) : ℚ :=
  sub64 (mul64 (mul64 alpha alpha) (add64 (n_aug_ : ℚ) kappa)) (n_aug_ : ℚ)

/-- Lines 69, 71-72 in `double` arithmetic: `weights_m_(0) = lambda_/(n_aug_ + lambda_)`
and `weights_m_(i) = 1.0/(2*(n_aug_+lambda_))` for `i = 1 .. 2*n_aug_`. -/
def ctorWeightsM64 (lambda : ℚ) : Fin 15 → ℚ := fun i =>
  if i = 0 then div64 lambda (add64 (n_aug_ : ℚ) lambda)
  else div64 1 (mul64 2 (add64 (n_aug_ : ℚ) lambda))

/-- Lines 70-73 in `double` arithmetic:
`weights_c_(0) = lambda_/(n_aug_ + lambda_) + (1-alpha*alpha+beta)` and
`weights_c_(i) = weights_m_(i)` for `i = 1 .. 2*n_aug_`. -/
def ctorWeightsC64 (beta alpha lambda : ℚ) : Fin 15 → ℚ := fun i =>
  if i = 0 then
    add64 (div64 lambda (add64 (n_aug_ : ℚ) lambda)) (add64 (sub64 1 (mul64 alpha alpha)) beta)
  else ctorWeightsM64 lambda i

/-- The literal `0.001` of line 62 as a `double`. -/
def alpha64 : ℚ := round64 (1 / 1000)

/-- The constructor `UKF::UKF()` with `lambda_`, `weights_m_` and `weights_c_` as
the `double` arithmetic of lines 68-73 stores them (`kappa = 0.0`, `beta = 2.0`,
`alpha = 0.001`); the other members are those of `UKF.new`. -/
def UKF.new64 (x0 : Fin 5 → K) (X0 : Matrix (Fin 5) (Fin 15) K) : UKF K :=
  { UKF.new x0 X0 with
    lambda_ := ((ctorLambda64 0 alpha64 : ℚ) : K)
    weights_m_ := fun i => ((ctorWeightsM64 (ctorLambda64 0 alpha64) i : ℚ) : K)
    weights_c_ := fun i => ((ctorWeightsC64 2 alpha64 (ctorLambda64 0 alpha64) i : ℚ) : K) }

/-- The members `lambda_`, `weights_m_` and `weights_c_` hold the `double`s the
constructor stores. -/
def UKF.Configured64 (s : UKF K) : Prop :=
  s.lambda_ = ((ctorLambda64 0 alpha64 : ℚ) : K) ∧
    s.weights_m_ = (fun i => ((ctorWeightsM64 (ctorLambda64 0 alpha64) i : ℚ) : K)) ∧
    s.weights_c_ = fun i => ((ctorWeightsC64 2 alpha64 (ctorLambda64 0 alpha64) i : ℚ) : K)

/-! ## The weights -/

theorem ctorWeightsM_sum (lambda : K) (h : (n_aug_ : K) + lambda ≠ 0) :
    ∑ i, ctorWeightsM lambda i = 1 := by
  have h7 : (7 : K) + lambda ≠ 0 := by simpa using h
  simp only [ctorWeightsM, Fin.sum_univ_succ, Fin.sum_univ_zero]
  simp [Fin.ext_iff]
  field_simp
  ring

/-! ## `NormalizeAngle` returns, and where -/

theorem whileAbove_of_le {p a : K} (fuel : ℕ) (h : a ≤ p) : whileAbove p fuel a = some a := by
  cases fuel <;> simp [whileAbove, not_lt.mpr h]

theorem whileBelow_of_le {p a : K} (fuel : ℕ) (h : -p ≤ a) : whileBelow p fuel a = some a := by
  cases fuel <;> simp [whileBelow, not_lt.mpr h]

theorem NormalizeAngle_of_mem {p a : K} (fuel : ℕ) (h1 : -p ≤ a) (h2 : a ≤ p) :
    NormalizeAngle p fuel a = some a := by
  simp [NormalizeAngle, whileAbove_of_le fuel h2, whileBelow_of_le fuel h1]

theorem whileAbove_spec (p : K) :
    ∀ (n : ℕ) (a : K), a ≤ p + 2 * p * n → ∀ fuel, n ≤ fuel →
      ∃ k : ℕ, whileAbove p fuel a = some (a - 2 * p * k) ∧ a - 2 * p * k ≤ p ∧
        (p < a → -p < a - 2 * p * k) ∧ (a ≤ p → k = 0) := by
  intro n
  induction n with
  | zero =>
    intro a ha fuel _
    have ha' : a ≤ p := by simpa using ha
    exact ⟨0, by simp [whileAbove_of_le fuel ha'], by simpa using ha',
      fun h => absurd ha' (not_le.mpr h), fun _ => rfl⟩
  | succ n ih =>
    intro a ha fuel hfuel
    rcases le_or_lt a p with hle | hlt
    · exact ⟨0, by simp [whileAbove_of_le fuel hle], by simpa using hle,
        fun h => absurd hle (not_le.mpr h), fun _ => rfl⟩
    · obtain ⟨f, rfl⟩ : ∃ f, fuel = f + 1 := ⟨fuel - 1, by omega⟩
      have ha2 : a - 2 * p ≤ p + 2 * p * n := by
        push_cast at ha
        linarith
      obtain ⟨k, hk, hle, hgt, hzero⟩ := ih (a - 2 * p) ha2 f (by omega)
      refine ⟨k + 1, ?_, ?_, ?_, ?_⟩
      · rw [whileAbove, if_pos hlt, hk]
        congr 1
        push_cast
        ring
      · push_cast
        linarith
      · intro _
        rcases le_or_lt (a - 2 * p) p with h1 | h1
        · have := hzero h1
          subst this
          push_cast
          linarith
        · have := hgt h1
          push_cast
          linarith
      · intro h
        exact absurd h (not_le.mpr hlt)

theorem whileBelow_spec (p : K) :
    ∀ (n : ℕ) (a : K), -p - 2 * p * n ≤ a → ∀ fuel, n ≤ fuel →
      ∃ k : ℕ, whileBelow p fuel a = some (a + 2 * p * k) ∧ -p ≤ a + 2 * p * k ∧
        (a < -p → a + 2 * p * k < p) ∧ (-p ≤ a → k = 0) := by
  intro n
  induction n with
  | zero =>
    intro a ha fuel _
    have ha' : -p ≤ a := by simpa using ha
    exact ⟨0, by simp [whileBelow_of_le fuel ha'], by simpa using ha',
      fun h => absurd ha' (not_le.mpr h), fun _ => rfl⟩
  | succ n ih =>
    intro a ha fuel hfuel
    rcases le_or_lt (-p) a with hle | hlt
    · exact ⟨0, by simp [whileBelow_of_le fuel hle], by simpa using hle,
        fun h => absurd hle (not_le.mpr h), fun _ => rfl⟩
    · obtain ⟨f, rfl⟩ : ∃ f, fuel = f + 1 := ⟨fuel - 1, by omega⟩
      have ha2 : -p - 2 * p * n ≤ a + 2 * p := by
        push_cast at ha
        linarith
      obtain ⟨k, hk, hle, hgt, hzero⟩ := ih (a + 2 * p) ha2 f (by omega)
      refine ⟨k + 1, ?_, ?_, ?_, ?_⟩
      · rw [whileBelow, if_pos hlt, hk]
        congr 1
        push_cast
        ring
      · push_cast
        linarith
      · intro _
        rcases le_or_lt (-p) (a + 2 * p) with h1 | h1
        · have := hzero h1
          subst this
          push_cast
          linarith
        · have := hgt h1
          push_cast
          linarith
      · intro h
        exact absurd h (not_le.mpr hlt)

/-- With enough fuel `NormalizeAngle` returns; the result is the input moved by
a whole number of turns, lies in `[-p, p]`, and is `-p` exactly for the inputs
`-p - 2*p*j`. -/
theorem NormalizeAngle_spec [Archimedean K] {p : K} (hp : 0 < p) (a : K) :
    ∃ N : ℕ, ∀ fuel, N ≤ fuel → ∃ (r : K) (k : ℤ),
      NormalizeAngle p fuel a = some r ∧ r = a + 2 * p * k ∧ -p ≤ r ∧ r ≤ p ∧
      (r = -p ↔ ∃ j : ℕ, a = -p - 2 * p * j) := by
  have h2p : 0 < 2 * p := by linarith
  obtain ⟨n1, hn1⟩ := exists_nat_ge ((a - p) / (2 * p))
  obtain ⟨n2, hn2⟩ := exists_nat_ge ((-p - a) / (2 * p))
  rw [div_le_iff₀ h2p] at hn1 hn2
  refine ⟨max n1 n2, fun fuel hfuel => ?_⟩
  obtain ⟨k1, hk1, hle1, hgt1, hz1⟩ :=
    whileAbove_spec p n1 a (by linarith) fuel (le_trans (le_max_left _ _) hfuel)
  rcases le_or_lt a p with hap | hap
  · have hk0 := hz1 hap
    subst hk0
    obtain ⟨k2, hk2, hge2, hlt2, hz2⟩ :=
      whileBelow_spec p n2 a (by linarith) fuel (le_trans (le_max_right _ _) hfuel)
    have hres : NormalizeAngle p fuel a = some (a + 2 * p * k2) := by
      simp [NormalizeAngle, whileAbove_of_le fuel hap, hk2]
    refine ⟨a + 2 * p * k2, (k2 : ℤ), hres, by push_cast; ring, hge2, ?_, ?_⟩
    · rcases le_or_lt (-p) a with h | h
      · have := hz2 h
        subst this
        simpa using hap
      · exact le_of_lt (hlt2 h)
    · constructor
      · intro h
        exact ⟨k2, by linarith⟩
      · rintro ⟨j, hj⟩
        rcases le_or_lt (-p) a with h | h
        · have := hz2 h
          subst this
          have hj0 : (2 * p) * (j : K) ≤ 0 := by linarith
          have hj1 : (0 : K) ≤ (2 * p) * (j : K) := by positivity
          simp
          linarith
        · have h3 := hlt2 h
          have e : a + 2 * p * k2 = -p + (2 * p) * ((k2 : K) - j) := by rw [hj]; ring
          rw [e] at h3 hge2 ⊢
          have h4 : (0 : K) ≤ (k2 : K) - j := by
            by_contra hneg
            push_neg at hneg
            have := mul_neg_of_pos_of_neg h2p hneg
            linarith
          have h5 : (k2 : K) - j < 1 := by
            by_contra hneg
            push_neg at hneg
            have := mul_le_mul_of_nonneg_left hneg (le_of_lt h2p)
            linarith
          have h6 : (j : K) ≤ k2 := by linarith
          have h7 : (k2 : K) < j + 1 := by linarith
          have h8 : j ≤ k2 := by exact_mod_cast h6
          have h9 : k2 < j + 1 := by exact_mod_cast h7
          have : k2 = j := by omega
          subst this
          simp
  · have hgt := hgt1 hap
    have hres : NormalizeAngle p fuel a = some (a - 2 * p * k1) := by
      simp [NormalizeAngle, hk1, whileBelow_of_le fuel (le_of_lt hgt)]
    refine ⟨a - 2 * p * k1, -(k1 : ℤ), hres, by push_cast; ring, le_of_lt hgt, hle1, ?_⟩
    constructor
    · intro h
      exact absurd h (ne_of_gt hgt)
    · rintro ⟨j, hj⟩
      have hj1 : (0 : K) ≤ (2 * p) * (j : K) := by positivity
      linarith

/-! ## Claims about `NormalizeAngle` -/

/-- C2 (as stated, refuted). The input `-π` is returned unchanged, whatever the
fuel, and `-π` is not in the half-open interval `(-π, π]`. -/
theorem C2_counterexample :
    (∀ fuel : ℕ, NormalizeAngle Real.pi fuel (-Real.pi) = some (-Real.pi)) ∧
      -Real.pi ∉ Set.Ioc (-Real.pi) Real.pi :=
  ⟨fun fuel => NormalizeAngle_of_mem fuel le_rfl (by linarith [Real.pi_pos]),
    fun h => lt_irrefl _ h.1⟩

/-- C2 (amended). For every real input angle `θ`, `NormalizeAngle` returns once the
fuel suffices, and the value it leaves lies in the closed interval `[-π, π]`; it
is `-π` exactly when `θ = -π - 2πj` for a natural number `j`, so for every other
input the value lies in `(-π, π]`. -/
theorem C2_normalized_in_closed_interval (θ : ℝ) :
    ∃ N : ℕ, ∀ fuel, N ≤ fuel → ∃ r : ℝ,
      NormalizeAngle Real.pi fuel θ = some r ∧ r ∈ Set.Icc (-Real.pi) Real.pi ∧
      (r = -Real.pi ↔ ∃ j : ℕ, θ = -Real.pi - 2 * Real.pi * j) := by
  obtain ⟨N, hN⟩ := NormalizeAngle_spec Real.pi_pos θ
  refine ⟨N, fun fuel hfuel => ?_⟩
  obtain ⟨r, _, hr, _, h1, h2, h3⟩ := hN fuel hfuel
  exact ⟨r, hr, ⟨h1, h2⟩, h3⟩

/-! ## Claims about initialisation -/

/-- C7. A first record with tag LASER and raw measurement `(x, y)`, fed to a filter
that is not initialised and has the laser enabled, sets the state to
`(x, y, 0, 0, 0)`, sets `is_initialized_`, stores the timestamp in `time_us_` and
leaves `P_` and `Xsig_pred_` as they were (no prediction, no update); a newly
constructed filter is such a filter and its `P_` is the identity. -/
theorem C7_first_laser_record (m : Libm ℝ) (fuel : ℕ) (s : UKF ℝ) (t : ℤ) (x y : ℝ)
    (hinit : s.is_initialized_ = false) (hlaser : s.use_laser_ = true) :
    (∃ s', ProcessMeasurement m fuel s ⟨t, SensorType.LASER, [x, y]⟩ = some s' ∧
      s'.x_ = ![x, y, 0, 0, 0] ∧ s'.is_initialized_ = true ∧ s'.time_us_ = t ∧
      s'.P_ = s.P_ ∧ s'.Xsig_pred_ = s.Xsig_pred_) ∧
    ∀ (x0 : Fin 5 → ℝ) (X0 : Matrix (Fin 5) (Fin 15) ℝ),
      (UKF.new x0 X0).is_initialized_ = false ∧ (UKF.new x0 X0).use_laser_ = true ∧
      (UKF.new x0 X0).P_ = 1 := by
  refine ⟨?_, fun x0 X0 => ⟨rfl, rfl, rfl⟩⟩
  simp [ProcessMeasurement, InitMeasurement, hinit, hlaser]

/-- C7 at the record `(1.0, 2.0)` and a new filter: the state is `(1, 2, 0, 0, 0)`
and the covariance is still the identity. -/
theorem C7_first_laser_record_witness :
    ∃ s', ProcessMeasurement (Libm.mk Real.pi Real.sqrt Real.sin Real.cos fun _ _ => 0) 0
        (UKF.new 0 0) ⟨0, SensorType.LASER, [1, 2]⟩ = some s' ∧
      s'.x_ = ![1, 2, 0, 0, 0] ∧ s'.is_initialized_ = true ∧ s'.time_us_ = 0 ∧ s'.P_ = 1 := by
  obtain ⟨⟨s', h, hx, hi, ht, hP, _⟩, _⟩ :=
    C7_first_laser_record (Libm.mk Real.pi Real.sqrt Real.sin Real.cos fun _ _ => 0) 0
      (UKF.new 0 0) 0 1 2 rfl rfl
  exact ⟨s', h, hx, hi, ht, hP⟩

/-- C8. A first record with tag RADAR and raw measurement `(rho, phi, rho_dot)`, fed
to a filter that is not initialised and has the radar enabled (a newly constructed
filter is one), sets the state to `(rho*cos(phi), rho*sin(phi), 0, 0, 0)` and marks
the filter initialised. -/
theorem C8_first_radar_record (m : Libm ℝ) (fuel : ℕ) (s : UKF ℝ) (t : ℤ)
    (rho phi rho_dot : ℝ)
    (hinit : s.is_initialized_ = false) (hradar : s.use_radar_ = true) :
    (∃ s', ProcessMeasurement m fuel s ⟨t, SensorType.RADAR, [rho, phi, rho_dot]⟩ = some s' ∧
      s'.x_ = ![rho * m.cos phi, rho * m.sin phi, 0, 0, 0] ∧ s'.is_initialized_ = true) ∧
    ∀ (x0 : Fin 5 → ℝ) (X0 : Matrix (Fin 5) (Fin 15) ℝ),
      (UKF.new x0 X0).is_initialized_ = false ∧ (UKF.new x0 X0).use_radar_ = true := by
  refine ⟨?_, fun x0 X0 => ⟨rfl, rfl⟩⟩
  simp [ProcessMeasurement, InitMeasurement, hinit, hradar]

/-- C8 at the record `(5.0, 0.0, 0.0)`, a new filter and the real cosine and sine:
the state is `(5, 0, 0, 0, 0)`. -/
theorem C8_first_radar_record_witness :
    ∃ s', ProcessMeasurement (Libm.mk Real.pi Real.sqrt Real.sin Real.cos fun _ _ => 0) 0
        (UKF.new 0 0) ⟨0, SensorType.RADAR, [5, 0, 0]⟩ = some s' ∧
      s'.x_ = ![5, 0, 0, 0, 0] ∧ s'.is_initialized_ = true := by
  obtain ⟨⟨s', h, hx, hi⟩, _⟩ :=
    C8_first_radar_record (Libm.mk Real.pi Real.sqrt Real.sin Real.cos fun _ _ => 0) 0
      (UKF.new 0 0) 0 5 0 0 rfl rfl
  exact ⟨s', h, by simpa using hx, hi⟩

/-! ## Loops -/

theorem fillColumns_nil {r n : ℕ} (body : Fin n → Option (Fin r → K))
    (X : Matrix (Fin r) (Fin n) K) : fillColumns body [] X = some X := rfl

theorem fillColumns_cons {r n : ℕ} (body : Fin n → Option (Fin r → K)) (c : Fin n)
    (cs : List (Fin n)) (X : Matrix (Fin r) (Fin n) K) :
    fillColumns body (c :: cs) X =
      (body c).bind fun col => fillColumns body cs (X.updateColumn c col) := by
  cases h : body c <;> simp [fillColumns, List.foldlM_cons, h]

/-- A body that returns early makes the whole loop return early. -/
theorem fillColumns_none {r n : ℕ} (body : Fin n → Option (Fin r → K)) (i : Fin n)
    (h : body i = none) :
    ∀ (cols : List (Fin n)) (X : Matrix (Fin r) (Fin n) K), i ∈ cols →
      fillColumns body cols X = none := by
  intro cols
  induction cols with
  | nil => intro X hi; simp at hi
  | cons c cs ih =>
    intro X hi
    rw [fillColumns_cons]
    cases hc : body c with
    | none => rfl
    | some col =>
      have hne : i ≠ c := by
        rintro rfl
        rw [h] at hc
        cases hc
      have hi' : i ∈ cs := by
        rcases List.mem_cons.mp hi with h1 | h1
        · exact absurd h1 hne
        · exact h1
      simpa using ih _ hi'

/-- When every body returns a column, the loop writes these columns. -/
theorem fillColumns_some {r n : ℕ} (body : Fin n → Option (Fin r → K))
    (g : Fin n → Fin r → K) :
    ∀ (cols : List (Fin n)) (X : Matrix (Fin r) (Fin n) K),
      (∀ i ∈ cols, body i = some (g i)) →
      fillColumns body cols X = some (fun a c => if c ∈ cols then g c a else X a c) := by
  intro cols
  induction cols with
  | nil => intro X _; simp [fillColumns_nil]
  | cons c cs ih =>
    intro X h
    rw [fillColumns_cons, h c (List.mem_cons_self _ _)]
    simp only [Option.some_bind]
    rw [ih _ fun i hi => h i (List.mem_cons_of_mem _ hi)]
    congr 1
    funext a j
    by_cases hj : j ∈ cs
    · simp [hj]
    · by_cases hjc : j = c
      · subst hjc
        simp [hj, Matrix.updateColumn_self]
      · simp [hj, hjc, Matrix.updateColumn_ne hjc]

theorem fillColumns_finRange {r n : ℕ} (body : Fin n → Option (Fin r → K))
    (g : Fin n → Fin r → K) (X : Matrix (Fin r) (Fin n) K)
    (h : ∀ i, body i = some (g i)) :
    fillColumns body (List.finRange n) X = some (fun a c => g c a) := by
  rw [fillColumns_some body g _ X fun i _ => h i]
  simp

/-- The accumulation loops: when every body returns, the result is the sum. -/
theorem foldlM_accumulate {α β M : Type} [AddCommMonoid M] (f : α → Option β)
    (g : α → β) (t : α → β → M) :
    ∀ (l : List α) (init : M), (∀ i ∈ l, f i = some (g i)) →
      l.foldlM (fun acc i => (f i).map fun d => acc + t i d) init
        = some (init + (l.map fun i => t i (g i)).sum) := by
  intro l
  induction l with
  | nil => intro init _; simp
  | cons c cs ih =>
    intro init h
    rw [List.foldlM_cons, h c (List.mem_cons_self _ _)]
    simp only [Option.map_some', Option.bind_eq_bind, Option.some_bind]
    rw [ih _ fun i hi => h i (List.mem_cons_of_mem _ hi)]
    simp [add_assoc]

theorem tailColumns_sum {M : Type} [AddCommMonoid M] (t : Fin 15 → M) :
    (tailColumns.map t).sum = ∑ i : Fin 14, t i.succ := by
  simp [tailColumns, List.map_map, Fin.sum_univ_def, Function.comp_def]

/-! ## The degenerate-range return of `UpdateRadar` -/

/-- C10. For a RADAR record, if some column of `Xsig_pred_` has, after the clamp of
`px`, a range `sqrt(px^2+py^2)` below `1e-5`, then `UpdateRadar` returns the filter
it was given: `x_` and `P_` (and every other member) are exactly as before. -/
theorem C10_degenerate_range_skips_update (m : Libm ℝ) (fuel : ℕ) (s : UKF ℝ)
    (meas_package : MeasurementPackage ℝ) (i : Fin 15)
    (hsqrt : m.sqrt = Real.sqrt)
    (hradar : meas_package.sensor_type_ = SensorType.RADAR)
    (hrange : Real.sqrt
        ((if s.Xsig_pred_ 0 i < 1 / 1000000 then 1 / 100000 else s.Xsig_pred_ 0 i)
          * (if s.Xsig_pred_ 0 i < 1 / 1000000 then 1 / 100000 else s.Xsig_pred_ 0 i)
          + s.Xsig_pred_ 1 i * s.Xsig_pred_ 1 i) < 1 / 100000) :
    UpdateRadar m fuel s meas_package = some s ∧
      ∀ s', UpdateRadar m fuel s meas_package = some s' → s'.x_ = s.x_ ∧ s'.P_ = s.P_ := by
  have hcol : radarColumn m (fun r => s.Xsig_pred_ r i) = none := by
    simp only [radarColumn, hsqrt]
    rw [if_pos]
    rwa [abs_of_nonneg (Real.sqrt_nonneg _)]
  have hloop := fillColumns_none (fun i => radarColumn m (fun r => s.Xsig_pred_ r i)) i hcol
    (List.finRange 15) 0 (List.mem_finRange i)
  have hres : UpdateRadar m fuel s meas_package = some s := by
    simp [UpdateRadar, hradar, hloop]
  refine ⟨hres, fun s' hs' => ?_⟩
  rw [hres] at hs'
  cases hs'
  exact ⟨rfl, rfl⟩

/-- C10 at a new filter whose predicted sigma points all have `px = py = 2e-6`
(not clamped, range `sqrt(8e-12) < 1e-5`). -/
theorem C10_degenerate_range_skips_update_witness :
    UpdateRadar (Libm.mk Real.pi Real.sqrt Real.sin Real.cos fun _ _ => 0) 0
        (UKF.new 0 fun _ _ => 2 / 1000000) ⟨0, SensorType.RADAR, [1, 0, 0]⟩
      = some (UKF.new 0 fun _ _ => 2 / 1000000) :=
  (C10_degenerate_range_skips_update
    (Libm.mk Real.pi Real.sqrt Real.sin Real.cos fun _ _ => 0) 0
    (UKF.new 0 fun _ _ => 2 / 1000000) ⟨0, SensorType.RADAR, [1, 0, 0]⟩ 0 rfl rfl
    (by
      simp only [UKF.new, UKF.construct]
      rw [if_neg (by norm_num), Real.sqrt_lt' (by norm_num)]
      norm_num)).1

/-! ## Recombining the sigma points -/

theorem UKF.new_configured (x0 : Fin 5 → K) (X0 : Matrix (Fin 5) (Fin 15) K) :
    (UKF.new x0 X0).Configured := ⟨rfl, rfl, rfl⟩

theorem UKF.Configured.lambda_add {s : UKF K} (h : s.Configured) :
    (n_aug_ : K) + s.lambda_ = 7 / 1000000 := by
  rw [h.1]
  norm_num [ctorLambda]

theorem sigmaColumns_mulVec (x_aug : Fin 7 → K) (A : Matrix (Fin 7) (Fin 7) K)
    (lambda : K) (h : (n_aug_ : K) + lambda ≠ 0) :
    sigmaColumns x_aug A *ᵥ ctorWeightsM lambda = x_aug := by
  have h7 : (7 : K) + lambda ≠ 0 := by simpa using h
  funext r
  simp only [mulVec, dotProduct, sigmaColumns, ctorWeightsM, Fin.sum_univ_succ,
    Fin.sum_univ_zero]
  simp [Fin.ext_iff]
  field_simp
  ring

theorem augmentedMean_eq (x : Fin 5 → K) :
    augmentedMean x = ![x 0, x 1, x 2, x 3, x 4, 0, 0] := by
  funext i
  fin_cases i <;> simp [augmentedMean] <;> rfl

/-! ## The Cholesky factorisation -/

theorem lltColumn_inv {n : ℕ} (sqrt : K → K) (hsqrt : ∀ x : K, 0 < x → sqrt x * sqrt x = x)
    (A : Matrix (Fin n) (Fin n) K) (hA : A.IsSymm) (L L' : Matrix (Fin n) (Fin n) K)
    (j : Fin n) (hinv : LltInv A j.val L) (hstep : lltColumn sqrt A L j = some L') :
    LltInv A (j.val + 1) L' := by
  obtain ⟨hzero, hprod⟩ := hinv
  unfold lltColumn at hstep
  simp only at hstep
  split_ifs at hstep with hx
  have hx : 0 < A j j - ∑ k, L j k * L j k := not_le.mp hx
  have hs := hsqrt _ hx
  have hs0 : sqrt (A j j - ∑ k, L j k * L j k) ≠ 0 := by
    intro h0
    rw [h0] at hs
    simp at hs
    linarith
  simp only [Option.some.injEq] at hstep
  obtain ⟨s, hsdef⟩ : ∃ s, s = sqrt (A j j - ∑ k, L j k * L j k) := ⟨_, rfl⟩
  rw [← hsdef] at hs hs0 hstep
  obtain ⟨col, hcol⟩ : ∃ col : Fin n → K, ∀ i, col i =
      if i < j then 0 else if i = j then s else (A i j - ∑ k, L i k * L j k) / s :=
    ⟨_, fun _ => rfl⟩
  have hL' : ∀ i c, L' i c = if c = j then col i else L i c := by
    intro i c
    rw [← hstep, hcol]
  have hLj : ∀ i, L i j = 0 := fun i => hzero i j le_rfl
  refine ⟨fun i c hc => ?_, fun a b hab => ?_⟩
  · have hcj : c ≠ j := by
      intro h
      rw [h] at hc
      omega
    rw [hL', if_neg hcj]
    exact hzero i c (by omega)
  · have hsum : ∑ c, L' a c * L' b c = ∑ c, L a c * L b c + col a * col b := by
      have : ∀ c, L' a c * L' b c = L a c * L b c + if c = j then col a * col b else 0 := by
        intro c
        rw [hL', hL']
        by_cases hc : c = j
        · subst hc
          simp [hLj]
        · simp [hc]
      simp only [this, Finset.sum_add_distrib, Finset.sum_ite_eq', Finset.mem_univ, if_true]
    rw [hsum]
    have hcomm : ∀ x y : Fin n, ∑ k, L x k * L y k = ∑ k, L y k * L x k := fun x y =>
      Finset.sum_congr rfl fun _ _ => mul_comm _ _
    by_cases hlt : a.val < j.val ∨ b.val < j.val
    · rw [hprod a b hlt]
      have : col a * col b = 0 := by
        rcases hlt with h | h
        · have : col a = 0 := by rw [hcol, if_pos (Fin.lt_def.mpr h)]
          simp [this]
        · have : col b = 0 := by rw [hcol, if_pos (Fin.lt_def.mpr h)]
          simp [this]
      rw [this, add_zero]
    · push_neg at hlt
      obtain ⟨ha, hb⟩ := hlt
      have hna : ¬ a < j := fun h => absurd (Fin.lt_def.mp h) (by omega)
      have hnb : ¬ b < j := fun h => absurd (Fin.lt_def.mp h) (by omega)
      by_cases haj : a = j
      · by_cases hbj : b = j
        · subst haj; subst hbj
          rw [hcol, if_neg hna, if_pos rfl, hs]
          ring
        · subst haj
          rw [hcol a, hcol b, if_neg hna, if_pos rfl, if_neg hnb, if_neg hbj]
          have hsym : A b a = A a b := by
            have := congrFun (congrFun hA a) b
            simpa [Matrix.transpose_apply] using this
          rw [hcomm b a, ← hsym]
          field_simp
      · have hbj : b = j := by
          apply Fin.ext
          have : a.val ≠ j.val := fun h' => haj (Fin.ext h')
          omega
        subst hbj
        rw [hcol a, hcol b, if_neg hna, if_neg haj, if_neg hnb, if_pos rfl]
        field_simp

theorem llt_fold_inv {n : ℕ} (sqrt : K → K) (hsqrt : ∀ x : K, 0 < x → sqrt x * sqrt x = x)
    (A : Matrix (Fin n) (Fin n) K) (hA : A.IsSymm) :
    ∀ (l : List (Fin n)) (k : ℕ) (L L' : Matrix (Fin n) (Fin n) K),
      l.map Fin.val = List.range' k l.length → LltInv A k L →
      l.foldlM (fun L j => lltColumn sqrt A L j) L = some L' →
      LltInv A (k + l.length) L' := by
  intro l
  induction l with
  | nil =>
    intro k L L' _ hinv h
    simp at h
    subst h
    simpa using hinv
  | cons j js ih =>
    intro k L L' hl hinv h
    simp only [List.map_cons, List.length_cons, List.range'_succ, List.cons.injEq] at hl
    obtain ⟨hj, hjs⟩ := hl
    rw [List.foldlM_cons] at h
    cases hstep : lltColumn sqrt A L j with
    | none => simp [hstep] at h
    | some L1 =>
      simp only [hstep, Option.bind_eq_bind, Option.some_bind] at h
      have h1 := lltColumn_inv sqrt hsqrt A hA L L1 j (hj ▸ hinv) hstep
      rw [hj] at h1
      have := ih (k + 1) L1 L' hjs h1 h
      simpa [Nat.add_assoc, Nat.add_comm 1] using this

/-- When the factorisation of a symmetric matrix succeeds, the factor `L`
satisfies `L * Lᵀ = A`. -/
theorem llt_mul_transpose {n : ℕ} (sqrt : K → K)
    (hsqrt : ∀ x : K, 0 < x → sqrt x * sqrt x = x)
    (A L : Matrix (Fin n) (Fin n) K) (hA : A.IsSymm) (h : llt sqrt A = some L) :
    L * Lᵀ = A := by
  have hinv : LltInv A 0 (0 : Matrix (Fin n) (Fin n) K) :=
    ⟨fun _ _ _ => rfl, fun a b hab => by omega⟩
  have := llt_fold_inv sqrt hsqrt A hA (List.finRange n) 0 0 L
    (by simp [List.map_coe_finRange, List.range_eq_range']) hinv h
  funext a b
  simp only [Matrix.mul_apply, Matrix.transpose_apply]
  exact this.2 a b (Or.inl (by simp))

theorem lltColumn_diagonal {n : ℕ} (sqrt : K → K) (d : Fin n → K) (hd : ∀ i, 0 < d i)
    (S : Finset (Fin n)) (j : Fin n) (hj : j ∉ S) :
    lltColumn sqrt (Matrix.diagonal d) (fun i c => if i = c ∧ c ∈ S then sqrt (d c) else 0) j
      = some (fun i c => if i = c ∧ c ∈ insert j S then sqrt (d c) else 0) := by
  have hrow : ∀ k : Fin n, (if j = k ∧ k ∈ S then sqrt (d k) else 0) = 0 := by
    intro k
    rw [if_neg]
    rintro ⟨rfl, hk⟩
    exact hj hk
  unfold lltColumn
  simp only [hrow, mul_zero, Finset.sum_const_zero, sub_zero, Matrix.diagonal_apply_eq]
  rw [if_neg (not_le.mpr (hd j))]
  congr 1
  funext i c
  by_cases hc : c = j
  · subst hc
    by_cases hi : i = c
    · subst hi
      simp
    · have : ¬ (i = c ∧ c ∈ insert c S) := fun h => hi h.1
      simp [hi, Matrix.diagonal_apply_ne _ hi]
  · have : c ∈ insert j S ↔ c ∈ S := by simp [hc]
    simp [hc, this]

theorem llt_diagonal_fold {n : ℕ} (sqrt : K → K) (d : Fin n → K) (hd : ∀ i, 0 < d i) :
    ∀ (l : List (Fin n)) (S : Finset (Fin n)), (∀ j ∈ l, j ∉ S) → l.Nodup →
      l.foldlM (fun L j => lltColumn sqrt (Matrix.diagonal d) L j)
          (fun i c => if i = c ∧ c ∈ S then sqrt (d c) else 0)
        = some (fun i c => if i = c ∧ (c ∈ S ∨ c ∈ l) then sqrt (d c) else 0) := by
  intro l
  induction l with
  | nil => intro S _ _; simp
  | cons j js ih =>
    intro S hS hnd
    rw [List.foldlM_cons, lltColumn_diagonal sqrt d hd S j (hS j (List.mem_cons_self _ _))]
    simp only [Option.bind_eq_bind, Option.some_bind]
    rw [ih (insert j S)
      (fun k hk => by
        have h1 : k ∉ S := hS k (List.mem_cons_of_mem _ hk)
        have h2 : k ≠ j := by
          rintro rfl
          exact (List.nodup_cons.mp hnd).1 hk
        simp [h1, h2])
      (List.nodup_cons.mp hnd).2]
    congr 1
    funext i c
    have : (c = j ∨ c ∈ S ∨ c ∈ js) ↔ (c ∈ S ∨ c = j ∨ c ∈ js) := by tauto
    simp only [Finset.mem_insert, List.mem_cons, or_assoc, this]

/-- The factor of a diagonal matrix with positive entries is the diagonal matrix of
their square roots. -/
theorem llt_diagonal {n : ℕ} (sqrt : K → K) (d : Fin n → K) (hd : ∀ i, 0 < d i) :
    llt sqrt (Matrix.diagonal d) = some (Matrix.diagonal fun i => sqrt (d i)) := by
  have h := llt_diagonal_fold sqrt d hd (List.finRange n) ∅ (fun _ _ => by simp)
    (List.nodup_finRange n)
  have h0 : (fun i c : Fin n => if i = c ∧ c ∈ (∅ : Finset (Fin n)) then sqrt (d c) else 0)
      = (0 : Matrix (Fin n) (Fin n) K) := by
    funext i c
    simp
  rw [h0] at h
  unfold llt
  rw [h]
  congr 1
  funext i c
  by_cases hic : i = c
  · subst hic
    simp
  · simp [hic, Matrix.diagonal_apply_ne _ hic]

theorem augmentedCovariance_symm (s : UKF K) (h : s.P_.IsSymm) :
    (augmentedCovariance s).IsSymm := by
  funext i j
  simp only [Matrix.transpose_apply, augmentedCovariance]
  by_cases h1 : i.val < 5 ∧ j.val < 5
  · have h2 : j.val < 5 ∧ i.val < 5 := ⟨h1.2, h1.1⟩
    rw [dif_pos h1, dif_pos h2]
    exact congrFun (congrFun h _) _
  · have h2 : ¬ (j.val < 5 ∧ i.val < 5) := fun h => h1 ⟨h.2, h.1⟩
    rw [dif_neg h1, dif_neg h2]
    simp only [and_comm]

/-- The augmented covariance of a filter whose `P_` is the identity. -/
theorem augmentedCovariance_one (s : UKF K) (h : s.P_ = 1) :
    augmentedCovariance s = Matrix.diagonal
      ![1, 1, 1, 1, 1, s.std_a_ * s.std_a_, s.std_yawdd_ * s.std_yawdd_] := by
  funext i j
  simp only [augmentedCovariance, h]
  fin_cases i <;> fin_cases j <;> simp [Matrix.one_apply] <;> rfl

/-! ## The lidar update -/

theorem UpdateLidar_eq (s : UKF K) (t : ℤ) (ty : SensorType) (z0 z1 : K) :
    UpdateLidar s ⟨t, ty, [z0, z1]⟩ = some { s with
      x_ := s.x_ + lidarK s *ᵥ (![z0, z1] - lidarH *ᵥ s.x_)
      P_ := (1 - lidarK s * lidarH) * s.P_ } := rfl

theorem lidarH_apply (i : Fin 2) (j : Fin 5) :
    (lidarH : Matrix (Fin 2) (Fin 5) K) i j = if i.val = j.val then 1 else 0 := by
  fin_cases i <;> fin_cases j <;> simp [lidarH]

theorem lidarS_eq (s : UKF K) :
    lidarS s = !![s.P_ 0 0 + s.std_laspx_ * s.std_laspx_, s.P_ 0 1;
           s.P_ 1 0, s.P_ 1 1 + s.std_laspy_ * s.std_laspy_] := by
  ext i j
  simp only [lidarS, Matrix.add_apply, Matrix.mul_apply, Fin.sum_univ_succ, Fin.sum_univ_zero,
    lidarH_apply, Matrix.transpose_apply]
  fin_cases i <;> fin_cases j <;> simp [lidarR]

theorem inverse_fin_two (a b c d : K) :
    inverse !![a, b; c, d] = (a * d - b * c)⁻¹ • !![d, -b; -c, a] := by
  simp [inverse, Matrix.det_fin_two, Matrix.adjugate_fin_two]

/-- Entry `(a, j)` of the gain of `UpdateLidar`. -/
theorem lidarK_apply (s : UKF K) (a : Fin 5) :
    lidarK s a 0 = (lidarDet s)⁻¹ *
        (s.P_ a 0 * (s.P_ 1 1 + s.std_laspy_ * s.std_laspy_) - s.P_ a 1 * s.P_ 1 0) ∧
    lidarK s a 1 = (lidarDet s)⁻¹ *
        (s.P_ a 1 * (s.P_ 0 0 + s.std_laspx_ * s.std_laspx_) - s.P_ a 0 * s.P_ 0 1) := by
  simp only [lidarK, lidarS_eq, inverse_fin_two, lidarDet, Matrix.mul_apply, Fin.sum_univ_succ,
    Fin.sum_univ_zero, lidarH_apply, Matrix.transpose_apply, Matrix.smul_apply, smul_eq_mul]
  constructor
  · simp
    ring
  · simp
    ring

/-- Entry `(a, b)` of the covariance `(I - K*H)*P_` of `UpdateLidar`. -/
theorem lidar_P_apply (s : UKF K) (a b : Fin 5) :
    (((1 : Matrix (Fin 5) (Fin 5) K) - lidarK s * lidarH) * s.P_ : Matrix (Fin 5) (Fin 5) K) a b
      = s.P_ a b - (lidarK s a 0 * s.P_ 0 b + lidarK s a 1 * s.P_ 1 b) := by
  rw [Matrix.sub_mul, Matrix.one_mul, Matrix.sub_apply, Matrix.mul_assoc]
  congr 1
  simp only [Matrix.mul_apply, Fin.sum_univ_succ, Fin.sum_univ_zero, lidarH_apply]
  simp

/-- Entry `a` of the gain times the residual, `K*y`, of `UpdateLidar`. -/
theorem lidar_x_apply (s : UKF K) (y : Fin 2 → K) (a : Fin 5) :
    (lidarK s *ᵥ y) a = lidarK s a 0 * y 0 + lidarK s a 1 * y 1 := by
  simp [Matrix.mulVec, Matrix.dotProduct, Fin.sum_univ_succ]

/-- What positive definiteness of `P_` gives on the position block. -/
theorem posDef_position_block (P : Matrix (Fin 5) (Fin 5) ℝ) (hP : P.PosDef) :
    P 1 0 = P 0 1 ∧ 0 < P 0 0 ∧ 0 < P 1 1 ∧ 0 < P 0 0 * P 1 1 - P 0 1 * P 0 1 := by
  have hsymm : P 1 0 = P 0 1 := by
    have := congrFun (congrFun hP.1 0) 1
    simpa [Matrix.conjTranspose_apply] using this
  have h0 : 0 < P 0 0 := by
    have := hP.2 (Pi.single 0 1) (by
      intro h
      have := congrFun h 0
      simp at this)
    simpa [Matrix.mulVec, Matrix.dotProduct, Fin.sum_univ_succ, Pi.single_apply] using this
  have h1 : 0 < P 1 1 := by
    have := hP.2 (Pi.single 1 1) (by
      intro h
      have := congrFun h 1
      simp at this)
    simpa [Matrix.mulVec, Matrix.dotProduct, Fin.sum_univ_succ, Pi.single_apply] using this
  refine ⟨hsymm, h0, h1, ?_⟩
  have h2 := hP.2 ![P 0 1, -P 0 0, 0, 0, 0] (by
    intro h
    have := congrFun h 1
    simp at this
    linarith)
  simp [Matrix.mulVec, Matrix.dotProduct, Fin.sum_univ_succ, hsymm] at h2
  have h3 : P 0 0 * (P 0 0 * P 1 1 - P 0 1 * P 0 1)
      = P 0 1 * (P 0 0 * P 0 1 + -(P 0 1 * P 0 0)) + -(P 0 0 * (P 0 1 * P 0 1 + -(P 1 1 * P 0 0))) := by
    ring
  have h4 : 0 < P 0 0 * (P 0 0 * P 1 1 - P 0 1 * P 0 1) := by
    rw [h3]
    linarith
  exact (pos_iff_pos_of_mul_pos h4).mp h0

/-- C4. For every state, every symmetric positive-definite covariance `P_` and every
LASER measurement, with positive lidar standard deviations, `UpdateLidar` returns and
the trace of the top-left 2x2 block of `P_` is not larger after the update than
before. -/
theorem C4_lidar_position_trace_nonincreasing (s : UKF ℝ) (t : ℤ) (z0 z1 : ℝ)
    (hP : s.P_.PosDef) (hpx : 0 < s.std_laspx_) (hpy : 0 < s.std_laspy_) :
    ∃ s', UpdateLidar s ⟨t, SensorType.LASER, [z0, z1]⟩ = some s' ∧
      s'.P_ 0 0 + s'.P_ 1 1 ≤ s.P_ 0 0 + s.P_ 1 1 := by
  refine ⟨_, UpdateLidar_eq s t _ z0 z1, ?_⟩
  obtain ⟨hsymm, h0, h1, hdet⟩ := posDef_position_block s.P_ hP
  show (((1 : Matrix (Fin 5) (Fin 5) ℝ) - lidarK s * lidarH) * s.P_ : Matrix (Fin 5) (Fin 5) ℝ) 0 0
      + (((1 : Matrix (Fin 5) (Fin 5) ℝ) - lidarK s * lidarH) * s.P_ : Matrix (Fin 5) (Fin 5) ℝ) 1 1
      ≤ s.P_ 0 0 + s.P_ 1 1
  rw [lidar_P_apply, lidar_P_apply, (lidarK_apply s 0).1, (lidarK_apply s 0).2,
    (lidarK_apply s 1).1, (lidarK_apply s 1).2, hsymm]
  have hupos : 0 < s.std_laspx_ * s.std_laspx_ := mul_pos hpx hpx
  have hvpos : 0 < s.std_laspy_ * s.std_laspy_ := mul_pos hpy hpy
  simp only [lidarDet, hsymm]
  generalize s.P_ 0 0 = p at h0 hdet ⊢
  generalize s.P_ 0 1 = q at hdet ⊢
  generalize s.P_ 1 1 = r at h1 hdet ⊢
  generalize s.std_laspx_ * s.std_laspx_ = u at hupos ⊢
  generalize s.std_laspy_ * s.std_laspy_ = v at hvpos ⊢
  have hDpos : 0 < (p + u) * (r + v) - q * q := by nlinarith
  have hb1 : 0 ≤ (r + v) * p ^ 2 - 2 * p * q ^ 2 + (p + u) * q ^ 2 := by
    have h : 0 ≤ (r + v) * ((r + v) * p ^ 2 - 2 * p * q ^ 2 + (p + u) * q ^ 2) := by
      have e : (r + v) * ((r + v) * p ^ 2 - 2 * p * q ^ 2 + (p + u) * q ^ 2)
          = ((r + v) * p - q ^ 2) ^ 2 + q ^ 2 * ((p + u) * (r + v) - q * q) := by ring
      rw [e]
      positivity
    exact (mul_nonneg_iff_of_pos_left (by linarith)).mp h
  have hb2 : 0 ≤ (r + v) * q ^ 2 - 2 * r * q ^ 2 + (p + u) * r ^ 2 := by
    have h : 0 ≤ (p + u) * ((r + v) * q ^ 2 - 2 * r * q ^ 2 + (p + u) * r ^ 2) := by
      have e : (p + u) * ((r + v) * q ^ 2 - 2 * r * q ^ 2 + (p + u) * r ^ 2)
          = ((p + u) * r - q ^ 2) ^ 2 + q ^ 2 * ((p + u) * (r + v) - q * q) := by ring
      rw [e]
      positivity
    exact (mul_nonneg_iff_of_pos_left (by linarith)).mp h
  have hN : 0 ≤ ((p + u) * (r + v) - q * q)⁻¹ *
      (((r + v) * p ^ 2 - 2 * p * q ^ 2 + (p + u) * q ^ 2)
        + ((r + v) * q ^ 2 - 2 * r * q ^ 2 + (p + u) * r ^ 2)) :=
    mul_nonneg (inv_nonneg.mpr (le_of_lt hDpos)) (add_nonneg hb1 hb2)
  have e : p - (((p + u) * (r + v) - q * q)⁻¹ * (p * (r + v) - q * q) * p
          + ((p + u) * (r + v) - q * q)⁻¹ * (q * (p + u) - p * q) * q)
        + (r - (((p + u) * (r + v) - q * q)⁻¹ * (q * (r + v) - r * q) * q
          + ((p + u) * (r + v) - q * q)⁻¹ * (r * (p + u) - q * q) * r))
      = p + r - ((p + u) * (r + v) - q * q)⁻¹ *
          (((r + v) * p ^ 2 - 2 * p * q ^ 2 + (p + u) * q ^ 2)
            + ((r + v) * q ^ 2 - 2 * r * q ^ 2 + (p + u) * r ^ 2)) := by ring
  rw [e]
  linarith

/-- C4 at a new filter (whose `P_` is the identity) and the record `(1, 0)`. -/
theorem C4_lidar_position_trace_nonincreasing_witness :
    ∃ s', UpdateLidar (UKF.new (0 : Fin 5 → ℝ) 0) ⟨0, SensorType.LASER, [1, 0]⟩ = some s' ∧
      s'.P_ 0 0 + s'.P_ 1 1 ≤ (UKF.new (0 : Fin 5 → ℝ) 0).P_ 0 0 + (UKF.new (0 : Fin 5 → ℝ) 0).P_ 1 1 :=
  C4_lidar_position_trace_nonincreasing (UKF.new 0 0) 0 1 0 Matrix.PosDef.one
    (by norm_num [UKF.new, UKF.construct]) (by norm_num [UKF.new, UKF.construct])

/-! ## The prediction step, loop by loop -/

theorem GenerateAugmentedSigmaPoints_eq (m : Libm K) (s : UKF K)
    (L : Matrix (Fin 7) (Fin 7) K) (h : llt m.sqrt (augmentedCovariance s) = some L) :
    GenerateAugmentedSigmaPoints m s
      = some (sigmaColumns (augmentedMean s.x_) (m.sqrt (s.lambda_ + (n_aug_ : K)) • L)) := by
  simp [GenerateAugmentedSigmaPoints, h]

theorem GenerateAugmentedSigmaPoints_some (m : Libm K) (s : UKF K)
    (Xsig_aug : Matrix (Fin 7) (Fin 15) K)
    (h : GenerateAugmentedSigmaPoints m s = some Xsig_aug) :
    ∃ L, llt m.sqrt (augmentedCovariance s) = some L ∧
      Xsig_aug = sigmaColumns (augmentedMean s.x_) (m.sqrt (s.lambda_ + (n_aug_ : K)) • L) := by
  unfold GenerateAugmentedSigmaPoints at h
  cases hL : llt m.sqrt (augmentedCovariance s) with
  | none => simp [hL] at h
  | some L =>
    simp only [hL, Option.some.injEq] at h
    exact ⟨L, rfl, h.symm⟩

theorem PredictSigmaPoints_eq (m : Libm K) (fuel : ℕ) (s : UKF K)
    (Xsig_aug : Matrix (Fin 7) (Fin 15) K) (delta_t : K) (Xp : Matrix (Fin 5) (Fin 15) K)
    (h : ∀ i, predictColumn m fuel (fun r => Xsig_aug r i) delta_t = some fun r => Xp r i) :
    PredictSigmaPoints m fuel s Xsig_aug delta_t = some { s with Xsig_pred_ := Xp } := by
  unfold PredictSigmaPoints
  rw [fillColumns_finRange _ (fun i r => Xp r i) _ h]
  rfl

theorem angleDiff_of_mem {n : ℕ} (m : Libm K) (fuel : ℕ) (k : Fin n) (a b : Fin n → K)
    (h1 : -m.M_PI ≤ a k - b k) (h2 : a k - b k ≤ m.M_PI) :
    angleDiff m fuel k a b = some (a - b) := by
  unfold angleDiff
  rw [NormalizeAngle_of_mem fuel h1 h2]
  simp only [Option.map_some', Option.some.injEq]
  exact Function.update_eq_self k (a - b)

theorem tailColumns_foldlM {M : Type} (f : M → Fin 15 → Option M) (init : M) :
    tailColumns.foldlM f init = (List.finRange 14).foldlM (fun acc i => f acc i.succ) init := by
  unfold tailColumns
  generalize List.finRange 14 = l
  induction l generalizing init with
  | nil => rfl
  | cons c cs ih =>
    simp only [List.map_cons, List.foldlM_cons]
    congr 1
    funext x
    exact ih x

theorem predictCovariance_eq (m : Libm K) (fuel : ℕ) (w : Fin 15 → K)
    (X : Matrix (Fin 5) (Fin 15) K) (x : Fin 5 → K) (D : Fin 14 → Fin 5 → K)
    (h : ∀ i : Fin 14, angleDiff m fuel 3 (fun r => X r i.succ) x = some (D i)) :
    predictCovariance m fuel w X x
      = some (∑ i : Fin 14, w i.succ • vecMulVec (D i) (D i)) := by
  unfold predictCovariance
  rw [tailColumns_foldlM]
  rw [foldlM_accumulate (fun i : Fin 14 => angleDiff m fuel 3 (fun r => X r i.succ) x) D
    (fun i d => w i.succ • vecMulVec d d) (List.finRange 14) 0 fun i _ => h i]
  simp [Fin.sum_univ_def]

/-- The result of `Prediction` from the results of its three loops. -/
theorem Prediction_eq (m : Libm K) (fuel : ℕ) (s : UKF K) (delta_t : K)
    (Xsig_aug : Matrix (Fin 7) (Fin 15) K) (Xp : Matrix (Fin 5) (Fin 15) K)
    (D : Fin 14 → Fin 5 → K)
    (hgen : GenerateAugmentedSigmaPoints m s = some Xsig_aug)
    (hcol : ∀ i, predictColumn m fuel (fun r => Xsig_aug r i) delta_t = some fun r => Xp r i)
    (hdiff : ∀ i : Fin 14,
      angleDiff m fuel 3 (fun r => Xp r i.succ) (Xp *ᵥ s.weights_m_) = some (D i)) :
    Prediction m fuel s delta_t = some { s with
      Xsig_pred_ := Xp
      x_ := Xp *ᵥ s.weights_m_
      P_ := ∑ i : Fin 14, s.weights_c_ i.succ • vecMulVec (D i) (D i) } := by
  unfold Prediction
  rw [hgen, Option.some_bind, PredictSigmaPoints_eq m fuel s Xsig_aug delta_t Xp hcol,
    Option.some_bind]
  simp only
  rw [predictCovariance_eq m fuel s.weights_c_ Xp _ D hdiff]
  rfl

/-- With `delta_t = 0` a sigma point keeps its first five components, the yaw
normalised. -/
theorem predictColumn_zero (m : Libm K) (fuel : ℕ) (c : Fin 7 → K) :
    predictColumn m fuel c 0
      = (NormalizeAngle m.M_PI fuel (c 3)).map fun yaw => ![c 0, c 1, c 2, yaw, c 4] := by
  simp [predictColumn]

/-! ## Prediction over no time -/

/-- The deviation of sigma point `i + 1` from the augmented mean is plus or minus a
column of the scaled factor. -/
theorem sigmaColumns_deviation (x_aug : Fin 7 → K) (A : Matrix (Fin 7) (Fin 7) K)
    (r : Fin 7) (i : Fin 14) :
    sigmaColumns x_aug A r i.succ - x_aug r
      = if h : i.val < 7 then A r ⟨i.val, h⟩ else -A r ⟨i.val - 7, by omega⟩ := by
  unfold sigmaColumns
  have h0 : i.succ.val ≠ 0 := by simp
  rw [if_neg h0]
  by_cases h : i.val < 7
  · have h7 : i.succ.val ≤ 7 := by
      rw [Fin.val_succ]
      omega
    rw [dif_pos h7, dif_pos h]
    have e : (⟨i.succ.val - 1, by omega⟩ : Fin 7) = ⟨i.val, h⟩ := by
      apply Fin.ext
      simp
    rw [e]
    ring
  · have h7 : ¬ i.succ.val ≤ 7 := by
      rw [Fin.val_succ]
      omega
    rw [dif_neg h7, dif_neg h]
    have e : (⟨i.succ.val - 8, by omega⟩ : Fin 7) = ⟨i.val - 7, by omega⟩ := by
      apply Fin.ext
      simp
    rw [e]
    ring

theorem sum_deviation_products (x_aug : Fin 7 → K) (A : Matrix (Fin 7) (Fin 7) K)
    (w : K) (a b : Fin 7) :
    ∑ i : Fin 14, w * ((sigmaColumns x_aug A a i.succ - x_aug a)
        * (sigmaColumns x_aug A b i.succ - x_aug b))
      = 2 * w * ∑ j : Fin 7, A a j * A b j := by
  simp only [sigmaColumns_deviation]
  rw [Fin.sum_univ_seven]
  simp only [Fin.sum_univ_succ, Fin.sum_univ_zero]
  simp
  ring

theorem augmentedMean_castLE (x : Fin 5 → K) (r : Fin 5) :
    augmentedMean x (Fin.castLE (by norm_num) r) = x r := by
  simp [augmentedMean]

theorem augmentedCovariance_castLE (s : UKF K) (a b : Fin 5) :
    augmentedCovariance s (Fin.castLE (by norm_num) a) (Fin.castLE (by norm_num) b)
      = s.P_ a b := by
  simp [augmentedCovariance]

theorem ctorWeightsC_succ (beta alpha lambda : K) (i : Fin 14) :
    ctorWeightsC beta alpha lambda i.succ = 1 / (2 * ((n_aug_ : K) + lambda)) := by
  simp [ctorWeightsC, ctorWeightsM, Fin.succ_ne_zero]

/-- The result of `Prediction` when the predicted sigma points are themselves of the
form "mean, mean plus columns, mean minus columns" (for a vector `y` and a matrix
`A`), up to a common shift `δ` of the yaw, and the yaw deviations need no
normalisation: the new state is `y` (shifted) and the new covariance is
`A * Aᵀ / (n_aug_ + lambda_)`. -/
theorem Prediction_of_sigma_form (m : Libm K) (fuel : ℕ) (s : UKF K) (delta_t : K)
    (Xsig_aug : Matrix (Fin 7) (Fin 15) K) (y : Fin 7 → K) (A : Matrix (Fin 7) (Fin 7) K)
    (δ : K) (hcfg : s.Configured)
    (hgen : GenerateAugmentedSigmaPoints m s = some Xsig_aug)
    (hcol : ∀ i, predictColumn m fuel (fun r => Xsig_aug r i) delta_t
      = some fun r => sigmaColumns y A (Fin.castLE (by norm_num) r) i + if r = 3 then δ else 0)
    (hsmall : ∀ j : Fin 7, -m.M_PI ≤ A 3 j ∧ A 3 j ≤ m.M_PI) :
    Prediction m fuel s delta_t = some { s with
      Xsig_pred_ := fun r i =>
        sigmaColumns y A (Fin.castLE (by norm_num) r) i + if r = 3 then δ else 0
      x_ := fun r => y (Fin.castLE (by norm_num) r) + if r = 3 then δ else 0
      P_ := fun a b => 1 / ((n_aug_ : K) + s.lambda_)
        * ∑ j, A (Fin.castLE (by norm_num) a) j * A (Fin.castLE (by norm_num) b) j } := by
  have hne : (n_aug_ : K) + s.lambda_ ≠ 0 := by
    rw [hcfg.lambda_add]
    norm_num
  obtain ⟨up, hup⟩ : ∃ up : Fin 5 → Fin 7, up = Fin.castLE (by norm_num) := ⟨_, rfl⟩
  simp only [← hup] at hcol ⊢
  obtain ⟨Xp, hXp⟩ : ∃ Xp : Matrix (Fin 5) (Fin 15) K,
      Xp = fun r i => sigmaColumns y A (up r) i + if r = 3 then δ else 0 := ⟨_, rfl⟩
  have hXp' : ∀ r i, Xp r i = sigmaColumns y A (up r) i + if r = 3 then δ else 0 := by
    intro r i
    rw [hXp]
  have hcol' : ∀ i, predictColumn m fuel (fun r => Xsig_aug r i) delta_t
      = some fun r => Xp r i := by
    intro i
    rw [hcol i, hXp]
  have hsumw : ∑ i, s.weights_m_ i = 1 := by
    rw [hcfg.2.1]
    exact ctorWeightsM_sum _ hne
  have hmean0 : ∀ r' : Fin 7, ∑ i, sigmaColumns y A r' i * s.weights_m_ i = y r' := by
    intro r'
    have := congrFun (sigmaColumns_mulVec y A s.lambda_ hne) r'
    rw [hcfg.2.1]
    exact this
  have hmean : Xp *ᵥ s.weights_m_ = fun r => y (up r) + if r = 3 then δ else 0 := by
    funext r
    simp only [mulVec, dotProduct, hXp', add_mul, Finset.sum_add_distrib, hmean0,
      ← Finset.mul_sum, hsumw, mul_one]
  obtain ⟨D, hD⟩ : ∃ D : Fin 14 → Fin 5 → K,
      ∀ i r, D i r = sigmaColumns y A (up r) i.succ - y (up r) := ⟨_, fun _ _ => rfl⟩
  have hdiff : ∀ i : Fin 14,
      angleDiff m fuel 3 (fun r => Xp r i.succ) (Xp *ᵥ s.weights_m_) = some (D i) := by
    intro i
    have e : (fun r => Xp r i.succ) - Xp *ᵥ s.weights_m_ = D i := by
      funext r
      rw [Pi.sub_apply, hmean, hXp', hD]
      ring
    rw [← e]
    have e3 : Xp 3 i.succ - (Xp *ᵥ s.weights_m_) 3
        = if h : i.val < 7 then A 3 ⟨i.val, h⟩ else -(A 3 ⟨i.val - 7, by omega⟩) := by
      have := congrFun e 3
      rw [Pi.sub_apply] at this
      rw [this, hD, sigmaColumns_deviation, hup]
      rfl
    apply angleDiff_of_mem
    · rw [e3]
      split_ifs
      · exact (hsmall _).1
      · linarith [(hsmall ⟨i.val - 7, by omega⟩).2]
    · rw [e3]
      split_ifs
      · exact (hsmall _).2
      · linarith [(hsmall ⟨i.val - 7, by omega⟩).1]
  have hP : (∑ i : Fin 14, s.weights_c_ i.succ • vecMulVec (D i) (D i))
      = fun a b => 1 / ((n_aug_ : K) + s.lambda_) * ∑ j, A (up a) j * A (up b) j := by
    funext a b
    rw [Matrix.sum_apply]
    simp only [Matrix.smul_apply, vecMulVec_apply, hD, smul_eq_mul, hcfg.2.2, ctorWeightsC_succ]
    rw [sum_deviation_products]
    have h7 : (7 : K) + s.lambda_ ≠ 0 := by simpa using hne
    push_cast
    field_simp
    ring
  rw [Prediction_eq m fuel s delta_t Xsig_aug Xp D hgen hcol' hdiff, hmean, hP, hXp]

/-- `Prediction(0)` when `NormalizeAngle` moves the yaw of every sigma point by the
same amount `δ` and the yaw deviations need no normalisation: the yaw of the state
moves by `δ` and nothing else changes in `x_` and `P_`. -/
theorem Prediction_zero_shift (m : Libm K) (fuel : ℕ) (s : UKF K)
    (L : Matrix (Fin 7) (Fin 7) K) (δ : K) (hcfg : s.Configured)
    (hc : m.sqrt (s.lambda_ + (n_aug_ : K)) * m.sqrt (s.lambda_ + (n_aug_ : K))
      = s.lambda_ + (n_aug_ : K))
    (hL : llt m.sqrt (augmentedCovariance s) = some L)
    (hLL : L * Lᵀ = augmentedCovariance s)
    (hshift : ∀ i, NormalizeAngle m.M_PI fuel
        (sigmaColumns (augmentedMean s.x_) (m.sqrt (s.lambda_ + (n_aug_ : K)) • L) 3 i)
      = some (sigmaColumns (augmentedMean s.x_) (m.sqrt (s.lambda_ + (n_aug_ : K)) • L) 3 i + δ))
    (hsmall : ∀ j : Fin 7, -m.M_PI ≤ m.sqrt (s.lambda_ + (n_aug_ : K)) * L 3 j ∧
      m.sqrt (s.lambda_ + (n_aug_ : K)) * L 3 j ≤ m.M_PI) :
    ∃ s', Prediction m fuel s 0 = some s' ∧
      s'.x_ = Function.update s.x_ 3 (s.x_ 3 + δ) ∧ s'.P_ = s.P_ := by
  have hne : (n_aug_ : K) + s.lambda_ ≠ 0 := by
    rw [hcfg.lambda_add]
    norm_num
  obtain ⟨c, hcdef⟩ : ∃ c, c = m.sqrt (s.lambda_ + (n_aug_ : K)) := ⟨_, rfl⟩
  rw [← hcdef] at hc hshift hsmall
  have hgen := GenerateAugmentedSigmaPoints_eq m s L hL
  rw [← hcdef] at hgen
  have hcol : ∀ i, predictColumn m fuel
        (fun r => sigmaColumns (augmentedMean s.x_) (c • L) r i) 0
      = some fun r => sigmaColumns (augmentedMean s.x_) (c • L) (Fin.castLE (by norm_num) r) i
          + if r = 3 then δ else 0 := by
    intro i
    simp only [predictColumn_zero, hshift i, Option.map_some']
    congr 1
    funext r
    fin_cases r <;> simp <;> rfl
  refine ⟨_, Prediction_of_sigma_form m fuel s 0 _ _ _ δ hcfg hgen hcol hsmall, ?_, ?_⟩
  · funext r
    show augmentedMean s.x_ (Fin.castLE (by norm_num) r) + (if r = 3 then δ else 0) = _
    rw [augmentedMean_castLE]
    by_cases hr : r = 3
    · subst hr
      simp
    · simp [hr, Function.update_noteq hr]
  · funext a b
    show 1 / ((n_aug_ : K) + s.lambda_) * ∑ j, (c • L) (Fin.castLE (by norm_num) a) j
        * (c • L) (Fin.castLE (by norm_num) b) j = s.P_ a b
    have h1 : ∑ j, L (Fin.castLE (by norm_num) a) j * L (Fin.castLE (by norm_num) b) j
        = s.P_ a b := by
      rw [← augmentedCovariance_castLE s a b, ← hLL]
      simp [Matrix.mul_apply, Matrix.transpose_apply]
    have h2 : ∑ j, (c • L) (Fin.castLE (by norm_num) a) j * (c • L) (Fin.castLE (by norm_num) b) j
        = (s.lambda_ + (n_aug_ : K)) * ∑ j, L (Fin.castLE (by norm_num) a) j
            * L (Fin.castLE (by norm_num) b) j := by
      rw [← hc, Finset.mul_sum]
      refine Finset.sum_congr rfl fun j _ => ?_
      simp only [Matrix.smul_apply, smul_eq_mul]
      ring
    rw [h2, h1, add_comm s.lambda_]
    have h7 : (7 : K) + s.lambda_ ≠ 0 := by simpa using hne
    push_cast
    field_simp

/-! ## A new filter over the reals -/

theorem real_sqrt_law : ∀ x : ℝ, 0 < x → Real.sqrt x * Real.sqrt x = x :=
  fun x hx => Real.mul_self_sqrt (le_of_lt hx)

theorem vec7_five {α : Type} (a b c d e f g : α) : ![a, b, c, d, e, f, g] 5 = f := rfl

theorem vec7_six {α : Type} (a b c d e f g : α) : ![a, b, c, d, e, f, g] 6 = g := rfl

/-- The Cholesky factor of the augmented covariance of a new filter. -/
theorem new_llt (x0 : Fin 5 → ℝ) (X0 : Matrix (Fin 5) (Fin 15) ℝ) :
    llt Real.sqrt (augmentedCovariance (UKF.new x0 X0))
      = some (Matrix.diagonal ![1, 1, 1, 1, 1, 8 / 10, 6 / 10]) := by
  have h8 : Real.sqrt (8 / 10 * (8 / 10)) = 8 / 10 := by
    rw [Real.sqrt_eq_iff_mul_self_eq] <;> norm_num
  have h6 : Real.sqrt (6 / 10 * (6 / 10)) = 6 / 10 := by
    rw [Real.sqrt_eq_iff_mul_self_eq] <;> norm_num
  have hd : (fun i => Real.sqrt ((![1, 1, 1, 1, 1, 8 / 10 * (8 / 10), 6 / 10 * (6 / 10)]
      : Fin 7 → ℝ) i)) = ![1, 1, 1, 1, 1, 8 / 10, 6 / 10] := by
    funext i
    fin_cases i <;> simp [vec7_five, vec7_six, h8, h6]
  rw [augmentedCovariance_one _ rfl, llt_diagonal]
  · simp only [UKF.new, UKF.construct]
    rw [hd]
  · intro i
    fin_cases i <;> simp [UKF.new, UKF.construct, vec7_five, vec7_six]

/-- The scale `sqrt(lambda_ + n_aug_)` of a configured filter. -/
theorem scale_bounds (s : UKF ℝ) (hcfg : s.Configured) :
    Real.sqrt (s.lambda_ + (n_aug_ : ℝ)) * Real.sqrt (s.lambda_ + (n_aug_ : ℝ))
        = 7 / 1000000 ∧
      0 ≤ Real.sqrt (s.lambda_ + (n_aug_ : ℝ)) ∧
      Real.sqrt (s.lambda_ + (n_aug_ : ℝ)) ≤ 1 / 2 := by
  have h : s.lambda_ + (n_aug_ : ℝ) = 7 / 1000000 := by
    rw [add_comm]
    exact hcfg.lambda_add
  rw [h]
  refine ⟨Real.mul_self_sqrt (by norm_num), Real.sqrt_nonneg _, ?_⟩
  rw [Real.sqrt_le_iff]
  norm_num

theorem NormalizeAngle_wrap {p a : K} (fuel : ℕ) (h1 : p < a) (h2 : a ≤ 3 * p) :
    NormalizeAngle p (fuel + 1) a = some (a - 2 * p) := by
  have h3 : a - 2 * p ≤ p := by linarith
  have h4 : -p ≤ a - 2 * p := by linarith
  simp [NormalizeAngle, whileAbove, h1, whileAbove_of_le fuel h3, whileBelow_of_le (fuel + 1) h4]

/-- The yaw row of the scaled Cholesky factor of a new filter is small. -/
theorem new_yaw_row (x0 : Fin 5 → ℝ) (X0 : Matrix (Fin 5) (Fin 15) ℝ) (j : Fin 7) :
    |Real.sqrt ((UKF.new x0 X0).lambda_ + (n_aug_ : ℝ))
        * (Matrix.diagonal ![1, 1, 1, 1, 1, 8 / 10, 6 / 10] : Matrix (Fin 7) (Fin 7) ℝ) 3 j|
      ≤ 1 / 2 := by
  obtain ⟨_, h0, h1⟩ := scale_bounds (UKF.new x0 X0) (UKF.new_configured x0 X0)
  by_cases hj : (3 : Fin 7) = j
  · subst hj
    simp only [Matrix.diagonal_apply_eq]
    rw [abs_of_nonneg (by simpa using h0)]
    simpa using h1
  · rw [Matrix.diagonal_apply_ne _ hj]
    simp

/-- The yaw of every sigma point of a new filter is within `1/2` of the yaw of the
state. -/
theorem new_sigma_yaw (x0 : Fin 5 → ℝ) (X0 : Matrix (Fin 5) (Fin 15) ℝ) (i : Fin 15) :
    |sigmaColumns (augmentedMean x0)
        (Real.sqrt ((UKF.new x0 X0).lambda_ + (n_aug_ : ℝ))
          • (Matrix.diagonal ![1, 1, 1, 1, 1, 8 / 10, 6 / 10] : Matrix (Fin 7) (Fin 7) ℝ)) 3 i
      - x0 3| ≤ 1 / 2 := by
  have hx : augmentedMean x0 3 = x0 3 := augmentedMean_castLE x0 3
  refine Fin.cases ?_ (fun k => ?_) i
  · simp [sigmaColumns, hx]
  · rw [← hx, sigmaColumns_deviation]
    split_ifs
    · exact new_yaw_row x0 X0 _
    · rw [abs_neg]
      exact new_yaw_row x0 X0 _

/-! ## Claims about the prediction step -/

/-- C5 (as stated, refuted). A new filter with the state `(0, 0, 0, 4, 0)`: its `P_`,
the identity, is symmetric positive definite, and `Prediction(0)` returns (for any
fuel above 0) with the yaw `4 - 2π` in place of `4`. -/
theorem C5_counterexample :
    (UKF.new (![0, 0, 0, 4, 0] : Fin 5 → ℝ) 0).P_.PosDef ∧
    ∀ fuel : ℕ, ∃ s',
      Prediction (Libm.mk Real.pi Real.sqrt Real.sin Real.cos fun y x => Complex.arg ⟨x, y⟩)
          (fuel + 1) (UKF.new ![0, 0, 0, 4, 0] 0) 0 = some s' ∧
        s'.x_ 3 = 4 - 2 * Real.pi ∧ s'.x_ ≠ (UKF.new (![0, 0, 0, 4, 0] : Fin 5 → ℝ) 0).x_ := by
  refine ⟨Matrix.PosDef.one, fun fuel => ?_⟩
  have hcfg := UKF.new_configured (![0, 0, 0, 4, 0] : Fin 5 → ℝ) 0
  obtain ⟨hc, -, -⟩ := scale_bounds _ hcfg
  have hc' : Real.sqrt ((UKF.new (![0, 0, 0, 4, 0] : Fin 5 → ℝ) 0).lambda_ + (n_aug_ : ℝ))
      * Real.sqrt ((UKF.new (![0, 0, 0, 4, 0] : Fin 5 → ℝ) 0).lambda_ + (n_aug_ : ℝ))
      = (UKF.new (![0, 0, 0, 4, 0] : Fin 5 → ℝ) 0).lambda_ + (n_aug_ : ℝ) := by
    rw [hc, add_comm, hcfg.lambda_add]
  have hL := new_llt (![0, 0, 0, 4, 0] : Fin 5 → ℝ) 0
  have hLL := llt_mul_transpose Real.sqrt real_sqrt_law _ _
    (augmentedCovariance_symm _ (by
      show (1 : Matrix (Fin 5) (Fin 5) ℝ).IsSymm
      exact Matrix.isSymm_one)) hL
  obtain ⟨s', hs', hx, -⟩ := Prediction_zero_shift
    (Libm.mk Real.pi Real.sqrt Real.sin Real.cos fun y x => Complex.arg ⟨x, y⟩) (fuel + 1)
    (UKF.new ![0, 0, 0, 4, 0] 0) _ (-(2 * Real.pi)) hcfg hc' hL hLL
    (fun i => by
      have h := abs_le.mp (new_sigma_yaw (![0, 0, 0, 4, 0] : Fin 5 → ℝ) 0 i)
      have h4 : (![0, 0, 0, 4, 0] : Fin 5 → ℝ) 3 = 4 := rfl
      rw [h4] at h
      have hpi1 := Real.pi_gt_three
      have hpi2 := Real.pi_lt_d2
      rw [← sub_eq_add_neg]
      refine NormalizeAngle_wrap fuel ?_ ?_
      · dsimp only [UKF.new, UKF.construct] at h ⊢
        linarith [h.1]
      · dsimp only [UKF.new, UKF.construct] at h ⊢
        linarith [h.2])
    (fun j => by
      have h := abs_le.mp (new_yaw_row (![0, 0, 0, 4, 0] : Fin 5 → ℝ) 0 j)
      have hpi1 := Real.pi_gt_three
      dsimp only [UKF.new, UKF.construct] at h ⊢
      exact ⟨by linarith [h.1], by linarith [h.2]⟩)
  have h3 : s'.x_ 3 = 4 - 2 * Real.pi := by
    rw [hx]
    simp only [Function.update_same]
    show (4 : ℝ) + -(2 * Real.pi) = 4 - 2 * Real.pi
    ring
  refine ⟨s', hs', h3, fun h => ?_⟩
  have := congrFun h 3
  rw [h3] at this
  have h4 : (UKF.new (![0, 0, 0, 4, 0] : Fin 5 → ℝ) 0).x_ 3 = 4 := rfl
  rw [h4] at this
  linarith [Real.pi_pos]

/-! ## Prediction over one second from rest -/

/-- The column `predictColumn` returns once the normalised yaw is known. -/
theorem predictColumn_eq (m : Libm K) (fuel : ℕ) (c : Fin 7 → K) (delta_t yaw : K)
    (h : NormalizeAngle m.M_PI fuel
      (c 3 + c 4 * delta_t + 1 / 2 * c 6 * delta_t * delta_t) = some yaw) :
    predictColumn m fuel c delta_t = some
      ![(if |c 4| > 1 / 10000 then
            c 0 + c 2 / c 4 * (m.sin (c 3 + c 4 * delta_t) - m.sin (c 3))
          else c 0 + c 2 * delta_t * m.cos (c 3))
          + 1 / 2 * c 5 * delta_t * delta_t * m.cos (c 3),
        (if |c 4| > 1 / 10000 then
            c 1 + c 2 / c 4 * (m.cos (c 3) - m.cos (c 3 + c 4 * delta_t))
          else c 1 + c 2 * delta_t * m.sin (c 3))
          + 1 / 2 * c 5 * delta_t * delta_t * m.sin (c 3),
        c 2 + c 5 * delta_t, yaw, c 4 + c 6 * delta_t] := by
  simp only [predictColumn, h, Option.map_some']

theorem unitStep_apply (r j : Fin 7) :
    (unitStep : Matrix (Fin 7) (Fin 7) K) r j =
      if r.val = j.val ∧ r.val < 5 then 1
      else if (r.val = 0 ∧ j.val = 2) ∨ (r.val = 3 ∧ j.val = 4) ∨ (r.val = 2 ∧ j.val = 5)
          ∨ (r.val = 4 ∧ j.val = 6) then 1
      else if (r.val = 0 ∧ j.val = 5) ∨ (r.val = 3 ∧ j.val = 6) then 1 / 2
      else 0 := by
  fin_cases r <;> fin_cases j <;> rfl

theorem unitStep_yaw_row (j : Fin 7) :
    0 ≤ (unitStep : Matrix (Fin 7) (Fin 7) K) 3 j ∧
      (unitStep : Matrix (Fin 7) (Fin 7) K) 3 j ≤ 1 := by
  rw [unitStep_apply]
  fin_cases j <;> simp [Fin.coe_ofNat_eq_mod] <;> norm_num

/-- `predictColumn` with `delta_t = 1` on a sigma point with a single nonzero
component. -/
theorem predictColumn_single (m : Libm K) (hsin : m.sin 0 = 0) (hcos : m.cos 0 = 1)
    (fuel : ℕ) (j : Fin 7) (t : K)
    (h1 : -m.M_PI ≤ t * unitStep 3 j) (h2 : t * unitStep 3 j ≤ m.M_PI) :
    predictColumn m fuel (Pi.single j t) 1
      = some fun r => t * unitStep (Fin.castLE (by norm_num) r) j := by
  have hyaw : (Pi.single j t : Fin 7 → K) 3 + (Pi.single j t : Fin 7 → K) 4 * 1
      + 1 / 2 * (Pi.single j t : Fin 7 → K) 6 * 1 * 1 = t * unitStep 3 j := by
    rw [unitStep_apply]
    fin_cases j <;> simp [Pi.single_apply, Fin.coe_ofNat_eq_mod] <;> ring
  rw [predictColumn_eq m fuel _ 1 (t * unitStep 3 j)
    (by rw [hyaw]; exact NormalizeAngle_of_mem fuel h1 h2)]
  congr 1
  funext r
  simp only [unitStep_apply]
  fin_cases j <;> fin_cases r <;>
    simp [Pi.single_apply, Fin.coe_ofNat_eq_mod, hsin, hcos] <;> ring

/-- A sigma point generated around the zero mean from a diagonal factor has a single
nonzero component. -/
theorem sigmaColumns_diagonal_single (c : K) (d : Fin 7 → K) (i : Fin 15) :
    ∃ (j : Fin 7) (t : K),
      (fun r => sigmaColumns 0 (c • Matrix.diagonal d) r i) = Pi.single j t ∧
      (∀ (G : Matrix (Fin 7) (Fin 7) K) (r' : Fin 7),
        sigmaColumns 0 (c • (G * Matrix.diagonal d)) r' i = t * G r' j) ∧
      (t = 0 ∨ t = c * d j ∨ t = -(c * d j)) := by
  refine Fin.cases ?_ (fun k => ?_) i
  · refine ⟨0, 0, ?_, ?_, Or.inl rfl⟩
    · funext r
      simp [sigmaColumns]
    · intro G r'
      simp [sigmaColumns]
  · have hdev : ∀ (A : Matrix (Fin 7) (Fin 7) K) (r : Fin 7),
        sigmaColumns 0 A r k.succ
          = if h : k.val < 7 then A r ⟨k.val, h⟩ else -A r ⟨k.val - 7, by omega⟩ := by
      intro A r
      have := sigmaColumns_deviation (0 : Fin 7 → K) A r k
      simpa using this
    by_cases hk : k.val < 7
    · refine ⟨⟨k.val, hk⟩, c * d ⟨k.val, hk⟩, ?_, ?_, Or.inr (Or.inl rfl)⟩
      · funext r
        rw [hdev, dif_pos hk]
        by_cases hr : r = ⟨k.val, hk⟩
        · subst hr
          simp
        · simp [Matrix.diagonal_apply_ne _ hr, Pi.single_apply, hr]
      · intro G r'
        rw [hdev, dif_pos hk]
        simp [Matrix.mul_diagonal]
        ring
    · refine ⟨⟨k.val - 7, by omega⟩, -(c * d ⟨k.val - 7, by omega⟩), ?_, ?_,
        Or.inr (Or.inr rfl)⟩
      · funext r
        rw [hdev, dif_neg hk]
        by_cases hr : r = ⟨k.val - 7, by omega⟩
        · subst hr
          simp
        · simp [Matrix.diagonal_apply_ne _ hr, Pi.single_apply, hr]
      · intro G r'
        rw [hdev, dif_neg hk]
        simp [Matrix.mul_diagonal]
        ring

/-- The Cholesky factor of the augmented covariance when `P_` is the identity and the
process noise is the constructor's. -/
theorem llt_of_identity (s : UKF ℝ) (hP : s.P_ = 1) (ha : s.std_a_ = 8 / 10)
    (hy : s.std_yawdd_ = 6 / 10) :
    llt Real.sqrt (augmentedCovariance s)
      = some (Matrix.diagonal ![1, 1, 1, 1, 1, 8 / 10, 6 / 10]) := by
  have e : augmentedCovariance s = augmentedCovariance (UKF.new (0 : Fin 5 → ℝ) 0) := by
    rw [augmentedCovariance_one s hP, augmentedCovariance_one _ rfl, ha, hy]
    rfl
  rw [e]
  exact new_llt 0 0

theorem rest_factor_bounds (j : Fin 7) :
    0 ≤ (![1, 1, 1, 1, 1, 8 / 10, 6 / 10] : Fin 7 → ℝ) j ∧
      (![1, 1, 1, 1, 1, 8 / 10, 6 / 10] : Fin 7 → ℝ) j ≤ 1 := by
  fin_cases j <;> simp [vec7_five, vec7_six] <;> norm_num

/-- The covariance predicted over one second from rest. -/
theorem rest_covariance :
    (fun a b : Fin 5 => ∑ j,
        (unitStep * Matrix.diagonal ![1, 1, 1, 1, 1, 8 / 10, 6 / 10] : Matrix (Fin 7) (Fin 7) ℝ)
          (Fin.castLE (by norm_num) a) j
        * (unitStep * Matrix.diagonal ![1, 1, 1, 1, 1, 8 / 10, 6 / 10] : Matrix (Fin 7) (Fin 7) ℝ)
          (Fin.castLE (by norm_num) b) j)
      = !![54 / 25, 0, 33 / 25, 0, 0;
           0, 1, 0, 0, 0;
           33 / 25, 0, 41 / 25, 0, 0;
           0, 0, 0, 209 / 100, 59 / 50;
           0, 0, 0, 59 / 50, 34 / 25] := by
  funext a b
  simp only [Matrix.mul_diagonal, unitStep_apply, Fin.sum_univ_seven]
  fin_cases a <;> fin_cases b <;>
    simp [Fin.coe_ofNat_eq_mod, vec7_five, vec7_six] <;> first | rfl | norm_num

theorem augmentedMean_zero : augmentedMean (0 : Fin 5 → K) = 0 := by
  funext i
  simp [augmentedMean]

/-- `Prediction(1)` of a filter at rest (`x_ = 0`, `P_ = 1`, the constructor's
process noise): the state stays `0` and the covariance is the one of
`rest_covariance`. -/
theorem Prediction_from_rest (m : Libm ℝ) (hpi : m.M_PI = Real.pi)
    (hsqrt : m.sqrt = Real.sqrt) (hsin : m.sin 0 = 0) (hcos : m.cos 0 = 1) (fuel : ℕ)
    (s : UKF ℝ) (hcfg : s.Configured) (hx : s.x_ = 0) (hP : s.P_ = 1)
    (ha : s.std_a_ = 8 / 10) (hy : s.std_yawdd_ = 6 / 10) :
    ∃ X, Prediction m fuel s 1 = some { s with
      Xsig_pred_ := X
      x_ := 0
      P_ := !![54 / 25, 0, 33 / 25, 0, 0;
               0, 1, 0, 0, 0;
               33 / 25, 0, 41 / 25, 0, 0;
               0, 0, 0, 209 / 100, 59 / 50;
               0, 0, 0, 59 / 50, 34 / 25] } := by
  obtain ⟨hc, hc0, hc1⟩ := scale_bounds s hcfg
  obtain ⟨c, hcdef⟩ : ∃ c, c = Real.sqrt (s.lambda_ + (n_aug_ : ℝ)) := ⟨_, rfl⟩
  rw [← hcdef] at hc hc0 hc1
  obtain ⟨d, hd⟩ : ∃ d : Fin 7 → ℝ, d = ![1, 1, 1, 1, 1, 8 / 10, 6 / 10] := ⟨_, rfl⟩
  have hdb : ∀ j, 0 ≤ d j ∧ d j ≤ 1 := by
    intro j
    rw [hd]
    exact rest_factor_bounds j
  have hpi3 := Real.pi_gt_three
  have hgen : GenerateAugmentedSigmaPoints m s
      = some (sigmaColumns 0 (c • Matrix.diagonal d)) := by
    have := GenerateAugmentedSigmaPoints_eq m s _
      (by rw [hsqrt]; exact llt_of_identity s hP ha hy)
    rw [this, hx, augmentedMean_zero, hsqrt, ← hcdef, hd]
  have hG : ∀ j, 0 ≤ (unitStep : Matrix (Fin 7) (Fin 7) ℝ) 3 j * d j ∧
      (unitStep : Matrix (Fin 7) (Fin 7) ℝ) 3 j * d j ≤ 1 := by
    intro j
    obtain ⟨g0, g1⟩ := unitStep_yaw_row (K := ℝ) j
    obtain ⟨d0, d1⟩ := hdb j
    exact ⟨mul_nonneg g0 d0, by nlinarith⟩
  have hcol : ∀ i, predictColumn m fuel
        (fun r => sigmaColumns 0 (c • Matrix.diagonal d) r i) 1
      = some fun r => sigmaColumns 0 (c • (unitStep * Matrix.diagonal d))
          (Fin.castLE (by norm_num) r) i + if r = 3 then (0 : ℝ) else 0 := by
    intro i
    obtain ⟨j, t, hcolumn, ht, hcase⟩ := sigmaColumns_diagonal_single c d i
    obtain ⟨g0, g1⟩ := unitStep_yaw_row (K := ℝ) j
    obtain ⟨d0, d1⟩ := hdb j
    have hcd0 : 0 ≤ c * d j := mul_nonneg hc0 d0
    have hcd1 : c * d j ≤ 1 / 2 := by nlinarith
    have htb : -(1 / 2) ≤ t ∧ t ≤ 1 / 2 := by
      rcases hcase with h | h | h <;> rw [h] <;> constructor <;> linarith
    have hb1 : -(1 / 2) ≤ t * unitStep 3 j := by nlinarith [htb.1, htb.2]
    have hb2 : t * unitStep 3 j ≤ 1 / 2 := by nlinarith [htb.1, htb.2]
    rw [hcolumn, predictColumn_single m hsin hcos fuel j t
      (by rw [hpi]; linarith) (by rw [hpi]; linarith)]
    congr 1
    funext r
    rw [ht]
    simp
  have hsmall : ∀ j : Fin 7,
      -m.M_PI ≤ (c • (unitStep * Matrix.diagonal d) : Matrix (Fin 7) (Fin 7) ℝ) 3 j ∧
        (c • (unitStep * Matrix.diagonal d) : Matrix (Fin 7) (Fin 7) ℝ) 3 j ≤ m.M_PI := by
    intro j
    obtain ⟨h0, h1⟩ := hG j
    have e : (c • (unitStep * Matrix.diagonal d) : Matrix (Fin 7) (Fin 7) ℝ) 3 j
        = c * (unitStep 3 j * d j) := by
      simp [Matrix.mul_diagonal]
    rw [e, hpi]
    constructor
    · nlinarith
    · nlinarith
  have hres := Prediction_of_sigma_form m fuel s 1 _ 0
    (c • (unitStep * Matrix.diagonal d)) 0 hcfg hgen hcol hsmall
  have hxnew : (fun r : Fin 5 => (0 : Fin 7 → ℝ) (Fin.castLE (by norm_num) r)
      + if r = 3 then (0 : ℝ) else 0) = 0 := by
    funext r
    simp
  have hPnew : (fun a b : Fin 5 => 1 / ((n_aug_ : ℝ) + s.lambda_)
        * ∑ j, (c • (unitStep * Matrix.diagonal d) : Matrix (Fin 7) (Fin 7) ℝ)
            (Fin.castLE (by norm_num) a) j
          * (c • (unitStep * Matrix.diagonal d) : Matrix (Fin 7) (Fin 7) ℝ)
            (Fin.castLE (by norm_num) b) j)
      = !![54 / 25, 0, 33 / 25, 0, 0;
           0, 1, 0, 0, 0;
           33 / 25, 0, 41 / 25, 0, 0;
           0, 0, 0, 209 / 100, 59 / 50;
           0, 0, 0, 59 / 50, 34 / 25] := by
    rw [← rest_covariance, ← hd]
    funext a b
    have e : ∑ j, (c • (unitStep * Matrix.diagonal d) : Matrix (Fin 7) (Fin 7) ℝ)
            (Fin.castLE (by norm_num) a) j
          * (c • (unitStep * Matrix.diagonal d) : Matrix (Fin 7) (Fin 7) ℝ)
            (Fin.castLE (by norm_num) b) j
        = (c * c) * ∑ j, (unitStep * Matrix.diagonal d : Matrix (Fin 7) (Fin 7) ℝ)
            (Fin.castLE (by norm_num) a) j
          * (unitStep * Matrix.diagonal d : Matrix (Fin 7) (Fin 7) ℝ)
            (Fin.castLE (by norm_num) b) j := by
      rw [Finset.mul_sum]
      refine Finset.sum_congr rfl fun j _ => ?_
      simp only [Matrix.smul_apply, smul_eq_mul]
      ring
    rw [e, hc, hcfg.lambda_add]
    field_simp
    ring
  rw [hxnew, hPnew] at hres
  exact ⟨_, hres⟩

/-! ## Two lidar records one second apart -/

/-- `ProcessMeasurement` on an initialised filter with the laser enabled and a
LASER record of two values: prediction over the elapsed time, then the lidar
update. -/
theorem ProcessMeasurement_laser (m : Libm K) (fuel : ℕ) (s s' : UKF K) (t : ℤ) (z0 z1 : K)
    (hinit : s.is_initialized_ = true)
    (hpred : Prediction m fuel s (((t - s.time_us_ : ℤ) : K) / 1000000) = some s')
    (hlaser : s'.use_laser_ = true) :
    ProcessMeasurement m fuel s ⟨t, SensorType.LASER, [z0, z1]⟩ = some { s' with
      x_ := s'.x_ + lidarK s' *ᵥ (![z0, z1] - lidarH *ᵥ s'.x_)
      P_ := (1 - lidarK s' * lidarH) * s'.P_
      last_meas_ := some ⟨t, SensorType.LASER, [z0, z1]⟩
      time_us_ := t } := by
  unfold ProcessMeasurement
  rw [if_neg (by simp [hinit])]
  simp only []
  rw [hpred]
  simp [hlaser, UpdateLidar_eq]

theorem trace_fin_five (P : Matrix (Fin 5) (Fin 5) K) :
    P.trace = P 0 0 + P 1 1 + P 2 2 + P 3 3 + P 4 4 := by
  simp [Matrix.trace, Fin.sum_univ_five]

/-- C9. From a newly constructed filter (default noise parameters), a LASER record
with raw `(0, 0)` at time `t` and then a LASER record with raw `(1, 0)` at time
`t + 1000000` microseconds are both processed, and afterwards the speed `x_(2)` is
strictly positive and the trace of `P_` is strictly smaller than the trace of the
initial `P_`, which is 5. -/
theorem C9_two_laser_records (atan2 : ℝ → ℝ → ℝ) (fuel : ℕ) (x0 : Fin 5 → ℝ)
    (X0 : Matrix (Fin 5) (Fin 15) ℝ) (t : ℤ) :
    ∃ s1 s2,
      ProcessMeasurement (Libm.mk Real.pi Real.sqrt Real.sin Real.cos atan2) fuel
          (UKF.new x0 X0) ⟨t, SensorType.LASER, [0, 0]⟩ = some s1 ∧
        ProcessMeasurement (Libm.mk Real.pi Real.sqrt Real.sin Real.cos atan2) fuel
          s1 ⟨t + 1000000, SensorType.LASER, [1, 0]⟩ = some s2 ∧
        0 < s2.x_ 2 ∧ s2.P_.trace < (UKF.new x0 X0).P_.trace ∧
        (UKF.new x0 X0).P_.trace = 5 := by
  obtain ⟨s1, hs1⟩ : ∃ s1 : UKF ℝ, s1 = { UKF.new x0 X0 with
      time_us_ := t
      x_ := ![0, 0, 0, 0, 0]
      is_initialized_ := true
      last_meas_ := some ⟨t, SensorType.LASER, [0, 0]⟩ } := ⟨_, rfl⟩
  have hfirst : ProcessMeasurement (Libm.mk Real.pi Real.sqrt Real.sin Real.cos atan2) fuel
      (UKF.new x0 X0) ⟨t, SensorType.LASER, [0, 0]⟩ = some s1 := by
    rw [hs1]
    simp [ProcessMeasurement, InitMeasurement, UKF.new, UKF.construct]
  have hx1 : s1.x_ = 0 := by
    rw [hs1]
    funext r
    fin_cases r <;> rfl
  obtain ⟨X, hpred⟩ := Prediction_from_rest
    (Libm.mk Real.pi Real.sqrt Real.sin Real.cos atan2) rfl rfl Real.sin_zero Real.cos_zero
    fuel s1 (by rw [hs1]; exact ⟨rfl, rfl, rfl⟩) hx1 (by rw [hs1]; rfl) (by rw [hs1]; rfl)
    (by rw [hs1]; rfl)
  have hdt : (((t + 1000000 - s1.time_us_ : ℤ) : ℝ) / 1000000) = 1 := by
    rw [hs1]
    show (((t + 1000000 - t : ℤ) : ℝ) / 1000000) = 1
    rw [add_sub_cancel_left]
    norm_num
  obtain ⟨s', hs'⟩ : ∃ s' : UKF ℝ, s' = { s1 with
      Xsig_pred_ := X
      x_ := 0
      P_ := !![54 / 25, 0, 33 / 25, 0, 0;
               0, 1, 0, 0, 0;
               33 / 25, 0, 41 / 25, 0, 0;
               0, 0, 0, 209 / 100, 59 / 50;
               0, 0, 0, 59 / 50, 34 / 25] } := ⟨_, rfl⟩
  rw [← hs'] at hpred
  have hsecond := ProcessMeasurement_laser
    (Libm.mk Real.pi Real.sqrt Real.sin Real.cos atan2) fuel s1 s' (t + 1000000) 1 0
    (by rw [hs1]) (by rw [hdt]; exact hpred) (by rw [hs', hs1]; rfl)
  have hx' : s'.x_ = 0 := by rw [hs']
  have hu : s'.std_laspx_ * s'.std_laspx_ = 9 / 400 := by
    rw [hs', hs1]
    norm_num [UKF.new, UKF.construct]
  have hv : s'.std_laspy_ * s'.std_laspy_ = 9 / 400 := by
    rw [hs', hs1]
    norm_num [UKF.new, UKF.construct]
  have e00 : s'.P_ 0 0 = 54 / 25 := by rw [hs']; rfl
  have e01 : s'.P_ 0 1 = 0 := by rw [hs']; rfl
  have e02 : s'.P_ 0 2 = 33 / 25 := by rw [hs']; rfl
  have e03 : s'.P_ 0 3 = 0 := by rw [hs']; rfl
  have e04 : s'.P_ 0 4 = 0 := by rw [hs']; rfl
  have e10 : s'.P_ 1 0 = 0 := by rw [hs']; rfl
  have e11 : s'.P_ 1 1 = 1 := by rw [hs']; rfl
  have e12 : s'.P_ 1 2 = 0 := by rw [hs']; rfl
  have e13 : s'.P_ 1 3 = 0 := by rw [hs']; rfl
  have e14 : s'.P_ 1 4 = 0 := by rw [hs']; rfl
  have e20 : s'.P_ 2 0 = 33 / 25 := by rw [hs']; rfl
  have e21 : s'.P_ 2 1 = 0 := by rw [hs']; rfl
  have e22 : s'.P_ 2 2 = 41 / 25 := by rw [hs']; rfl
  have e30 : s'.P_ 3 0 = 0 := by rw [hs']; rfl
  have e31 : s'.P_ 3 1 = 0 := by rw [hs']; rfl
  have e33 : s'.P_ 3 3 = 209 / 100 := by rw [hs']; rfl
  have e40 : s'.P_ 4 0 = 0 := by rw [hs']; rfl
  have e41 : s'.P_ 4 1 = 0 := by rw [hs']; rfl
  have e44 : s'.P_ 4 4 = 34 / 25 := by rw [hs']; rfl
  have hdet : lidarDet s' = (54 / 25 + 9 / 400) * (1 + 9 / 400) := by
    rw [lidarDet, hu, hv, e00, e11, e01, e10]
    ring
  refine ⟨s1, _, hfirst, hsecond, ?_, ?_, ?_⟩
  · show 0 < (s'.x_ + lidarK s' *ᵥ (![1, 0] - lidarH *ᵥ s'.x_)) 2
    rw [Pi.add_apply, lidar_x_apply, (lidarK_apply s' 2).1, (lidarK_apply s' 2).2, hdet, hx',
      hu, hv, e00, e01, e10, e11, e20, e21]
    simp
    norm_num
  · show Matrix.trace (((1 : Matrix (Fin 5) (Fin 5) ℝ) - lidarK s' * lidarH) * s'.P_) < _
    rw [trace_fin_five, trace_fin_five]
    simp only [lidar_P_apply, lidarK_apply, hdet, hu, hv, e00, e01, e02, e03, e04, e10, e11,
      e12, e13, e14, e20, e21, e22, e30, e31, e33, e40, e41, e44]
    simp [UKF.new, UKF.construct]
    norm_num
  · rw [trace_fin_five]
    simp [UKF.new, UKF.construct]
    norm_num

/-! ## Claims about the constructor's covariance weights and the sensor tag -/

/-- C14. After construction (for any spread parameters, the constructor's among them)
`weights_c_(0) = weights_m_(0) + (1 - alpha^2 + beta)` and
`weights_c_(i) = weights_m_(i)` for every `i` in `1 .. 14`. -/
theorem C14_covariance_weights (kappa beta alpha : ℝ) (x0 : Fin 5 → ℝ)
    (X0 : Matrix (Fin 5) (Fin 15) ℝ) :
    ((UKF.construct kappa beta alpha x0 X0).weights_c_ 0
        = (UKF.construct kappa beta alpha x0 X0).weights_m_ 0 + (1 - alpha ^ 2 + beta) ∧
      ∀ i, i ≠ 0 → (UKF.construct kappa beta alpha x0 X0).weights_c_ i
        = (UKF.construct kappa beta alpha x0 X0).weights_m_ i) ∧
    ((UKF.new x0 X0).weights_c_ 0
        = (UKF.new x0 X0).weights_m_ 0 + (1 - (1 / 1000 : ℝ) ^ 2 + 2) ∧
      ∀ i, i ≠ 0 → (UKF.new x0 X0).weights_c_ i = (UKF.new x0 X0).weights_m_ i) := by
  refine ⟨⟨?_, fun i hi => ?_⟩, ?_, fun i hi => ?_⟩
  · simp only [UKF.construct, ctorWeightsC, ctorWeightsM, if_true]
    ring
  · simp [UKF.construct, ctorWeightsC, hi]
  · simp only [UKF.new, UKF.construct, ctorWeightsC, ctorWeightsM, if_true]
    ring
  · simp [UKF.new, UKF.construct, ctorWeightsC, hi]

/-- C18. For every record whose sensor tag is not RADAR, `UpdateRadar` returns the
filter it was given: `x_`, `P_`, `Xsig_pred_`, `time_us_` and `is_initialized_` (and
every other member) are as before the call. -/
theorem C18_sensor_mismatch_returns_unchanged (m : Libm ℝ) (fuel : ℕ) (s : UKF ℝ)
    (meas_package : MeasurementPackage ℝ)
    (htag : meas_package.sensor_type_ ≠ SensorType.RADAR) :
    UpdateRadar m fuel s meas_package = some s ∧
      ∀ s', UpdateRadar m fuel s meas_package = some s' →
        s'.x_ = s.x_ ∧ s'.P_ = s.P_ ∧ s'.Xsig_pred_ = s.Xsig_pred_ ∧
          s'.time_us_ = s.time_us_ ∧ s'.is_initialized_ = s.is_initialized_ := by
  have hres : UpdateRadar m fuel s meas_package = some s := by
    simp [UpdateRadar, htag]
  refine ⟨hres, fun s' hs' => ?_⟩
  rw [hres] at hs'
  cases hs'
  exact ⟨rfl, rfl, rfl, rfl, rfl⟩

/-- C18 at a new filter and a LASER record. -/
theorem C18_sensor_mismatch_returns_unchanged_witness :
    UpdateRadar (Libm.mk Real.pi Real.sqrt Real.sin Real.cos fun y x => Complex.arg ⟨x, y⟩) 0
        (UKF.new 0 0) ⟨0, SensorType.LASER, [1, 2]⟩ = some (UKF.new 0 0) :=
  (C18_sensor_mismatch_returns_unchanged
    (Libm.mk Real.pi Real.sqrt Real.sin Real.cos fun y x => Complex.arg ⟨x, y⟩) 0
    (UKF.new 0 0) ⟨0, SensorType.LASER, [1, 2]⟩ (by decide)).1

/-! ## The clamp and the degenerate-range test of `UpdateRadar` -/

/-- The column of `Zsig_pred` computed from a sigma point that does not take the
`return` of line 339. -/
theorem radarColumn_eq (m : Libm K) (c : Fin 5 → K)
    (h : ¬ |m.sqrt ((if c 0 < 1 / 1000000 then 1 / 100000 else c 0)
        * (if c 0 < 1 / 1000000 then 1 / 100000 else c 0) + c 1 * c 1)| < 1 / 100000) :
    radarColumn m c = some
      ![m.sqrt ((if c 0 < 1 / 1000000 then 1 / 100000 else c 0)
          * (if c 0 < 1 / 1000000 then 1 / 100000 else c 0) + c 1 * c 1),
        m.atan2 (c 1) (if c 0 < 1 / 1000000 then 1 / 100000 else c 0),
        ((if c 0 < 1 / 1000000 then 1 / 100000 else c 0) * m.cos (c 3) * c 2
            + c 1 * m.sin (c 3) * c 2)
          / m.sqrt ((if c 0 < 1 / 1000000 then 1 / 100000 else c 0)
            * (if c 0 < 1 / 1000000 then 1 / 100000 else c 0) + c 1 * c 1)] := by
  simp only [radarColumn]
  rw [if_neg h]

/-- When the test of line 337 fails for the real square root. -/
theorem radarColumn_none_iff (m : Libm ℝ) (hsqrt : m.sqrt = Real.sqrt) (c : Fin 5 → ℝ) :
    radarColumn m c = none ↔
      (if c 0 < 1 / 1000000 then 1 / 100000 else c 0)
          * (if c 0 < 1 / 1000000 then 1 / 100000 else c 0) + c 1 * c 1
        < 1 / 100000 * (1 / 100000) := by
  have e : |m.sqrt ((if c 0 < 1 / 1000000 then 1 / 100000 else c 0)
        * (if c 0 < 1 / 1000000 then 1 / 100000 else c 0) + c 1 * c 1)| < 1 / 100000 ↔
      (if c 0 < 1 / 1000000 then 1 / 100000 else c 0)
          * (if c 0 < 1 / 1000000 then 1 / 100000 else c 0) + c 1 * c 1
        < 1 / 100000 * (1 / 100000) := by
    rw [hsqrt, abs_of_nonneg (Real.sqrt_nonneg _), Real.sqrt_lt' (by norm_num), sq]
  rw [← e]
  by_cases h : |m.sqrt ((if c 0 < 1 / 1000000 then 1 / 100000 else c 0)
        * (if c 0 < 1 / 1000000 then 1 / 100000 else c 0) + c 1 * c 1)| < 1 / 100000
  · simp only [radarColumn, if_pos h]
    exact ⟨fun _ => h, fun _ => trivial⟩
  · rw [radarColumn_eq m c h]
    exact ⟨fun h' => (by cases h'), fun h' => absurd h' h⟩

/-- C20. In `UpdateRadar` a sigma point whose `px` is replaced by the clamp (`px < 1e-6`,
set to `1e-5`) never triggers the degenerate-range return: its range
`sqrt((1e-5)^2 + py^2)` is at least `1e-5`.  The return is taken exactly by the sigma
points with `1e-6 ≤ px < 1e-5` and `px^2 + py^2 < 1e-10`. -/
theorem C20_clamped_point_never_aborts (m : Libm ℝ) (hsqrt : m.sqrt = Real.sqrt)
    (c : Fin 5 → ℝ) :
    (c 0 < 1 / 1000000 →
      1 / 100000 ≤ Real.sqrt (1 / 100000 * (1 / 100000) + c 1 * c 1) ∧
      ∃ z, radarColumn m c = some z ∧
        z 0 = Real.sqrt (1 / 100000 * (1 / 100000) + c 1 * c 1)) ∧
    (radarColumn m c = none ↔
      1 / 1000000 ≤ c 0 ∧ c 0 < 1 / 100000 ∧ c 0 ^ 2 + c 1 ^ 2 < 1 / 10000000000) := by
  constructor
  · intro hpx
    have hge : 1 / 100000 ≤ Real.sqrt (1 / 100000 * (1 / 100000) + c 1 * c 1) := by
      apply Real.le_sqrt_of_sq_le
      nlinarith [mul_self_nonneg (c 1)]
    refine ⟨hge, ?_⟩
    have hnot : ¬ |m.sqrt ((if c 0 < 1 / 1000000 then 1 / 100000 else c 0)
        * (if c 0 < 1 / 1000000 then 1 / 100000 else c 0) + c 1 * c 1)| < 1 / 100000 := by
      rw [if_pos hpx, hsqrt, abs_of_nonneg (Real.sqrt_nonneg _)]
      exact not_lt.mpr hge
    refine ⟨_, radarColumn_eq m c hnot, ?_⟩
    simp only [Matrix.cons_val_zero, if_pos hpx, hsqrt]
  · rw [radarColumn_none_iff m hsqrt]
    by_cases hpx : c 0 < 1 / 1000000
    · rw [if_pos hpx]
      constructor
      · intro h
        nlinarith [mul_self_nonneg (c 1)]
      · intro h
        linarith [h.1]
    · rw [if_neg hpx]
      push_neg at hpx
      constructor
      · intro h
        refine ⟨hpx, ?_, by nlinarith⟩
        by_contra hge
        push_neg at hge
        nlinarith [mul_self_nonneg (c 1)]
      · intro h
        nlinarith [h.2.2]

/-- C20 at the sigma points `(0, 0, 0, 0, 0)` (clamped, range exactly `1e-5`, no
return) and `(2e-6, 0, 0, 0, 0)` (not clamped, range `2e-6`, return). -/
theorem C20_clamped_point_never_aborts_witness :
    (∃ z, radarColumn (Libm.mk Real.pi Real.sqrt Real.sin Real.cos
        fun y x => Complex.arg ⟨x, y⟩) ![0, 0, 0, 0, 0] = some z) ∧
      radarColumn (Libm.mk Real.pi Real.sqrt Real.sin Real.cos
        fun y x => Complex.arg ⟨x, y⟩) ![2 / 1000000, 0, 0, 0, 0] = none := by
  constructor
  · obtain ⟨_, z, hz, _⟩ := (C20_clamped_point_never_aborts
      (Libm.mk Real.pi Real.sqrt Real.sin Real.cos fun y x => Complex.arg ⟨x, y⟩) rfl
      ![0, 0, 0, 0, 0]).1 (by norm_num)
    exact ⟨z, hz⟩
  · exact (C20_clamped_point_never_aborts
      (Libm.mk Real.pi Real.sqrt Real.sin Real.cos fun y x => Complex.arg ⟨x, y⟩) rfl
      ![2 / 1000000, 0, 0, 0, 0]).2.mpr (by norm_num)

/-! ## More fuel does not change a result -/

theorem whileAbove_succ (p : K) :
    ∀ (f : ℕ) (a r : K), whileAbove p f a = some r → whileAbove p (f + 1) a = some r := by
  intro f
  induction f with
  | zero =>
    intro a r h
    by_cases ha : a > p
    · simp [whileAbove, ha] at h
    · simp only [whileAbove, if_neg ha] at h ⊢
      exact h
  | succ f ih =>
    intro a r h
    by_cases ha : a > p
    · rw [whileAbove, if_pos ha] at h
      rw [whileAbove, if_pos ha]
      exact ih _ _ h
    · rw [whileAbove, if_neg ha] at h
      rw [whileAbove, if_neg ha]
      exact h

theorem whileBelow_succ (p : K) :
    ∀ (f : ℕ) (a r : K), whileBelow p f a = some r → whileBelow p (f + 1) a = some r := by
  intro f
  induction f with
  | zero =>
    intro a r h
    by_cases ha : a < -p
    · simp [whileBelow, ha] at h
    · simp only [whileBelow, if_neg ha] at h ⊢
      exact h
  | succ f ih =>
    intro a r h
    by_cases ha : a < -p
    · rw [whileBelow, if_pos ha] at h
      rw [whileBelow, if_pos ha]
      exact ih _ _ h
    · rw [whileBelow, if_neg ha] at h
      rw [whileBelow, if_neg ha]
      exact h

theorem NormalizeAngle_succ (p : K) (f : ℕ) (a r : K) (h : NormalizeAngle p f a = some r) :
    NormalizeAngle p (f + 1) a = some r := by
  unfold NormalizeAngle at h ⊢
  cases h1 : whileAbove p f a with
  | none => simp [h1] at h
  | some r1 =>
    rw [h1, Option.some_bind] at h
    rw [whileAbove_succ p f a r1 h1, Option.some_bind]
    exact whileBelow_succ p f r1 r h

theorem NormalizeAngle_mono (p : K) (a r : K) {f f' : ℕ} (hf : f ≤ f')
    (h : NormalizeAngle p f a = some r) : NormalizeAngle p f' a = some r := by
  induction hf with
  | refl => exact h
  | step _ ih => exact NormalizeAngle_succ p _ a r ih

/-- Over an Archimedean field and for a positive `M_PI`, `NormalizeAngle` has one
result for every large enough fuel. -/
theorem NormalizeAngle_stable [Archimedean K] {p : K} (hp : 0 < p) (a : K) :
    ∃ (r : K) (N : ℕ), ∀ fuel, N ≤ fuel → NormalizeAngle p fuel a = some r := by
  obtain ⟨N, hN⟩ := NormalizeAngle_spec hp a
  obtain ⟨r, _, hr, _⟩ := hN N le_rfl
  exact ⟨r, N, fun fuel hfuel => NormalizeAngle_mono p a r hfuel hr⟩

/-- Finitely many computations that each have a result for every large enough fuel
have their results together for every large enough fuel. -/
theorem stable_family {ι β : Type} [Fintype ι] (f : ι → ℕ → Option β)
    (h : ∀ i, ∃ (r : β) (N : ℕ), ∀ fuel, N ≤ fuel → f i fuel = some r) :
    ∃ (g : ι → β) (N : ℕ), ∀ fuel, N ≤ fuel → ∀ i, f i fuel = some (g i) := by
  choose g Ns hg using h
  refine ⟨g, Finset.univ.sup Ns, fun fuel hfuel i => hg i fuel ?_⟩
  exact le_trans (Finset.le_sup (Finset.mem_univ i)) hfuel

theorem angleDiff_stable [Archimedean K] {n : ℕ} (m : Libm K) (hp : 0 < m.M_PI) (k : Fin n)
    (a b : Fin n → K) :
    ∃ (d : Fin n → K) (N : ℕ), ∀ fuel, N ≤ fuel → angleDiff m fuel k a b = some d := by
  obtain ⟨r, N, hr⟩ := NormalizeAngle_stable hp (a k - b k)
  refine ⟨Function.update (a - b) k r, N, fun fuel hfuel => ?_⟩
  simp [angleDiff, hr fuel hfuel]

theorem predictColumn_stable [Archimedean K] (m : Libm K) (hp : 0 < m.M_PI) (c : Fin 7 → K)
    (delta_t : K) :
    ∃ (col : Fin 5 → K) (N : ℕ), ∀ fuel, N ≤ fuel →
      predictColumn m fuel c delta_t = some col := by
  obtain ⟨r, N, hr⟩ := NormalizeAngle_stable hp
    (c 3 + c 4 * delta_t + 1 / 2 * c 6 * delta_t * delta_t)
  exact ⟨_, N, fun fuel hfuel => predictColumn_eq m fuel c delta_t r (hr fuel hfuel)⟩

/-- With a Cholesky factor at hand, `Prediction` returns for every large enough
fuel, and always the same filter. -/
theorem Prediction_stable [Archimedean K] (m : Libm K) (hp : 0 < m.M_PI) (s : UKF K)
    (delta_t : K) (Xsig_aug : Matrix (Fin 7) (Fin 15) K)
    (hgen : GenerateAugmentedSigmaPoints m s = some Xsig_aug) :
    ∃ (Xp : Matrix (Fin 5) (Fin 15) K) (D : Fin 14 → Fin 5 → K) (N : ℕ),
      ∀ fuel, N ≤ fuel →
        (∀ i, predictColumn m fuel (fun r => Xsig_aug r i) delta_t = some fun r => Xp r i) ∧
        (∀ i : Fin 14, angleDiff m fuel 3 (fun r => Xp r i.succ) (Xp *ᵥ s.weights_m_)
          = some (D i)) ∧
        Prediction m fuel s delta_t = some { s with
          Xsig_pred_ := Xp
          x_ := Xp *ᵥ s.weights_m_
          P_ := ∑ i : Fin 14, s.weights_c_ i.succ • vecMulVec (D i) (D i) } := by
  obtain ⟨g, N1, hg⟩ := stable_family
    (fun i fuel => predictColumn m fuel (fun r => Xsig_aug r i) delta_t)
    (fun i => predictColumn_stable m hp _ delta_t)
  obtain ⟨Xp, hXp⟩ : ∃ Xp : Matrix (Fin 5) (Fin 15) K, Xp = fun r i => g i r := ⟨_, rfl⟩
  obtain ⟨D, N2, hD⟩ := stable_family
    (fun (i : Fin 14) fuel => angleDiff m fuel 3 (fun r => Xp r i.succ) (Xp *ᵥ s.weights_m_))
    (fun i => angleDiff_stable m hp 3 _ _)
  refine ⟨Xp, D, max N1 N2, fun fuel hfuel => ?_⟩
  have h1 : ∀ i, predictColumn m fuel (fun r => Xsig_aug r i) delta_t
      = some fun r => Xp r i := by
    intro i
    rw [hg fuel (le_trans (le_max_left _ _) hfuel) i, hXp]
  have h2 := hD fuel (le_trans (le_max_right _ _) hfuel)
  exact ⟨h1, h2, Prediction_eq m fuel s delta_t Xsig_aug Xp D hgen h1 h2⟩

/-! ## From a result back to the loops -/

theorem fillColumns_finRange_inv {r n : ℕ} (body : Fin n → Option (Fin r → K))
    (X Y : Matrix (Fin r) (Fin n) K) (h : fillColumns body (List.finRange n) X = some Y) :
    ∀ i, body i = some fun a => Y a i := by
  have hsome : ∀ i, ∃ c, body i = some c := by
    intro i
    cases hb : body i with
    | none =>
      rw [fillColumns_none body i hb _ X (List.mem_finRange i)] at h
      cases h
    | some c => exact ⟨c, rfl⟩
  choose g hg using hsome
  rw [fillColumns_finRange body g X hg] at h
  intro i
  rw [hg i]
  cases h
  rfl

theorem foldlM_accumulate_none {α β M : Type} [AddCommMonoid M] (f : α → Option β)
    (t : α → β → M) (i : α) (hi : f i = none) :
    ∀ (l : List α) (init : M), i ∈ l →
      l.foldlM (fun acc i => (f i).map fun d => acc + t i d) init = none := by
  intro l
  induction l with
  | nil => intro init h; simp at h
  | cons c cs ih =>
    intro init h
    rw [List.foldlM_cons]
    cases hc : f c with
    | none => rfl
    | some d =>
      have hne : i ≠ c := by
        rintro rfl
        rw [hi] at hc
        cases hc
      have hi' : i ∈ cs := by
        rcases List.mem_cons.mp h with h1 | h1
        · exact absurd h1 hne
        · exact h1
      simpa using ih _ hi'

theorem foldlM_accumulate_inv {α β M : Type} [AddCommMonoid M] [Inhabited β]
    (f : α → Option β) (t : α → β → M) (l : List α) (init R : M)
    (h : l.foldlM (fun acc i => (f i).map fun d => acc + t i d) init = some R) :
    ∃ g : α → β, (∀ i ∈ l, f i = some (g i)) ∧ R = init + (l.map fun i => t i (g i)).sum := by
  have hsome : ∀ i ∈ l, f i = some ((f i).getD default) := by
    intro i hi
    cases hb : f i with
    | none =>
      rw [foldlM_accumulate_none f t i hb l init hi] at h
      cases h
    | some c => rfl
  refine ⟨fun i => (f i).getD default, hsome, ?_⟩
  rw [foldlM_accumulate f (fun i => (f i).getD default) t l init hsome] at h
  cases h
  rfl

theorem predictCovariance_inv (m : Libm K) (fuel : ℕ) (w : Fin 15 → K)
    (X : Matrix (Fin 5) (Fin 15) K) (x : Fin 5 → K) (P : Matrix (Fin 5) (Fin 5) K)
    (h : predictCovariance m fuel w X x = some P) :
    ∃ D : Fin 14 → Fin 5 → K,
      (∀ i : Fin 14, angleDiff m fuel 3 (fun r => X r i.succ) x = some (D i)) ∧
      P = ∑ i : Fin 14, w i.succ • vecMulVec (D i) (D i) := by
  unfold predictCovariance at h
  rw [tailColumns_foldlM] at h
  haveI : Inhabited (Fin 5 → K) := ⟨0⟩
  obtain ⟨D, hD, hP⟩ := foldlM_accumulate_inv
    (fun i : Fin 14 => angleDiff m fuel 3 (fun r => X r i.succ) x)
    (fun i d => w i.succ • vecMulVec d d) (List.finRange 14) 0 P h
  refine ⟨D, fun i => hD i (List.mem_finRange i), ?_⟩
  rw [hP]
  simp [Fin.sum_univ_def]

/-- What a returned `Prediction` consists of. -/
theorem Prediction_inv (m : Libm K) (fuel : ℕ) (s s' : UKF K) (delta_t : K)
    (h : Prediction m fuel s delta_t = some s') :
    ∃ (Xsig_aug : Matrix (Fin 7) (Fin 15) K) (Xp : Matrix (Fin 5) (Fin 15) K)
      (D : Fin 14 → Fin 5 → K),
      GenerateAugmentedSigmaPoints m s = some Xsig_aug ∧
      (∀ i, predictColumn m fuel (fun r => Xsig_aug r i) delta_t = some fun r => Xp r i) ∧
      (∀ i : Fin 14, angleDiff m fuel 3 (fun r => Xp r i.succ) (Xp *ᵥ s.weights_m_)
        = some (D i)) ∧
      s' = { s with
        Xsig_pred_ := Xp
        x_ := Xp *ᵥ s.weights_m_
        P_ := ∑ i : Fin 14, s.weights_c_ i.succ • vecMulVec (D i) (D i) } := by
  unfold Prediction at h
  cases hgen : GenerateAugmentedSigmaPoints m s with
  | none => simp [hgen] at h
  | some Xa =>
    rw [hgen, Option.some_bind] at h
    unfold PredictSigmaPoints at h
    cases hfill : fillColumns (fun i => predictColumn m fuel (fun r => Xa r i) delta_t)
        (List.finRange 15) 0 with
    | none => simp [hfill] at h
    | some Xp =>
      rw [hfill, Option.map_some', Option.some_bind] at h
      simp only at h
      cases hcov : predictCovariance m fuel s.weights_c_ Xp (Xp *ᵥ s.weights_m_) with
      | none => simp [hcov] at h
      | some P =>
        rw [hcov, Option.map_some'] at h
        obtain ⟨D, hD, hP⟩ := predictCovariance_inv m fuel _ _ _ _ hcov
        refine ⟨Xa, Xp, D, rfl, fillColumns_finRange_inv _ _ _ hfill, hD, ?_⟩
        rw [← hP]
        exact (Option.some.inj h).symm

theorem predictColumn_inv (m : Libm K) (fuel : ℕ) (c : Fin 7 → K) (delta_t : K)
    (col : Fin 5 → K) (h : predictColumn m fuel c delta_t = some col) :
    col 2 = c 2 + c 5 * delta_t ∧ col 4 = c 4 + c 6 * delta_t := by
  cases hn : NormalizeAngle m.M_PI fuel
      (c 3 + c 4 * delta_t + 1 / 2 * c 6 * delta_t * delta_t) with
  | none =>
    unfold predictColumn at h
    simp only [] at h
    rw [hn] at h
    cases h
  | some yaw =>
    rw [predictColumn_eq m fuel c delta_t yaw hn] at h
    cases h
    exact ⟨rfl, rfl⟩

theorem PredictSigmaPoints_inv (m : Libm K) (fuel : ℕ) (s s' : UKF K)
    (Xsig_aug : Matrix (Fin 7) (Fin 15) K) (delta_t : K)
    (h : PredictSigmaPoints m fuel s Xsig_aug delta_t = some s') :
    ∀ i, predictColumn m fuel (fun r => Xsig_aug r i) delta_t
      = some fun r => s'.Xsig_pred_ r i := by
  unfold PredictSigmaPoints at h
  cases hfill : fillColumns (fun i => predictColumn m fuel (fun r => Xsig_aug r i) delta_t)
      (List.finRange 15) 0 with
  | none => simp [hfill] at h
  | some Xp =>
    rw [hfill, Option.map_some'] at h
    cases h
    exact fillColumns_finRange_inv _ _ _ hfill

/-! ## Claims about the process model and the dispatch -/

/-- C19. For every augmented sigma point and every `delta_t`, `PredictSigmaPoints`
returns (for every large enough fuel) and the predicted speed is `v + nu_a*delta_t`
and the predicted yaw-rate is `yawd + nu_yawdd*delta_t`, whichever branch computes
the position; so a sigma point with both noise components zero keeps its speed and
its yaw-rate. -/
theorem C19_speed_and_yaw_rate_carried (m : Libm ℝ) (hpi : m.M_PI = Real.pi) (s : UKF ℝ)
    (Xsig_aug : Matrix (Fin 7) (Fin 15) ℝ) (delta_t : ℝ) :
    (∃ N : ℕ, ∀ fuel, N ≤ fuel → ∃ s', PredictSigmaPoints m fuel s Xsig_aug delta_t = some s') ∧
    ∀ fuel s', PredictSigmaPoints m fuel s Xsig_aug delta_t = some s' → ∀ i,
      s'.Xsig_pred_ 2 i = Xsig_aug 2 i + Xsig_aug 5 i * delta_t ∧
      s'.Xsig_pred_ 4 i = Xsig_aug 4 i + Xsig_aug 6 i * delta_t ∧
      (Xsig_aug 5 i = 0 → Xsig_aug 6 i = 0 →
        s'.Xsig_pred_ 2 i = Xsig_aug 2 i ∧ s'.Xsig_pred_ 4 i = Xsig_aug 4 i) := by
  constructor
  · obtain ⟨g, N, hg⟩ := stable_family
      (fun i fuel => predictColumn m fuel (fun r => Xsig_aug r i) delta_t)
      (fun i => predictColumn_stable m (by rw [hpi]; exact Real.pi_pos) _ delta_t)
    refine ⟨N, fun fuel hfuel => ⟨_, PredictSigmaPoints_eq m fuel s Xsig_aug delta_t
      (fun r i => g i r) (hg fuel hfuel)⟩⟩
  · intro fuel s' h i
    obtain ⟨h2, h4⟩ := predictColumn_inv m fuel _ delta_t _
      (PredictSigmaPoints_inv m fuel s s' Xsig_aug delta_t h i)
    refine ⟨h2, h4, fun h5 h6 => ?_⟩
    rw [h2, h4, h5, h6]
    simp

/-- C19 at the sigma-point matrix all of whose columns are `(0, 0, 3, 0, 0, 2, 0)`
(speed 3, acceleration noise 2) and `delta_t = 1`: the predicted speeds are `5` and
the predicted yaw-rates are `0`. -/
theorem C19_speed_and_yaw_rate_carried_witness :
    ∃ fuel s', PredictSigmaPoints (Libm.mk Real.pi Real.sqrt Real.sin Real.cos
        fun y x => Complex.arg ⟨x, y⟩) fuel (UKF.new 0 0)
        (fun r _ => ![0, 0, 3, 0, 0, 2, 0] r) 1 = some s' ∧
      ∀ i, s'.Xsig_pred_ 2 i = 5 ∧ s'.Xsig_pred_ 4 i = 0 := by
  obtain ⟨⟨N, hN⟩, hval⟩ := C19_speed_and_yaw_rate_carried
    (Libm.mk Real.pi Real.sqrt Real.sin Real.cos fun y x => Complex.arg ⟨x, y⟩) rfl
    (UKF.new 0 0) (fun r _ => ![0, 0, 3, 0, 0, 2, 0] r) 1
  obtain ⟨s', hs'⟩ := hN N le_rfl
  refine ⟨N, s', hs', fun i => ?_⟩
  obtain ⟨h2, h4, -⟩ := hval N s' hs' i
  rw [h2, h4]
  simp [vec7_five, vec7_six]
  norm_num

/-! ## The clamp of line 335 on a negative `px` -/

/-- C15 (the code departs from it). The sigma point `(-1, 0, 0, 0, 0)` has
`|px| = 1`, far from zero, yet line 335 replaces its `px` by `1e-5`: the range comes
out as `1e-5` and the bearing as `0`, where `sqrt(px^2 + py^2) = 1` and
`atan2(py, px) = π`. -/
theorem C15_negative_px_is_clamped :
    radarColumn (Libm.mk Real.pi Real.sqrt Real.sin Real.cos fun y x => Complex.arg ⟨x, y⟩)
        ![-1, 0, 0, 0, 0] = some ![1 / 100000, 0, 0] ∧
      Real.sqrt ((-1) * (-1) + 0 * 0) = 1 ∧ Complex.arg ⟨-1, 0⟩ = Real.pi := by
  have h5 : Real.sqrt (1 / 100000 * (1 / 100000) + 0 * 0) = 1 / 100000 := by
    rw [mul_zero, add_zero]
    exact Real.sqrt_mul_self (by norm_num)
  refine ⟨?_, ?_, ?_⟩
  · rw [radarColumn_eq]
    · have hlt : ((-1 : ℝ) < 1 / 1000000) := by norm_num
      simp only [Matrix.cons_val_zero, Matrix.cons_val_one, Matrix.head_cons, if_pos hlt, h5]
      congr 1
      funext r
      fin_cases r
      · rfl
      · show Complex.arg ⟨1 / 100000, 0⟩ = 0
        rw [Complex.arg_eq_zero_iff]
        exact ⟨by norm_num, rfl⟩
      · show (_ : ℝ) / _ = 0
        simp
    · have hlt : ((-1 : ℝ) < 1 / 1000000) := by norm_num
      simp only [Matrix.cons_val_zero, Matrix.cons_val_one, Matrix.head_cons, if_pos hlt, h5]
      rw [abs_of_nonneg (by norm_num)]
      exact lt_irrefl _
  · rw [mul_zero, add_zero]
    norm_num
  · rw [Complex.arg_eq_pi_iff]
    exact ⟨by norm_num, rfl⟩

/-! ## Records of a disabled sensor type -/

/-- `Prediction` leaves the two sensor switches as they are. -/
theorem Prediction_flags (m : Libm K) (fuel : ℕ) (s s' : UKF K) (delta_t : K)
    (h : Prediction m fuel s delta_t = some s') :
    s'.use_laser_ = s.use_laser_ ∧ s'.use_radar_ = s.use_radar_ := by
  obtain ⟨Xa, Xp, D, -, -, -, rfl⟩ := Prediction_inv m fuel s s' delta_t h
  exact ⟨rfl, rfl⟩

/-- On an initialised filter, a record of a disabled sensor type runs the
prediction step and skips the measurement update. -/
theorem ProcessMeasurement_disabled (m : Libm K) (fuel : ℕ)
    (s : UKF K) (meas_package : MeasurementPackage K)
    (hinit : s.is_initialized_ = true)
    (hdis : (meas_package.sensor_type_ = SensorType.LASER ∧ s.use_laser_ = false) ∨
      (meas_package.sensor_type_ = SensorType.RADAR ∧ s.use_radar_ = false)) :
    ProcessMeasurement m fuel s meas_package
      = (Prediction m fuel s
          (((meas_package.timestamp_ - s.time_us_ : ℤ) : K) / 1000000)).map fun p =>
        { p with last_meas_ := some meas_package, time_us_ := meas_package.timestamp_ } := by
  unfold ProcessMeasurement
  rw [if_neg (by simp [hinit])]
  simp only []
  cases hpred : Prediction m fuel s
      (((meas_package.timestamp_ - s.time_us_ : ℤ) : K) / 1000000) with
  | none => rfl
  | some p =>
    obtain ⟨hl, hr⟩ := Prediction_flags m fuel s p _ hpred
    rw [Option.some_bind, Option.map_some']
    rcases hdis with ⟨ht, hf⟩ | ⟨ht, hf⟩
    · rw [if_neg (by simp [ht]), if_neg (by simp [hl, hf])]
      rfl
    · rw [if_neg (by simp [hr, hf]), if_neg (by simp [ht])]
      rfl

/-- C16 (as stated, refuted). An initialised filter at rest with the laser disabled
and a LASER record one second later: the call returns with the covariance of the
prediction step, whose entry `(0, 0)` is `54/25`, in place of the identity. -/
theorem C16_counterexample :
    ∃ s', ProcessMeasurement
        (Libm.mk Real.pi Real.sqrt Real.sin Real.cos fun y x => Complex.arg ⟨x, y⟩) 0
        { UKF.new (0 : Fin 5 → ℝ) 0 with is_initialized_ := true, use_laser_ := false }
        ⟨1000000, SensorType.LASER, [1, 0]⟩ = some s' ∧
      s'.P_ 0 0 = 54 / 25 ∧
      ({ UKF.new (0 : Fin 5 → ℝ) 0 with
        is_initialized_ := true, use_laser_ := false } : UKF ℝ).P_ 0 0 = 1 := by
  obtain ⟨X, hpred⟩ := Prediction_from_rest
    (Libm.mk Real.pi Real.sqrt Real.sin Real.cos fun y x => Complex.arg ⟨x, y⟩) rfl rfl
    Real.sin_zero Real.cos_zero 0
    { UKF.new (0 : Fin 5 → ℝ) 0 with is_initialized_ := true, use_laser_ := false }
    ⟨rfl, rfl, rfl⟩ rfl rfl rfl rfl
  have hdt : (((1000000 - 0 : ℤ) : ℝ) / 1000000) = 1 := by norm_num
  have hproc := ProcessMeasurement_disabled
    (Libm.mk Real.pi Real.sqrt Real.sin Real.cos fun y x => Complex.arg ⟨x, y⟩) 0
    { UKF.new (0 : Fin 5 → ℝ) 0 with is_initialized_ := true, use_laser_ := false }
    ⟨1000000, SensorType.LASER, [1, 0]⟩ rfl (Or.inl ⟨rfl, rfl⟩)
  have hproc' := hproc.trans (congrArg (fun d => Option.map _ (Prediction _ 0 _ d)) hdt)
  simp only [] at hproc'
  rw [hpred, Option.map_some'] at hproc'
  exact ⟨_, hproc', rfl, rfl⟩

/-- C16 (amended). On an initialised filter, a record of a disabled sensor type
still runs the prediction step over the elapsed time and only the measurement
update is skipped: the call returns exactly when `Prediction` does, with the filter
`Prediction` produces (its `x_` and `P_` included) and the record stored; and with
a Cholesky factor at hand it returns for every large enough fuel. -/
theorem C16_disabled_sensor_predicts_only [Archimedean K] (m : Libm K) (hp : 0 < m.M_PI)
    (s : UKF K) (meas_package : MeasurementPackage K)
    (hinit : s.is_initialized_ = true)
    (hdis : (meas_package.sensor_type_ = SensorType.LASER ∧ s.use_laser_ = false) ∨
      (meas_package.sensor_type_ = SensorType.RADAR ∧ s.use_radar_ = false)) :
    (∀ fuel, ProcessMeasurement m fuel s meas_package
      = (Prediction m fuel s
          (((meas_package.timestamp_ - s.time_us_ : ℤ) : K) / 1000000)).map fun p =>
        { p with last_meas_ := some meas_package, time_us_ := meas_package.timestamp_ }) ∧
    ∀ Xsig_aug, GenerateAugmentedSigmaPoints m s = some Xsig_aug →
      ∃ (p : UKF K) (N : ℕ), ∀ fuel, N ≤ fuel →
        Prediction m fuel s (((meas_package.timestamp_ - s.time_us_ : ℤ) : K) / 1000000)
          = some p ∧
        ProcessMeasurement m fuel s meas_package = some { p with
          last_meas_ := some meas_package, time_us_ := meas_package.timestamp_ } := by
  have hfirst := fun fuel => ProcessMeasurement_disabled m fuel s meas_package hinit hdis
  refine ⟨hfirst, fun Xsig_aug hgen => ?_⟩
  obtain ⟨Xp, D, N, hN⟩ := Prediction_stable m hp s
    (((meas_package.timestamp_ - s.time_us_ : ℤ) : K) / 1000000) Xsig_aug hgen
  refine ⟨{ s with
    Xsig_pred_ := Xp
    x_ := Xp *ᵥ s.weights_m_
    P_ := ∑ i : Fin 14, s.weights_c_ i.succ • vecMulVec (D i) (D i) }, N,
    fun fuel hfuel => ?_⟩
  obtain ⟨-, -, hpred⟩ := hN fuel hfuel
  refine ⟨hpred, ?_⟩
  rw [hfirst fuel, hpred]
  rfl

/-- C16 (amended) at the filter at rest with the laser disabled and a LASER record
one second later. -/
theorem C16_disabled_sensor_predicts_only_witness :
    ProcessMeasurement
        (Libm.mk Real.pi Real.sqrt Real.sin Real.cos fun y x => Complex.arg ⟨x, y⟩) 0
        { UKF.new (0 : Fin 5 → ℝ) 0 with is_initialized_ := true, use_laser_ := false }
        ⟨1000000, SensorType.LASER, [1, 0]⟩
      = (Prediction
          (Libm.mk Real.pi Real.sqrt Real.sin Real.cos fun y x => Complex.arg ⟨x, y⟩) 0
          { UKF.new (0 : Fin 5 → ℝ) 0 with is_initialized_ := true, use_laser_ := false }
          (((1000000 - 0 : ℤ) : ℝ) / 1000000)).map fun p =>
        { p with last_meas_ := some ⟨1000000, SensorType.LASER, [1, 0]⟩,
                 time_us_ := 1000000 } :=
  (C16_disabled_sensor_predicts_only
    (Libm.mk Real.pi Real.sqrt Real.sin Real.cos fun y x => Complex.arg ⟨x, y⟩) Real.pi_pos
    { UKF.new (0 : Fin 5 → ℝ) 0 with is_initialized_ := true, use_laser_ := false }
    ⟨1000000, SensorType.LASER, [1, 0]⟩ rfl (Or.inl ⟨rfl, rfl⟩)).1 0

/-! ## The radar update, loop by loop -/

theorem radarS_eq (m : Libm K) (fuel : ℕ) (w : Fin 15 → K)
    (Z : Matrix (Fin 3) (Fin 15) K) (z_pred : Fin 3 → K) (Dz : Fin 14 → Fin 3 → K)
    (h : ∀ i : Fin 14, angleDiff m fuel 1 (fun r => Z r i.succ) z_pred = some (Dz i)) :
    radarS m fuel w Z z_pred
      = some (∑ i : Fin 14, w i.succ • vecMulVec (Dz i) (Dz i)) := by
  unfold radarS
  rw [tailColumns_foldlM]
  rw [foldlM_accumulate (fun i : Fin 14 => angleDiff m fuel 1 (fun r => Z r i.succ) z_pred) Dz
    (fun i d => w i.succ • vecMulVec d d) (List.finRange 14) 0 fun i _ => h i]
  simp [Fin.sum_univ_def]

theorem radarS_inv (m : Libm K) (fuel : ℕ) (w : Fin 15 → K)
    (Z : Matrix (Fin 3) (Fin 15) K) (z_pred : Fin 3 → K) (S : Matrix (Fin 3) (Fin 3) K)
    (h : radarS m fuel w Z z_pred = some S) :
    ∃ Dz : Fin 14 → Fin 3 → K,
      (∀ i : Fin 14, angleDiff m fuel 1 (fun r => Z r i.succ) z_pred = some (Dz i)) ∧
      S = ∑ i : Fin 14, w i.succ • vecMulVec (Dz i) (Dz i) := by
  unfold radarS at h
  rw [tailColumns_foldlM] at h
  haveI : Inhabited (Fin 3 → K) := ⟨0⟩
  obtain ⟨D, hD, hP⟩ := foldlM_accumulate_inv
    (fun i : Fin 14 => angleDiff m fuel 1 (fun r => Z r i.succ) z_pred)
    (fun i d => w i.succ • vecMulVec d d) (List.finRange 14) 0 S h
  refine ⟨D, fun i => hD i (List.mem_finRange i), ?_⟩
  rw [hP]
  simp [Fin.sum_univ_def]

theorem radarTc_eq (m : Libm K) (fuel : ℕ) (w : Fin 15 → K)
    (X : Matrix (Fin 5) (Fin 15) K) (x : Fin 5 → K)
    (Z : Matrix (Fin 3) (Fin 15) K) (z_pred : Fin 3 → K)
    (Dx : Fin 14 → Fin 5 → K) (Dz : Fin 14 → Fin 3 → K)
    (hx : ∀ i : Fin 14, angleDiff m fuel 3 (fun r => X r i.succ) x = some (Dx i))
    (hz : ∀ i : Fin 14, angleDiff m fuel 1 (fun r => Z r i.succ) z_pred = some (Dz i)) :
    radarTc m fuel w X x Z z_pred
      = some (∑ i : Fin 14, w i.succ • vecMulVec (Dx i) (Dz i)) := by
  unfold radarTc
  rw [tailColumns_foldlM]
  have hfun : (fun (Tc : Matrix (Fin 5) (Fin 3) K) (i : Fin 14) =>
      (angleDiff m fuel 3 (fun r => X r i.succ) x).bind fun Xsig_diff =>
      (angleDiff m fuel 1 (fun r => Z r i.succ) z_pred).map fun z_diff =>
        Tc + w i.succ • vecMulVec Xsig_diff z_diff)
      = fun Tc i => (some (Dx i, Dz i)).map fun d => Tc + w i.succ • vecMulVec d.1 d.2 := by
    funext Tc i
    rw [hx i, hz i]
    rfl
  rw [hfun]
  rw [foldlM_accumulate (fun i : Fin 14 => some (Dx i, Dz i)) (fun i => (Dx i, Dz i))
    (fun i d => w i.succ • vecMulVec d.1 d.2) (List.finRange 14) 0 fun i _ => rfl]
  simp [Fin.sum_univ_def]

/-- The result of `UpdateRadar` on a RADAR record of three values, from the results
of its loops. -/
theorem UpdateRadar_eq (m : Libm K) (fuel : ℕ) (s : UKF K) (t : ℤ) (z0 z1 z2 : K)
    (Z : Matrix (Fin 3) (Fin 15) K) (phi : K)
    (Dx : Fin 14 → Fin 5 → K) (Dz : Fin 14 → Fin 3 → K)
    (hZ : ∀ i, radarColumn m (fun r => s.Xsig_pred_ r i) = some fun r => Z r i)
    (hphi : NormalizeAngle m.M_PI fuel ((Z *ᵥ s.weights_m_) 1) = some phi)
    (hz : ∀ i : Fin 14, angleDiff m fuel 1 (fun r => Z r i.succ)
      (Function.update (Z *ᵥ s.weights_m_) 1 phi) = some (Dz i))
    (hx : ∀ i : Fin 14, angleDiff m fuel 3 (fun r => s.Xsig_pred_ r i.succ) s.x_
      = some (Dx i)) :
    UpdateRadar m fuel s ⟨t, SensorType.RADAR, [z0, z1, z2]⟩ = some { s with
      x_ := s.x_ + ((∑ i : Fin 14, s.weights_c_ i.succ • vecMulVec (Dx i) (Dz i))
          * inverse ((∑ i : Fin 14, s.weights_c_ i.succ • vecMulVec (Dz i) (Dz i)) + radarR s))
        *ᵥ (![z0, z1, z2] - Function.update (Z *ᵥ s.weights_m_) 1 phi)
      P_ := s.P_ - ((∑ i : Fin 14, s.weights_c_ i.succ • vecMulVec (Dx i) (Dz i))
          * inverse ((∑ i : Fin 14, s.weights_c_ i.succ • vecMulVec (Dz i) (Dz i)) + radarR s))
        * ((∑ i : Fin 14, s.weights_c_ i.succ • vecMulVec (Dz i) (Dz i)) + radarR s)
        * ((∑ i : Fin 14, s.weights_c_ i.succ • vecMulVec (Dx i) (Dz i))
          * inverse ((∑ i : Fin 14, s.weights_c_ i.succ • vecMulVec (Dz i) (Dz i))
            + radarR s))ᵀ } := by
  unfold UpdateRadar
  rw [if_neg (by simp)]
  rw [fillColumns_finRange _ (fun i r => Z r i) _ hZ]
  simp only []
  rw [hphi, Option.some_bind, radarS_eq m fuel _ Z _ Dz hz, Option.some_bind,
    radarTc_eq m fuel _ _ _ Z _ Dx Dz hx hz, Option.some_bind]

/-- On a RADAR record of three values `UpdateRadar` has one result for every large
enough fuel. -/
theorem UpdateRadar_stable [Archimedean K] (m : Libm K) (hp : 0 < m.M_PI) (s : UKF K)
    (t : ℤ) (z0 z1 z2 : K) :
    ∃ (s' : UKF K) (N : ℕ), ∀ fuel, N ≤ fuel →
      UpdateRadar m fuel s ⟨t, SensorType.RADAR, [z0, z1, z2]⟩ = some s' := by
  by_cases hcol : ∃ i, radarColumn m (fun r => s.Xsig_pred_ r i) = none
  · obtain ⟨i, hi⟩ := hcol
    refine ⟨s, 0, fun fuel _ => ?_⟩
    have hloop := fillColumns_none (fun i => radarColumn m (fun r => s.Xsig_pred_ r i)) i hi
      (List.finRange 15) 0 (List.mem_finRange i)
    simp [UpdateRadar, hloop]
  · have hsome : ∀ i, ∃ c, radarColumn m (fun r => s.Xsig_pred_ r i) = some c := by
      intro i
      cases hb : radarColumn m (fun r => s.Xsig_pred_ r i) with
      | none => exact absurd ⟨i, hb⟩ hcol
      | some c => exact ⟨c, rfl⟩
    choose g hg using hsome
    obtain ⟨Z, hZdef⟩ : ∃ Z : Matrix (Fin 3) (Fin 15) K, Z = fun r i => g i r := ⟨_, rfl⟩
    have hZ : ∀ i, radarColumn m (fun r => s.Xsig_pred_ r i) = some fun r => Z r i := by
      intro i
      rw [hg i, hZdef]
    obtain ⟨phi, N0, hphi⟩ := NormalizeAngle_stable hp ((Z *ᵥ s.weights_m_) 1)
    obtain ⟨Dz, N1, hDz⟩ := stable_family
      (fun (i : Fin 14) fuel => angleDiff m fuel 1 (fun r => Z r i.succ)
        (Function.update (Z *ᵥ s.weights_m_) 1 phi))
      (fun i => angleDiff_stable m hp 1 _ _)
    obtain ⟨Dx, N2, hDx⟩ := stable_family
      (fun (i : Fin 14) fuel => angleDiff m fuel 3 (fun r => s.Xsig_pred_ r i.succ) s.x_)
      (fun i => angleDiff_stable m hp 3 _ _)
    exact ⟨_, max N0 (max N1 N2), fun fuel hfuel =>
      UpdateRadar_eq m fuel s t z0 z1 z2 Z phi Dx Dz hZ
        (hphi fuel (le_trans (le_max_left _ _) hfuel))
        (hDz fuel (le_trans (le_trans (le_max_left _ _) (le_max_right _ _)) hfuel))
        (hDx fuel (le_trans (le_trans (le_max_right _ _) (le_max_right _ _)) hfuel))⟩

/-- A weighted sum of outer products `d * dᵀ` is symmetric. -/
theorem sum_vecMulVec_symm {n k : ℕ} (w : Fin k → K) (D : Fin k → Fin n → K) :
    (∑ i : Fin k, w i • vecMulVec (D i) (D i)).IsSymm := by
  unfold Matrix.IsSymm
  ext a b
  simp only [Matrix.transpose_apply, Matrix.sum_apply, Matrix.smul_apply, vecMulVec_apply,
    smul_eq_mul]
  exact Finset.sum_congr rfl fun i _ => by ring

/-! ## The covariance after `Prediction` -/

/-- A sum of outer products `d * dᵀ` with non-negative weights is positive
semi-definite. -/
theorem posSemidef_sum_vecMulVec {n k : ℕ} (w : Fin k → ℝ) (hw : ∀ i, 0 ≤ w i)
    (D : Fin k → Fin n → ℝ) :
    (∑ i : Fin k, w i • vecMulVec (D i) (D i)).PosSemidef := by
  have e : (∑ i : Fin k, w i • vecMulVec (D i) (D i))
      = (Matrix.of fun r i => D i r) * Matrix.diagonal w
        * (Matrix.of fun r i => D i r : Matrix (Fin n) (Fin k) ℝ)ᴴ := by
    ext a b
    rw [Matrix.mul_apply]
    simp only [Matrix.sum_apply, Matrix.smul_apply, vecMulVec_apply, smul_eq_mul]
    refine Finset.sum_congr rfl fun i _ => ?_
    rw [Matrix.mul_diagonal, Matrix.conjTranspose_apply, Matrix.of_apply, Matrix.of_apply,
      star_trivial]
    ring
  rw [e]
  exact (Matrix.posSemidef_diagonal_iff.mpr hw).mul_mul_conjTranspose_same _

/-- The covariance weights of the columns `1 .. 2*n_aug_` of a configured filter. -/
theorem UKF.Configured.weights_c_succ {s : UKF K} (h : s.Configured) (i : Fin 14) :
    s.weights_c_ i.succ = 1 / (2 * ((n_aug_ : K) + s.lambda_)) ∧ 0 < s.weights_c_ i.succ := by
  have e : s.weights_c_ i.succ = 1 / (2 * ((n_aug_ : K) + s.lambda_)) := by
    rw [h.2.2]
    exact ctorWeightsC_succ _ _ _ i
  refine ⟨e, ?_⟩
  rw [e, h.lambda_add]
  norm_num

/-- C13. For a filter with the constructor's weights and for every `delta_t`: when
the Cholesky factorisation succeeds, `Prediction` returns for every large enough
fuel; and whenever it returns, every `weights_c_(i)`, `i >= 1`, equals
`1/(2*(n_aug_+lambda_))` and is positive, `P_` is the sum over the columns
`i = 1 .. 14` of `weights_c_(i) * d_i * d_iᵀ` with `d_i` the yaw-normalised
deviation of predicted sigma point `i` from the new mean `x_`, and `P_` is positive
semi-definite. -/
theorem C13_predicted_covariance_psd (m : Libm ℝ) (hp : 0 < m.M_PI) (s : UKF ℝ)
    (hcfg : s.Configured) (delta_t : ℝ) :
    (∀ Xsig_aug, GenerateAugmentedSigmaPoints m s = some Xsig_aug →
      ∃ N : ℕ, ∀ fuel, N ≤ fuel → ∃ s', Prediction m fuel s delta_t = some s') ∧
    ∀ fuel s', Prediction m fuel s delta_t = some s' →
      (∀ i : Fin 14, s'.weights_c_ i.succ = 1 / (2 * ((n_aug_ : ℝ) + s'.lambda_)) ∧
        0 < s'.weights_c_ i.succ) ∧
      (∃ d : Fin 14 → Fin 5 → ℝ,
        (∀ i : Fin 14,
          angleDiff m fuel 3 (fun r => s'.Xsig_pred_ r i.succ) s'.x_ = some (d i)) ∧
        s'.P_ = ∑ i : Fin 14, s'.weights_c_ i.succ • vecMulVec (d i) (d i)) ∧
      s'.P_.PosSemidef := by
  refine ⟨fun Xsig_aug hgen => ?_, fun fuel s' h => ?_⟩
  · obtain ⟨Xp, D, N, hN⟩ := Prediction_stable m hp s delta_t Xsig_aug hgen
    exact ⟨N, fun fuel hfuel => ⟨_, (hN fuel hfuel).2.2⟩⟩
  · obtain ⟨Xa, Xp, D, -, -, hD, rfl⟩ := Prediction_inv m fuel s s' delta_t h
    refine ⟨fun i => hcfg.weights_c_succ i, ⟨D, hD, rfl⟩, ?_⟩
    exact posSemidef_sum_vecMulVec _ (fun i => (hcfg.weights_c_succ i).2.le) D

/-- C13 at a new filter at rest and `delta_t = 1`. -/
theorem C13_predicted_covariance_psd_witness :
    ∃ s', Prediction (Libm.mk Real.pi Real.sqrt Real.sin Real.cos fun y x => Complex.arg ⟨x, y⟩)
        0 (UKF.new 0 0) 1 = some s' ∧ s'.P_.PosSemidef := by
  obtain ⟨X, hpred⟩ := Prediction_from_rest
    (Libm.mk Real.pi Real.sqrt Real.sin Real.cos fun y x => Complex.arg ⟨x, y⟩) rfl rfl
    Real.sin_zero Real.cos_zero 0 (UKF.new 0 0) (UKF.new_configured 0 0) rfl rfl rfl rfl
  exact ⟨_, hpred, ((C13_predicted_covariance_psd
    (Libm.mk Real.pi Real.sqrt Real.sin Real.cos fun y x => Complex.arg ⟨x, y⟩) Real.pi_pos
    (UKF.new 0 0) (UKF.new_configured 0 0) 1).2 0 _ hpred).2.2⟩

/-! ## Symmetry of the covariance -/

theorem inverse_symm {n : ℕ} (S : Matrix (Fin n) (Fin n) K) (h : S.IsSymm) :
    (inverse S).IsSymm := by
  unfold Matrix.IsSymm inverse
  rw [Matrix.transpose_smul, Matrix.adjugate_transpose, h.eq]

theorem lidarS_symm (s : UKF K) (h : s.P_.IsSymm) : (lidarS s).IsSymm := by
  unfold Matrix.IsSymm
  rw [lidarS_eq]
  ext a b
  fin_cases a <;> fin_cases b <;> simp [h.apply 0 1]

/-- The covariance `(I - K*H)*P_` of `UpdateLidar` is symmetric when `P_` is. -/
theorem lidar_P_symm (s : UKF K) (h : s.P_.IsSymm) :
    ((1 - lidarK s * lidarH) * s.P_ : Matrix (Fin 5) (Fin 5) K).IsSymm := by
  have e : ((1 - lidarK s * lidarH) * s.P_ : Matrix (Fin 5) (Fin 5) K)
      = s.P_ - (s.P_ * (lidarH : Matrix (Fin 2) (Fin 5) K)ᵀ) * inverse (lidarS s)
        * (s.P_ * (lidarH : Matrix (Fin 2) (Fin 5) K)ᵀ)ᵀ := by
    rw [Matrix.sub_mul, Matrix.one_mul, lidarK, Matrix.transpose_mul,
      Matrix.transpose_transpose, h.eq]
    simp only [Matrix.mul_assoc]
  rw [e]
  unfold Matrix.IsSymm
  simp only [Matrix.transpose_sub, Matrix.transpose_mul, Matrix.transpose_transpose,
    (inverse_symm _ (lidarS_symm s h)).eq, h.eq, Matrix.mul_assoc]

/-! ## The radar update when only one measurement component varies -/

theorem inverse_diagonal {n : ℕ} (d : Fin n → K) (h : ∀ i, d i ≠ 0) :
    inverse (Matrix.diagonal d) = Matrix.diagonal fun i => (d i)⁻¹ := by
  have e : inverse (Matrix.diagonal d) = (Matrix.diagonal d)⁻¹ := by
    rw [Matrix.inv_def, Ring.inverse_eq_inv']
    rfl
  rw [e]
  apply Matrix.inv_eq_left_inv
  rw [Matrix.diagonal_mul_diagonal, ← Matrix.diagonal_one]
  exact congrArg Matrix.diagonal (funext fun i => inv_mul_cancel₀ (h i))

theorem sum_vecMulVec_channel {n : ℕ} (w : Fin 14 → K) (Dx : Fin 14 → Fin n → K) (k : Fin 3)
    (b : Fin 14 → K) :
    (∑ i : Fin 14, w i • vecMulVec (Dx i) (fun r => if r = k then b i else 0))
      = Matrix.of fun a c => if c = k then ∑ i : Fin 14, w i * Dx i a * b i else 0 := by
  ext a c
  simp only [Matrix.sum_apply, Matrix.smul_apply, vecMulVec_apply, smul_eq_mul, Matrix.of_apply]
  by_cases hc : c = k
  · simp only [if_pos hc]
    exact Finset.sum_congr rfl fun i _ => by ring
  · simp [hc]

theorem sum_vecMulVec_channel_self (w : Fin 14 → K) (k : Fin 3) (b : Fin 14 → K) :
    (∑ i : Fin 14, w i • vecMulVec (fun r => if r = k then b i else 0)
        (fun r => if r = k then b i else 0))
      = Matrix.diagonal fun r => if r = k then ∑ i : Fin 14, w i * b i * b i else 0 := by
  ext a c
  simp only [Matrix.sum_apply, Matrix.smul_apply, vecMulVec_apply, smul_eq_mul,
    Matrix.diagonal_apply]
  by_cases hac : a = c
  · subst hac
    by_cases ha : a = k
    · simp only [if_pos ha, if_true]
      exact Finset.sum_congr rfl fun i _ => by ring
    · simp [ha]
  · by_cases ha : a = k
    · have hc : c ≠ k := fun h => hac (ha.trans h.symm)
      simp [hac, hc]
    · simp [hac, ha]

/-- The gain and the covariance correction when the cross-correlation has one
non-zero column `k` and the innovation covariance is diagonal. -/
theorem gain_channel (T : Fin 5 → K) (k : Fin 3) (d : Fin 3 → K) (hd : ∀ r, d r ≠ 0) :
    (∀ (y : Fin 3 → K) (a : Fin 5),
      (((Matrix.of fun a c => if c = k then T a else 0) * inverse (Matrix.diagonal d)
        : Matrix (Fin 5) (Fin 3) K) *ᵥ y) a = T a / d k * y k) ∧
    ∀ a a' : Fin 5,
      (((Matrix.of fun a c => if c = k then T a else 0) * inverse (Matrix.diagonal d)
          : Matrix (Fin 5) (Fin 3) K) * Matrix.diagonal d
        * ((Matrix.of fun a c => if c = k then T a else 0) * inverse (Matrix.diagonal d)
          : Matrix (Fin 5) (Fin 3) K)ᵀ) a a' = T a * T a' / d k := by
  rw [inverse_diagonal d hd]
  have hG : ∀ a c, ((Matrix.of fun a c => if c = k then T a else 0)
      * (Matrix.diagonal fun i => (d i)⁻¹) : Matrix (Fin 5) (Fin 3) K) a c
      = if c = k then T a / d k else 0 := by
    intro a c
    rw [Matrix.mul_diagonal, Matrix.of_apply]
    by_cases hc : c = k
    · rw [if_pos hc, if_pos hc, hc, div_eq_mul_inv]
    · rw [if_neg hc, if_neg hc, zero_mul]
  refine ⟨fun y a => ?_, fun a a' => ?_⟩
  · simp only [Matrix.mulVec, Matrix.dotProduct, hG, ite_mul, zero_mul, Finset.sum_ite_eq',
      Finset.mem_univ, if_true]
  · rw [Matrix.mul_apply]
    simp only [Matrix.mul_diagonal, Matrix.transpose_apply, hG, ite_mul, zero_mul, mul_ite,
      mul_zero, Finset.sum_ite_eq', Finset.mem_univ, if_true]
    field_simp [hd k]

/-- The radar update when the measurement-space sigma points differ from a common
point `zbar` in component `k` only, by `b i` in column `i`, with `b` of weighted mean
zero and no bearing in need of normalisation: the gain has the single column `k`. -/
theorem UpdateRadar_channel (m : Libm K) (fuel : ℕ) (s : UKF K) (t : ℤ) (z0 z1 z2 : K)
    (zbar : Fin 3 → K) (k : Fin 3) (b : Fin 15 → K) (Dx : Fin 14 → Fin 5 → K)
    (hZ : ∀ i, radarColumn m (fun r => s.Xsig_pred_ r i)
      = some fun r => zbar r + if r = k then b i else 0)
    (hw : ∑ i, s.weights_m_ i = 1) (hb : ∑ i, b i * s.weights_m_ i = 0)
    (h1 : -m.M_PI ≤ zbar 1) (h2 : zbar 1 ≤ m.M_PI)
    (hb1 : k = 1 → ∀ i, -m.M_PI ≤ b i ∧ b i ≤ m.M_PI)
    (hx : ∀ i : Fin 14, angleDiff m fuel 3 (fun r => s.Xsig_pred_ r i.succ) s.x_
      = some (Dx i))
    (hd : ∀ r, (if r = k then ∑ i : Fin 14, s.weights_c_ i.succ * b i.succ * b i.succ else 0)
      + radarR s r r ≠ 0) :
    ∃ s', UpdateRadar m fuel s ⟨t, SensorType.RADAR, [z0, z1, z2]⟩ = some s' ∧
      (∀ a, s'.x_ a = s.x_ a
        + (∑ i : Fin 14, s.weights_c_ i.succ * Dx i a * b i.succ)
          / ((∑ i : Fin 14, s.weights_c_ i.succ * b i.succ * b i.succ) + radarR s k k)
          * (![z0, z1, z2] k - zbar k)) ∧
      ∀ a a', s'.P_ a a' = s.P_ a a'
        - (∑ i : Fin 14, s.weights_c_ i.succ * Dx i a * b i.succ)
          * (∑ i : Fin 14, s.weights_c_ i.succ * Dx i a' * b i.succ)
          / ((∑ i : Fin 14, s.weights_c_ i.succ * b i.succ * b i.succ) + radarR s k k) := by
  have hpi : 0 ≤ m.M_PI := by linarith
  obtain ⟨Z, hZdef⟩ : ∃ Z : Matrix (Fin 3) (Fin 15) K,
      Z = fun r i => zbar r + if r = k then b i else 0 := ⟨_, rfl⟩
  have hmean : Z *ᵥ s.weights_m_ = zbar := by
    funext r
    rw [hZdef]
    simp only [Matrix.mulVec, Matrix.dotProduct, add_mul, Finset.sum_add_distrib,
      ← Finset.mul_sum, hw, mul_one, ite_mul, zero_mul]
    by_cases hr : r = k
    · simp only [if_pos hr, hb, add_zero]
    · simp only [if_neg hr, Finset.sum_const_zero, add_zero]
  have hphi : NormalizeAngle m.M_PI fuel ((Z *ᵥ s.weights_m_) 1) = some (zbar 1) := by
    rw [hmean]
    exact NormalizeAngle_of_mem fuel h1 h2
  have hupd : Function.update (Z *ᵥ s.weights_m_) 1 (zbar 1) = zbar := by
    rw [hmean]
    exact Function.update_eq_self 1 zbar
  have hz : ∀ i : Fin 14, angleDiff m fuel 1 (fun r => Z r i.succ)
      (Function.update (Z *ᵥ s.weights_m_) 1 (zbar 1))
      = some (fun r => if r = k then b i.succ else 0) := by
    intro i
    rw [hupd]
    have hsub : (fun r => Z r i.succ) - zbar = fun r => if r = k then b i.succ else 0 := by
      funext r
      rw [hZdef]
      simp
    have hval : Z 1 i.succ - zbar 1 = if (1 : Fin 3) = k then b i.succ else 0 :=
      congrFun hsub 1
    rw [← hsub]
    apply angleDiff_of_mem
    · show -m.M_PI ≤ Z 1 i.succ - zbar 1
      rw [hval]
      split_ifs with hk
      · exact (hb1 hk.symm _).1
      · linarith
    · show Z 1 i.succ - zbar 1 ≤ m.M_PI
      rw [hval]
      split_ifs with hk
      · exact (hb1 hk.symm _).2
      · exact hpi
  have hres := UpdateRadar_eq m fuel s t z0 z1 z2 Z (zbar 1) Dx
    (fun i r => if r = k then b i.succ else 0)
    (by intro i; rw [hZ i, hZdef]) hphi hz hx
  rw [hupd, sum_vecMulVec_channel, sum_vecMulVec_channel_self] at hres
  have hR : radarR s = Matrix.diagonal fun r => radarR s r r := by
    unfold radarR
    rw [Matrix.diagonal_eq_diagonal_iff]
    intro r
    rw [Matrix.diagonal_apply_eq]
  rw [hR, Matrix.diagonal_add] at hres
  obtain ⟨hgx, hgP⟩ := gain_channel
    (fun a => ∑ i : Fin 14, s.weights_c_ i.succ * Dx i a * b i.succ) k
    (fun r => (if r = k then ∑ i : Fin 14, s.weights_c_ i.succ * b i.succ * b i.succ else 0)
      + radarR s r r) hd
  refine ⟨_, hres, fun a => ?_, fun a a' => ?_⟩
  · show s.x_ a + _ = _
    rw [hgx (![z0, z1, z2] - zbar) a, if_pos rfl]
    rfl
  · show s.P_ a a' - _ = _
    rw [hgP a a', if_pos rfl]

/-- When no sigma point takes the degenerate-range return, `UpdateRadar` on a
RADAR record of three values returns, for every large enough fuel, the filter with
`x_ + K*(z - z_pred)` and `P_ - K*S*Kᵀ`. -/
theorem UpdateRadar_runs [Archimedean K] (m : Libm K) (hp : 0 < m.M_PI) (s : UKF K)
    (t : ℤ) (z0 z1 z2 : K) (Z : Matrix (Fin 3) (Fin 15) K)
    (hZ : ∀ i, radarColumn m (fun r => s.Xsig_pred_ r i) = some fun r => Z r i) :
    ∃ (phi : K) (Dx : Fin 14 → Fin 5 → K) (Dz : Fin 14 → Fin 3 → K)
      (S : Matrix (Fin 3) (Fin 3) K) (G : Matrix (Fin 5) (Fin 3) K) (N : ℕ),
      S = (∑ i : Fin 14, s.weights_c_ i.succ • vecMulVec (Dz i) (Dz i)) + radarR s ∧
      G = (∑ i : Fin 14, s.weights_c_ i.succ • vecMulVec (Dx i) (Dz i)) * inverse S ∧
      ∀ fuel, N ≤ fuel →
        NormalizeAngle m.M_PI fuel ((Z *ᵥ s.weights_m_) 1) = some phi ∧
        (∀ i : Fin 14, angleDiff m fuel 1 (fun r => Z r i.succ)
          (Function.update (Z *ᵥ s.weights_m_) 1 phi) = some (Dz i)) ∧
        (∀ i : Fin 14, angleDiff m fuel 3 (fun r => s.Xsig_pred_ r i.succ) s.x_
          = some (Dx i)) ∧
        UpdateRadar m fuel s ⟨t, SensorType.RADAR, [z0, z1, z2]⟩ = some { s with
          x_ := s.x_ + G *ᵥ (![z0, z1, z2] - Function.update (Z *ᵥ s.weights_m_) 1 phi)
          P_ := s.P_ - G * S * Gᵀ } := by
  obtain ⟨phi, N0, hphi⟩ := NormalizeAngle_stable hp ((Z *ᵥ s.weights_m_) 1)
  obtain ⟨Dz, N1, hDz⟩ := stable_family
    (fun (i : Fin 14) fuel => angleDiff m fuel 1 (fun r => Z r i.succ)
      (Function.update (Z *ᵥ s.weights_m_) 1 phi))
    (fun i => angleDiff_stable m hp 1 _ _)
  obtain ⟨Dx, N2, hDx⟩ := stable_family
    (fun (i : Fin 14) fuel => angleDiff m fuel 3 (fun r => s.Xsig_pred_ r i.succ) s.x_)
    (fun i => angleDiff_stable m hp 3 _ _)
  refine ⟨phi, Dx, Dz, _, _, max N0 (max N1 N2), rfl, rfl, fun fuel hfuel => ?_⟩
  have h0 := hphi fuel (le_trans (le_max_left _ _) hfuel)
  have h1 := hDz fuel (le_trans (le_trans (le_max_left _ _) (le_max_right _ _)) hfuel)
  have h2 := hDx fuel (le_trans (le_trans (le_max_right _ _) (le_max_right _ _)) hfuel)
  exact ⟨h0, h1, h2, UpdateRadar_eq m fuel s t z0 z1 z2 Z phi Dx Dz hZ h0 h1 h2⟩

/-! ## The two radar examples -/

theorem spread_cases (i : Fin 15) :
    (spread i : K) = 1 ∨ (spread i : K) = -1 ∨ (spread i : K) = 0 := by
  unfold spread
  split_ifs
  · exact Or.inl rfl
  · exact Or.inr (Or.inl rfl)
  · exact Or.inr (Or.inr rfl)

theorem spread_sq_nonneg (i : Fin 15) : (0 : K) ≤ spread i * spread i :=
  mul_self_nonneg _

/-- The spread has mean zero under the constructor's mean weights. -/
theorem spread_mean (lambda : K) : ∑ i, (spread i : K) * ctorWeightsM lambda i = 0 := by
  rw [Fintype.sum_eq_add (1 : Fin 15) 8 (by decide)]
  · simp [spread, ctorWeightsM]
  · intro x hx
    simp [spread, hx.1, hx.2]

theorem besideSensor_configured : (besideSensor : UKF K).Configured := ⟨rfl, rfl, rfl⟩

theorem onUnitCircle_configured : (onUnitCircle : UKF K).Configured := ⟨rfl, rfl, rfl⟩

/-- The sum of the mean weights of a configured filter. -/
theorem UKF.Configured.weights_m_sum {s : UKF K} (h : s.Configured) :
    ∑ i, s.weights_m_ i = 1 := by
  rw [h.2.1]
  apply ctorWeightsM_sum
  rw [h.lambda_add]
  norm_num

/-- The measurement-space column of a sigma point whose `px` is below `1e-6`: the
`px` used is `1e-5`, and the range is at least `1e-5`. -/
theorem radarColumn_clamped (m : Libm ℝ) (hsqrt : m.sqrt = Real.sqrt) (c : Fin 5 → ℝ)
    (hpx : c 0 < 1 / 1000000) :
    radarColumn m c = some
      ![Real.sqrt (1 / 100000 * (1 / 100000) + c 1 * c 1), m.atan2 (c 1) (1 / 100000),
        (1 / 100000 * m.cos (c 3) * c 2 + c 1 * m.sin (c 3) * c 2)
          / Real.sqrt (1 / 100000 * (1 / 100000) + c 1 * c 1)] ∧
    1 / 100000 ≤ Real.sqrt (1 / 100000 * (1 / 100000) + c 1 * c 1) := by
  have hge : (1 : ℝ) / 100000 ≤ Real.sqrt (1 / 100000 * (1 / 100000) + c 1 * c 1) := by
    apply Real.le_sqrt_of_sq_le
    nlinarith [mul_self_nonneg (c 1)]
  refine ⟨?_, hge⟩
  rw [radarColumn_eq]
  · simp only [if_pos hpx, hsqrt]
  · simp only [if_pos hpx, hsqrt]
    rw [abs_of_nonneg (Real.sqrt_nonneg _)]
    exact not_lt.mpr hge

/-- The radar update of `besideSensor`, whose sigma points all have `px = 0` and
`py = 5`: it runs, and the speed variance `P_(2,2)` comes out strictly smaller. -/
theorem besideSensor_update (fuel : ℕ) (t : ℤ) (z0 z1 z2 : ℝ) :
    ∃ s', UpdateRadar (Libm.mk Real.pi Real.sqrt Real.sin Real.cos fun y x => Complex.arg ⟨x, y⟩)
        fuel besideSensor ⟨t, SensorType.RADAR, [z0, z1, z2]⟩ = some s' ∧
      s'.P_ 2 2 < (besideSensor : UKF ℝ).P_ 2 2 := by
  obtain ⟨rho, hrho⟩ : ∃ rho, rho = Real.sqrt (1 / 100000 * (1 / 100000) + 5 * 5) := ⟨_, rfl⟩
  have hrho0 : 0 < rho := by
    rw [hrho]
    exact Real.sqrt_pos.mpr (by norm_num)
  have hcol : ∀ i : Fin 15, (fun r => (besideSensor : UKF ℝ).Xsig_pred_ r i)
      = ![0, 5, spread i, 0, 0] := fun i => rfl
  have hw : ∀ i : Fin 14, 0 < (besideSensor : UKF ℝ).weights_c_ i.succ :=
    fun i => (besideSensor_configured.weights_c_succ i).2
  have hR : ∀ r, 0 < radarR (besideSensor : UKF ℝ) r r := by
    intro r
    fin_cases r <;> simp [radarR, besideSensor, UKF.new, UKF.construct]
  have hsum : 0 ≤ ∑ i : Fin 14, (besideSensor : UKF ℝ).weights_c_ i.succ
      * (1 / 100000 * spread i.succ / rho) * (1 / 100000 * spread i.succ / rho) :=
    Finset.sum_nonneg fun i _ => by
      rw [mul_assoc]
      exact mul_nonneg (hw i).le (mul_self_nonneg _)
  obtain ⟨Dx, hDx⟩ : ∃ Dx : Fin 14 → Fin 5 → ℝ, Dx = fun i =>
      (fun r => (besideSensor : UKF ℝ).Xsig_pred_ r i.succ) - besideSensor.x_ := ⟨_, rfl⟩
  have hDx2 : ∀ i, Dx i 2 = spread i.succ := by
    intro i
    rw [hDx]
    show (spread i.succ : ℝ) - 0 = spread i.succ
    ring
  obtain ⟨s', hs', -, hP⟩ := UpdateRadar_channel
    (Libm.mk Real.pi Real.sqrt Real.sin Real.cos fun y x => Complex.arg ⟨x, y⟩) fuel
    besideSensor t z0 z1 z2 ![rho, Complex.arg ⟨1 / 100000, 5⟩, 0] 2
    (fun i => 1 / 100000 * spread i / rho) Dx
    (by
      intro i
      rw [hcol i, (radarColumn_clamped _ rfl _ (by norm_num)).1]
      simp only [Matrix.cons_val_one, Matrix.head_cons, ← hrho]
      congr 1
      funext r
      fin_cases r
      · simp
      · simp
      · simp [Real.sin_zero, Real.cos_zero])
    besideSensor_configured.weights_m_sum
    (by
      have e : ∀ i : Fin 15, 1 / 100000 * spread i / rho * (besideSensor : UKF ℝ).weights_m_ i
          = 1 / 100000 / rho * (spread i * (besideSensor : UKF ℝ).weights_m_ i) := by
        intro i
        ring
      simp only [e, ← Finset.mul_sum]
      rw [besideSensor_configured.2.1, spread_mean, mul_zero])
    (by
      show -Real.pi ≤ Complex.arg _
      exact (Complex.neg_pi_lt_arg _).le)
    (by
      show Complex.arg _ ≤ Real.pi
      exact Complex.arg_le_pi _)
    (fun h => absurd h (by decide))
    (fun i => by
      rw [hDx]
      exact angleDiff_of_mem _ fuel 3 _ _
        (by
          show -Real.pi ≤ (0 : ℝ) - 0
          linarith [Real.pi_pos])
        (by
          show (0 : ℝ) - 0 ≤ Real.pi
          linarith [Real.pi_pos]))
    (by
      intro r
      by_cases hr : r = 2
      · rw [if_pos hr]
        linarith [hR r]
      · rw [if_neg hr, zero_add]
        exact (hR r).ne')
  refine ⟨s', hs', ?_⟩
  rw [hP 2 2]
  have hT : 0 < ∑ i : Fin 14, (besideSensor : UKF ℝ).weights_c_ i.succ * Dx i 2
      * (1 / 100000 * spread i.succ / rho) := by
    apply Finset.sum_pos'
    · intro i _
      have e2 : (besideSensor : UKF ℝ).weights_c_ i.succ * Dx i 2
          * (1 / 100000 * spread i.succ / rho)
          = (besideSensor : UKF ℝ).weights_c_ i.succ * (1 / 100000 / rho)
            * (spread i.succ * spread i.succ) := by
        rw [hDx2]
        ring
      rw [e2]
      exact mul_nonneg (mul_nonneg (hw i).le (div_pos (by norm_num) hrho0).le)
        (mul_self_nonneg _)
    · refine ⟨0, Finset.mem_univ _, ?_⟩
      have e1 : (spread ((0 : Fin 14).succ) : ℝ) = 1 := by
        show (spread (1 : Fin 15) : ℝ) = 1
        simp [spread]
      rw [hDx2, e1]
      have h5 : (0 : ℝ) < 1 / 100000 * 1 / rho := by positivity
      exact mul_pos (mul_pos (hw 0) one_pos) h5
  have hden : 0 < (∑ i : Fin 14, (besideSensor : UKF ℝ).weights_c_ i.succ
      * (1 / 100000 * spread i.succ / rho) * (1 / 100000 * spread i.succ / rho))
      + radarR (besideSensor : UKF ℝ) 2 2 := by linarith [hR 2]
  have := div_pos (mul_pos hT hT) hden
  linarith

/-- C11 (as stated, refuted). The tracking filter `besideSensor` has the state
`(0, 5, 0, 0, 0)` and predicted sigma points that all have `px = 0` and `py = 5`;
`UpdateRadar` on the RADAR record `(5, 3/2, 0)` returns, for any fuel, with a `P_`
whose entry `(2, 2)` is strictly smaller than before the call. -/
theorem C11_counterexample :
    (∀ i, (besideSensor : UKF ℝ).Xsig_pred_ 0 i = 0 ∧
      (besideSensor : UKF ℝ).Xsig_pred_ 1 i = 5) ∧
    (besideSensor : UKF ℝ).x_ 0 = 0 ∧ (besideSensor : UKF ℝ).x_ 1 = 5 ∧
    ∀ fuel : ℕ, ∃ s',
      UpdateRadar (Libm.mk Real.pi Real.sqrt Real.sin Real.cos fun y x => Complex.arg ⟨x, y⟩)
        fuel besideSensor ⟨0, SensorType.RADAR, [5, 3 / 2, 0]⟩ = some s' ∧
      s'.P_ 2 2 < (besideSensor : UKF ℝ).P_ 2 2 ∧ s'.P_ ≠ (besideSensor : UKF ℝ).P_ := by
  refine ⟨fun i => ⟨rfl, rfl⟩, rfl, rfl, fun fuel => ?_⟩
  obtain ⟨s', hs', hlt⟩ := besideSensor_update fuel 0 5 (3 / 2) 0
  exact ⟨s', hs', hlt, fun h => absurd (congrFun (congrFun h 2) 2) hlt.ne⟩

/-- C11 (amended). When every predicted sigma point has `px` within `1e-6` of zero
and `py = 5`, no sigma point takes the degenerate-range return of `UpdateRadar`:
each range is `sqrt(1e-10 + 25)`, computed from the `px` replaced by `1e-5`, and is
not below `1e-5`.  For a RADAR record of three values the update is carried out:
for every large enough fuel the call returns with `x_ + K*(z - z_pred)` and
`P_ - K*S*Kᵀ` in place of `x_` and `P_`. -/
theorem C11_update_runs_beside_sensor (m : Libm ℝ) (hsqrt : m.sqrt = Real.sqrt)
    (hp : 0 < m.M_PI) (s : UKF ℝ) (t : ℤ) (z0 z1 z2 : ℝ)
    (hpx : ∀ i, |s.Xsig_pred_ 0 i| < 1 / 1000000) (hpy : ∀ i, s.Xsig_pred_ 1 i = 5) :
    ∃ (Z : Matrix (Fin 3) (Fin 15) ℝ) (phi : ℝ) (Dx : Fin 14 → Fin 5 → ℝ)
      (Dz : Fin 14 → Fin 3 → ℝ) (S : Matrix (Fin 3) (Fin 3) ℝ)
      (G : Matrix (Fin 5) (Fin 3) ℝ) (N : ℕ),
      (∀ i, radarColumn m (fun r => s.Xsig_pred_ r i) = some (fun r => Z r i) ∧
        Z 0 i = Real.sqrt (1 / 100000 * (1 / 100000) + 5 * 5) ∧ 1 / 100000 ≤ Z 0 i) ∧
      S = (∑ i : Fin 14, s.weights_c_ i.succ • vecMulVec (Dz i) (Dz i)) + radarR s ∧
      G = (∑ i : Fin 14, s.weights_c_ i.succ • vecMulVec (Dx i) (Dz i)) * inverse S ∧
      ∀ fuel, N ≤ fuel →
        NormalizeAngle m.M_PI fuel ((Z *ᵥ s.weights_m_) 1) = some phi ∧
        (∀ i : Fin 14, angleDiff m fuel 1 (fun r => Z r i.succ)
          (Function.update (Z *ᵥ s.weights_m_) 1 phi) = some (Dz i)) ∧
        (∀ i : Fin 14, angleDiff m fuel 3 (fun r => s.Xsig_pred_ r i.succ) s.x_
          = some (Dx i)) ∧
        UpdateRadar m fuel s ⟨t, SensorType.RADAR, [z0, z1, z2]⟩ = some { s with
          x_ := s.x_ + G *ᵥ (![z0, z1, z2] - Function.update (Z *ᵥ s.weights_m_) 1 phi)
          P_ := s.P_ - G * S * Gᵀ } := by
  have hcl := fun i => radarColumn_clamped m hsqrt (fun r => s.Xsig_pred_ r i)
    (abs_lt.mp (hpx i)).2
  simp only [hpy] at hcl
  obtain ⟨Z, hZdef⟩ : ∃ Z : Matrix (Fin 3) (Fin 15) ℝ, Z = fun r i =>
      ![Real.sqrt (1 / 100000 * (1 / 100000) + 5 * 5), m.atan2 5 (1 / 100000),
        (1 / 100000 * m.cos (s.Xsig_pred_ 3 i) * s.Xsig_pred_ 2 i
            + 5 * m.sin (s.Xsig_pred_ 3 i) * s.Xsig_pred_ 2 i)
          / Real.sqrt (1 / 100000 * (1 / 100000) + 5 * 5)] r := ⟨_, rfl⟩
  have hZ : ∀ i, radarColumn m (fun r => s.Xsig_pred_ r i) = some fun r => Z r i := by
    intro i
    rw [(hcl i).1, hZdef]
  obtain ⟨phi, Dx, Dz, S, G, N, hS, hG, hN⟩ := UpdateRadar_runs m hp s t z0 z1 z2 Z hZ
  refine ⟨Z, phi, Dx, Dz, S, G, N, fun i => ⟨hZ i, ?_, ?_⟩, hS, hG, hN⟩
  · rw [hZdef]
    rfl
  · rw [hZdef]
    exact (hcl i).2

/-- C11 (amended) at `besideSensor` and the RADAR record `(5, 3/2, 0)`. -/
theorem C11_update_runs_beside_sensor_witness :
    ∃ (s' : UKF ℝ) (N : ℕ), ∀ fuel, N ≤ fuel →
      UpdateRadar (Libm.mk Real.pi Real.sqrt Real.sin Real.cos fun y x => Complex.arg ⟨x, y⟩)
        fuel besideSensor ⟨0, SensorType.RADAR, [5, 3 / 2, 0]⟩ = some s' := by
  obtain ⟨Z, phi, Dx, Dz, S, G, N, -, -, -, hN⟩ := C11_update_runs_beside_sensor
    (Libm.mk Real.pi Real.sqrt Real.sin Real.cos fun y x => Complex.arg ⟨x, y⟩) rfl
    Real.pi_pos besideSensor 0 5 (3 / 2) 0
    (fun i => by
      show |(0 : ℝ)| < 1 / 1000000
      norm_num)
    (fun i => rfl)
  exact ⟨_, N, fun fuel hfuel => (hN fuel hfuel).2.2.2⟩

/-- The measurement-space column of a sigma point at rest on the unit circle whose
`px` is not clamped: range `1`, bearing `atan2(py, px)`, range rate `0`. -/
theorem radarColumn_unit_circle (m : Libm ℝ) (hsqrt : m.sqrt = Real.sqrt) (c : Fin 5 → ℝ)
    (hpx : ¬ c 0 < 1 / 1000000) (hunit : c 0 * c 0 + c 1 * c 1 = 1) (hv : c 2 = 0) :
    radarColumn m c = some ![1, m.atan2 (c 1) (c 0), 0] := by
  rw [radarColumn_eq]
  · simp only [if_neg hpx, hsqrt, hunit, Real.sqrt_one, hv, mul_zero, add_zero, zero_div]
  · simp only [if_neg hpx, hsqrt, hunit, Real.sqrt_one]
    norm_num

/-- The bearing of the sigma points of `onUnitCircle`: `±arg(3/5 + 4/5 i)` in
columns 1 and 8 and `0` elsewhere. -/
theorem onUnitCircle_bearing (i : Fin 15) :
    Complex.arg ⟨1 - 2 / 5 * (spread i * spread i), 4 / 5 * spread i⟩
      = Complex.arg ⟨3 / 5, 4 / 5⟩ * spread i := by
  rcases spread_cases (K := ℝ) i with h | h | h
  · rw [h]
    norm_num
  · rw [h]
    have e : (⟨1 - 2 / 5 * (-1 * -1), 4 / 5 * -1⟩ : ℂ)
        = (starRingEnd ℂ) ⟨3 / 5, 4 / 5⟩ := by
      apply Complex.ext <;> simp <;> norm_num
    rw [e, Complex.arg_conj, if_neg]
    · ring
    · rw [Complex.arg_eq_pi_iff]
      norm_num
  · rw [h]
    have e : (⟨1 - 2 / 5 * (0 * 0), 4 / 5 * 0⟩ : ℂ) = 1 := by
      apply Complex.ext <;> simp
    rw [e, Complex.arg_one, mul_zero]

/-- The radar update of `onUnitCircle`: it runs, and the new `x_(1)` is a positive
multiple of the raw bearing `z1`, the same multiple for every record. -/
theorem onUnitCircle_update :
    ∃ g : ℝ, 0 < g ∧ ∀ (fuel : ℕ) (t : ℤ) (z0 z1 z2 : ℝ), ∃ s',
      UpdateRadar (Libm.mk Real.pi Real.sqrt Real.sin Real.cos fun y x => Complex.arg ⟨x, y⟩)
        fuel onUnitCircle ⟨t, SensorType.RADAR, [z0, z1, z2]⟩ = some s' ∧
      s'.x_ 1 = g * z1 := by
  obtain ⟨β, hβ⟩ : ∃ β, β = Complex.arg ⟨3 / 5, 4 / 5⟩ := ⟨_, rfl⟩
  have hβ0 : 0 < β := by
    rw [hβ]
    refine lt_of_le_of_ne (Complex.arg_nonneg_iff.mpr (by norm_num)) (Ne.symm ?_)
    rw [Ne, Complex.arg_eq_zero_iff]
    norm_num
  have hβπ : β ≤ Real.pi := by
    rw [hβ]
    exact Complex.arg_le_pi _
  have hcol : ∀ i : Fin 15, (fun r => (onUnitCircle : UKF ℝ).Xsig_pred_ r i)
      = ![1 - 2 / 5 * (spread i * spread i), 4 / 5 * spread i, 0, 0, 0] := fun i => rfl
  have hw : ∀ i : Fin 14, 0 < (onUnitCircle : UKF ℝ).weights_c_ i.succ :=
    fun i => (onUnitCircle_configured.weights_c_succ i).2
  have hR : ∀ r, 0 < radarR (onUnitCircle : UKF ℝ) r r := by
    intro r
    fin_cases r <;> simp [radarR, onUnitCircle, UKF.new, UKF.construct]
  have hsum : 0 ≤ ∑ i : Fin 14, (onUnitCircle : UKF ℝ).weights_c_ i.succ
      * (β * spread i.succ) * (β * spread i.succ) :=
    Finset.sum_nonneg fun i _ => by
      rw [mul_assoc]
      exact mul_nonneg (hw i).le (mul_self_nonneg _)
  obtain ⟨Dx, hDx⟩ : ∃ Dx : Fin 14 → Fin 5 → ℝ, Dx = fun i =>
      (fun r => (onUnitCircle : UKF ℝ).Xsig_pred_ r i.succ) - onUnitCircle.x_ := ⟨_, rfl⟩
  have hDx1 : ∀ i, Dx i 1 = 4 / 5 * spread i.succ := by
    intro i
    rw [hDx]
    show 4 / 5 * (spread i.succ : ℝ) - 0 = 4 / 5 * spread i.succ
    ring
  have hT : 0 < ∑ i : Fin 14, (onUnitCircle : UKF ℝ).weights_c_ i.succ * Dx i 1
      * (β * spread i.succ) := by
    apply Finset.sum_pos'
    · intro i _
      have e2 : (onUnitCircle : UKF ℝ).weights_c_ i.succ * Dx i 1 * (β * spread i.succ)
          = (onUnitCircle : UKF ℝ).weights_c_ i.succ * (4 / 5 * β)
            * (spread i.succ * spread i.succ) := by
        rw [hDx1]
        ring
      rw [e2]
      exact mul_nonneg (mul_nonneg (hw i).le (by positivity)) (mul_self_nonneg _)
    · refine ⟨0, Finset.mem_univ _, ?_⟩
      have e1 : (spread ((0 : Fin 14).succ) : ℝ) = 1 := by
        show (spread (1 : Fin 15) : ℝ) = 1
        simp [spread]
      rw [hDx1, e1]
      have := hw 0
      positivity
  have hden : 0 < (∑ i : Fin 14, (onUnitCircle : UKF ℝ).weights_c_ i.succ
      * (β * spread i.succ) * (β * spread i.succ))
      + radarR (onUnitCircle : UKF ℝ) 1 1 := by linarith [hR 1]
  refine ⟨_, div_pos hT hden, fun fuel t z0 z1 z2 => ?_⟩
  obtain ⟨s', hs', hx, -⟩ := UpdateRadar_channel
    (Libm.mk Real.pi Real.sqrt Real.sin Real.cos fun y x => Complex.arg ⟨x, y⟩) fuel
    onUnitCircle t z0 z1 z2 ![1, 0, 0] 1 (fun i => β * spread i) Dx
    (by
      intro i
      rw [hcol i, radarColumn_unit_circle _ rfl]
      · simp only [Matrix.cons_val_zero, Matrix.cons_val_one, Matrix.head_cons]
        rw [onUnitCircle_bearing i, ← hβ]
        congr 1
        funext r
        fin_cases r
        · simp
        · simp
        · simp
      · simp only [Matrix.cons_val_zero]
        rcases spread_cases (K := ℝ) i with h | h | h <;> rw [h] <;> norm_num
      · simp only [Matrix.cons_val_zero, Matrix.cons_val_one, Matrix.head_cons]
        rcases spread_cases (K := ℝ) i with h | h | h <;> rw [h] <;> norm_num
      · rfl)
    onUnitCircle_configured.weights_m_sum
    (by
      simp only [mul_assoc, ← Finset.mul_sum]
      rw [onUnitCircle_configured.2.1, spread_mean, mul_zero])
    (by
      show -Real.pi ≤ (0 : ℝ)
      linarith [Real.pi_pos])
    (by
      show (0 : ℝ) ≤ Real.pi
      exact Real.pi_pos.le)
    (fun _ i => by
      show -Real.pi ≤ β * spread i ∧ β * spread i ≤ Real.pi
      rcases spread_cases (K := ℝ) i with h | h | h <;> rw [h] <;>
        constructor <;> linarith [Real.pi_pos])
    (fun i => by
      rw [hDx]
      exact angleDiff_of_mem _ fuel 3 _ _
        (by
          show -Real.pi ≤ (0 : ℝ) - 0
          linarith [Real.pi_pos])
        (by
          show (0 : ℝ) - 0 ≤ Real.pi
          linarith [Real.pi_pos]))
    (by
      intro r
      by_cases hr : r = 1
      · rw [if_pos hr]
        linarith [hR r]
      · rw [if_neg hr, zero_add]
        exact (hR r).ne')
  refine ⟨s', hs', ?_⟩
  rw [hx 1]
  show (0 : ℝ) + _ * (z1 - 0) = _
  rw [zero_add, sub_zero]

/-- C17 (the code departs from it). On the tracking filter `onUnitCircle` the RADAR
records `(1, 0, 0)` and `(1, 0 + 2π, 0)`, whose bearings differ by a full turn, are
both processed by `UpdateRadar` (for any fuel) and give different states: `x_(1)`
is `0` after the first and strictly positive after the second.  Line 386 uses the
innovation `z - z_pred` as it is; `NormalizeAngle` would send the two bearing
innovations, `0` and `2π`, to the same value `0`. -/
theorem C17_bearing_innovation_not_wrapped :
    (∀ fuel : ℕ, ∃ s1 s2,
      UpdateRadar (Libm.mk Real.pi Real.sqrt Real.sin Real.cos fun y x => Complex.arg ⟨x, y⟩)
        fuel onUnitCircle ⟨0, SensorType.RADAR, [1, 0, 0]⟩ = some s1 ∧
      UpdateRadar (Libm.mk Real.pi Real.sqrt Real.sin Real.cos fun y x => Complex.arg ⟨x, y⟩)
        fuel onUnitCircle ⟨0, SensorType.RADAR, [1, 0 + 2 * Real.pi, 0]⟩ = some s2 ∧
      s1.x_ 1 = 0 ∧ 0 < s2.x_ 1 ∧ s1.x_ ≠ s2.x_) ∧
    ∀ fuel : ℕ, NormalizeAngle Real.pi (fuel + 1) (0 + 2 * Real.pi - 0) = some 0 ∧
      NormalizeAngle Real.pi (fuel + 1) (0 - 0) = some 0 := by
  constructor
  · intro fuel
    obtain ⟨g, hg, hupd⟩ := onUnitCircle_update
    obtain ⟨s1, h1, hx1⟩ := hupd fuel 0 1 0 0
    obtain ⟨s2, h2, hx2⟩ := hupd fuel 0 1 (0 + 2 * Real.pi) 0
    have e1 : s1.x_ 1 = 0 := by rw [hx1, mul_zero]
    have e2 : 0 < s2.x_ 1 := by
      rw [hx2]
      exact mul_pos hg (by linarith [Real.pi_pos])
    refine ⟨s1, s2, h1, h2, e1, e2, fun h => ?_⟩
    rw [h] at e1
    exact e2.ne' e1
  · intro fuel
    constructor
    · have h := NormalizeAngle_wrap (p := Real.pi) (a := 0 + 2 * Real.pi - 0) fuel
        (by linarith [Real.pi_pos]) (by linarith [Real.pi_pos])
      rw [h]
      congr 1
      ring
    · have h1 : -Real.pi ≤ (0 : ℝ) - 0 := by linarith [Real.pi_pos]
      have h2 : (0 : ℝ) - 0 ≤ Real.pi := by linarith [Real.pi_pos]
      rw [NormalizeAngle_of_mem (fuel + 1) h1 h2, sub_zero]

/-! ## Rounding to binary64 -/

theorem roundEven_eq (t : ℚ) (m : ℤ) (h : |t - m| < 1 / 2) : roundEven t = m := by
  obtain ⟨h1, h2⟩ := abs_lt.mp h
  have hfl := Int.floor_le t
  have hlt := Int.lt_floor_add_one t
  unfold roundEven
  split_ifs with h3 h4 h5
  · have hm1 : m ≤ ⌊t⌋ := by
      have : (m : ℚ) < (⌊t⌋ : ℚ) + 1 := by linarith
      have : m < ⌊t⌋ + 1 := by exact_mod_cast this
      omega
    have hm2 : ⌊t⌋ ≤ m := by
      have : (⌊t⌋ : ℚ) < (m : ℚ) + 1 := by linarith
      have : ⌊t⌋ < m + 1 := by exact_mod_cast this
      omega
    omega
  · have hm1 : m ≤ ⌊t⌋ + 1 := by
      have : (m : ℚ) < (⌊t⌋ : ℚ) + 1 + 1 := by linarith
      have : m < ⌊t⌋ + 1 + 1 := by exact_mod_cast this
      omega
    have hm2 : ⌊t⌋ + 1 ≤ m := by
      have : (⌊t⌋ : ℚ) < (m : ℚ) := by linarith
      have : ⌊t⌋ < m := by exact_mod_cast this
      omega
    omega
  · exfalso
    have e : t - ⌊t⌋ = 1 / 2 := le_antisymm (not_lt.mp h4) (not_lt.mp h3)
    have hm1 : ⌊t⌋ < m := by
      have : (⌊t⌋ : ℚ) < (m : ℚ) := by linarith
      exact_mod_cast this
    have hm2 : m < ⌊t⌋ + 1 := by
      have : (m : ℚ) < (⌊t⌋ : ℚ) + 1 := by linarith
      exact_mod_cast this
    omega
  · exfalso
    have e : t - ⌊t⌋ = 1 / 2 := le_antisymm (not_lt.mp h4) (not_lt.mp h3)
    have hm1 : ⌊t⌋ < m := by
      have : (⌊t⌋ : ℚ) < (m : ℚ) := by linarith
      exact_mod_cast this
    have hm2 : m < ⌊t⌋ + 1 := by
      have : (m : ℚ) < (⌊t⌋ : ℚ) + 1 := by linarith
      exact_mod_cast this
    omega

theorem roundEven_error (t : ℚ) : |(roundEven t : ℚ) - t| ≤ 1 / 2 := by
  have hfl := Int.floor_le t
  have hlt := Int.lt_floor_add_one t
  unfold roundEven
  rw [abs_le]
  split_ifs with h3 h4 h5
  · constructor <;> linarith
  · push_cast
    constructor <;> linarith
  · constructor <;> linarith
  · push_cast
    have e : t - ⌊t⌋ = 1 / 2 := le_antisymm (not_lt.mp h4) (not_lt.mp h3)
    constructor <;> linarith

theorem ulp64_pos (q : ℚ) : 0 < ulp64 q := zpow_pos (by norm_num) _

theorem ulp64_eq (q : ℚ) (e : ℤ) (hlo : (2 : ℚ) ^ (e + 52) ≤ |q|)
    (hhi : |q| < (2 : ℚ) ^ (e + 53)) : ulp64 q = (2 : ℚ) ^ e := by
  have hpos : 0 < |q| := lt_of_lt_of_le (zpow_pos (by norm_num) _) hlo
  have h1 : e + 52 ≤ Int.log 2 |q| :=
    (Int.zpow_le_iff_le_log (by norm_num) hpos).mp (by exact_mod_cast hlo)
  have h2 : Int.log 2 |q| < e + 53 :=
    (Int.lt_zpow_iff_log_lt (by norm_num) hpos).mp (by exact_mod_cast hhi)
  unfold ulp64
  congr 1
  omega

/-- How a rounding is checked: `m * 2^e` is a binary64 number of the size of `q`
and lies within half a spacing of `q` (no tie). -/
theorem round64_eq (q : ℚ) (e m : ℤ) (hlo : (2 : ℚ) ^ (e + 52) ≤ |q|)
    (hhi : |q| < (2 : ℚ) ^ (e + 53)) (hm : |q - m * (2 : ℚ) ^ e| < (2 : ℚ) ^ e / 2) :
    round64 q = m * (2 : ℚ) ^ e := by
  have hu := ulp64_eq q e hlo hhi
  have hpos : (0 : ℚ) < 2 ^ e := zpow_pos (by norm_num) _
  unfold round64
  rw [hu, roundEven_eq (q / 2 ^ e) m]
  have e1 : q / 2 ^ e - m = (q - m * 2 ^ e) / 2 ^ e := by
    field_simp
    ring
  rw [e1, abs_div, abs_of_pos hpos, div_lt_iff hpos]
  linarith

/-- The relative error of a rounding is at most `2^-53`. -/
theorem round64_error (q : ℚ) : |round64 q - q| ≤ |q| / 2 ^ 53 := by
  by_cases hq : q = 0
  · subst hq
    simp [round64, roundEven]
  have hpos : 0 < |q| := abs_pos.mpr hq
  have hu := ulp64_pos q
  have h1 : |round64 q - q| ≤ ulp64 q / 2 := by
    have e1 : round64 q - q = ((roundEven (q / ulp64 q) : ℚ) - q / ulp64 q) * ulp64 q := by
      unfold round64
      field_simp
    rw [e1, abs_mul, abs_of_pos hu]
    have := roundEven_error (q / ulp64 q)
    nlinarith
  have h2 : ulp64 q * 2 ^ 52 ≤ |q| := by
    have := Int.zpow_log_le_self (b := 2) (r := |q|) (by norm_num) hpos
    have e2 : ulp64 q * 2 ^ 52 = (2 : ℚ) ^ Int.log 2 |q| := by
      unfold ulp64
      rw [zpow_sub₀ (by norm_num)]
      norm_num
    rw [e2]
    exact_mod_cast this
  have h3 : ulp64 q / 2 ≤ |q| / 2 ^ 53 := by
    rw [div_le_div_iff (by norm_num) (by norm_num)]
    nlinarith
  exact h1.trans h3

/-! ## The constructor's weights in `double` arithmetic -/

theorem round64_eq_pos (q : ℚ) (e m : ℤ) (hlo : (2 : ℚ) ^ (e + 52) ≤ q)
    (hhi : q < (2 : ℚ) ^ (e + 53)) (h1 : m * (2 : ℚ) ^ e - (2 : ℚ) ^ e / 2 < q)
    (h2 : q < m * (2 : ℚ) ^ e + (2 : ℚ) ^ e / 2) :
    round64 q = m * (2 : ℚ) ^ e := by
  have hpos : 0 < q := lt_of_lt_of_le (zpow_pos (by norm_num) _) hlo
  apply round64_eq
  · rwa [abs_of_pos hpos]
  · rwa [abs_of_pos hpos]
  · rw [abs_lt]
    constructor <;> linarith

theorem round64_eq_neg (q : ℚ) (e m : ℤ) (hlo : q ≤ -(2 : ℚ) ^ (e + 52))
    (hhi : -(2 : ℚ) ^ (e + 53) < q) (h1 : m * (2 : ℚ) ^ e - (2 : ℚ) ^ e / 2 < q)
    (h2 : q < m * (2 : ℚ) ^ e + (2 : ℚ) ^ e / 2) :
    round64 q = m * (2 : ℚ) ^ e := by
  have hneg : q < 0 := lt_of_le_of_lt hlo (neg_lt_zero.mpr (zpow_pos (by norm_num) _))
  apply round64_eq
  · rw [abs_of_neg hneg]
    linarith
  · rw [abs_of_neg hneg]
    linarith
  · rw [abs_lt]
    constructor <;> linarith

/-- The literal `0.001` as a `double`. -/
theorem alpha64_eq : alpha64 = 1152921504606847 / 1152921504606846976 := by
  unfold alpha64
  rw [round64_eq_pos (1 / 1000) (-62) 4611686018427388 (by norm_num) (by norm_num)
    (by norm_num) (by norm_num)]
  norm_num

/-- Line 68 in `double`s: `lambda_ = -6.999993` (to 16 digits), the exact value being
`-1970322866649755 / 2^48`. -/
theorem ctorLambda64_eq :
    ctorLambda64 0 alpha64 = -1970322866649755 / 281474976710656 := by
  have h1 : mul64 alpha64 alpha64 = 4722366482869645 / 4722366482869645213696 := by
    unfold mul64
    rw [alpha64_eq, round64_eq_pos _ (-72) 4722366482869645 (by norm_num) (by norm_num)
      (by norm_num) (by norm_num)]
    norm_num
  have h2 : add64 (n_aug_ : ℚ) 0 = 7 := by
    unfold add64
    rw [round64_eq_pos _ (-50) 7881299347898368 (by norm_num) (by norm_num)
      (by norm_num) (by norm_num)]
    norm_num
  have h3 : mul64 (4722366482869645 / 4722366482869645213696) 7
      = 8264141345021879 / 1180591620717411303424 := by
    unfold mul64
    rw [round64_eq_pos _ (-70) 8264141345021879 (by norm_num) (by norm_num)
      (by norm_num) (by norm_num)]
    norm_num
  have h4 : sub64 (8264141345021879 / 1180591620717411303424) 7
      = -1970322866649755 / 281474976710656 := by
    unfold sub64
    rw [round64_eq_neg _ (-50) (-7881291466599020) (by norm_num) (by norm_num)
      (by norm_num) (by norm_num)]
    norm_num
  unfold ctorLambda64
  rw [h1, h2, h3]
  exact h4

/-- Line 69 and lines 71-72 in `double`s: `weights_m_(0) = -999998.9999871047` and
`weights_m_(i) = 71428.57142765033` (to 16 digits), with their exact values. -/
theorem ctorWeightsM64_eq (i : Fin 15) :
    ctorWeightsM64 (ctorLambda64 0 alpha64) i
      = if i = 0 then -4294963000977319 / 4294967296
        else 4908534052508131 / 68719476736 := by
  have hD : add64 (n_aug_ : ℚ) (-1970322866649755 / 281474976710656)
      = 1970324837 / 281474976710656 := by
    unfold add64
    rw [round64_eq_pos _ (-70) 8264141345128448 (by norm_num) (by norm_num)
      (by norm_num) (by norm_num)]
    norm_num
  have h0 : div64 (-1970322866649755 / 281474976710656) (1970324837 / 281474976710656)
      = -4294963000977319 / 4294967296 := by
    unfold div64
    rw [round64_eq_neg _ (-33) (-8589926001954638) (by norm_num) (by norm_num)
      (by norm_num) (by norm_num)]
    norm_num
  have h2 : mul64 2 (1970324837 / 281474976710656) = 1970324837 / 140737488355328 := by
    unfold mul64
    rw [round64_eq_pos _ (-69) 8264141345128448 (by norm_num) (by norm_num)
      (by norm_num) (by norm_num)]
    norm_num
  have h1 : div64 1 (1970324837 / 140737488355328) = 4908534052508131 / 68719476736 := by
    unfold div64
    rw [round64_eq_pos _ (-36) 4908534052508131 (by norm_num) (by norm_num)
      (by norm_num) (by norm_num)]
    norm_num
  unfold ctorWeightsM64
  rw [ctorLambda64_eq, hD, h0, h2, h1]

/-- The exact sum of the fifteen stored mean weights: `1 - 3/2^35`. -/
theorem ctorWeightsM64_sum :
    ∑ i, ctorWeightsM64 (ctorLambda64 0 alpha64) i = 1 - 3 / 34359738368 := by
  simp only [ctorWeightsM64_eq, Fin.sum_univ_succ, Fin.sum_univ_zero]
  simp [Fin.ext_iff]
  norm_num

/-- The mean weights a constructed filter stores. -/
theorem new64_weights_m (x0 : Fin 5 → K) (X0 : Matrix (Fin 5) (Fin 15) K) (i : Fin 15) :
    (UKF.new64 x0 X0).weights_m_ i
      = if i = 0 then -4294963000977319 / 4294967296 else 4908534052508131 / 68719476736 := by
  show ((ctorWeightsM64 (ctorLambda64 0 alpha64) i : ℚ) : K) = _
  rw [ctorWeightsM64_eq]
  split_ifs <;> push_cast <;> rfl

theorem new64_weights_m_sum (x0 : Fin 5 → K) (X0 : Matrix (Fin 5) (Fin 15) K) :
    ∑ i, (UKF.new64 x0 X0).weights_m_ i = 1 - 3 / 34359738368 := by
  show ∑ i, ((ctorWeightsM64 (ctorLambda64 0 alpha64) i : ℚ) : K) = _
  rw [← Rat.cast_sum, ctorWeightsM64_sum]
  push_cast
  rfl

/-- C1 (as stated, refuted). In the `double` arithmetic of lines 68-72 the
constructor stores `lambda_ = -1970322866649755/2^48`,
`weights_m_(0) = -4294963000977319/2^32` and
`weights_m_(i) = 4908534052508131/2^36` for `i = 1 .. 14`
(`-6.999993`, `-999998.9999871047` and `71428.57142765033` to 16 digits), and the
fifteen stored weights, added as rational numbers, sum to `1 - 3/2^35`, not to `1`. -/
theorem C1_counterexample :
    (UKF.new64 (0 : Fin 5 → ℚ) 0).lambda_ = -1970322866649755 / 281474976710656 ∧
    (UKF.new64 (0 : Fin 5 → ℚ) 0).weights_m_ 0 = -4294963000977319 / 4294967296 ∧
    (∀ i, i ≠ 0 →
      (UKF.new64 (0 : Fin 5 → ℚ) 0).weights_m_ i = 4908534052508131 / 68719476736) ∧
    ∑ i, (UKF.new64 (0 : Fin 5 → ℚ) 0).weights_m_ i = 1 - 3 / 34359738368 ∧
    ∑ i, (UKF.new64 (0 : Fin 5 → ℚ) 0).weights_m_ i ≠ 1 := by
  refine ⟨?_, ?_, fun i hi => ?_, new64_weights_m_sum 0 0, ?_⟩
  · show ((ctorLambda64 0 alpha64 : ℚ) : ℚ) = _
    rw [ctorLambda64_eq]
  · rw [new64_weights_m, if_pos rfl]
  · rw [new64_weights_m, if_neg hi]
  · rw [new64_weights_m_sum]
    norm_num

/-- C1 (amended). In exact real arithmetic, for any `alpha`, `kappa` with
`n_aug + lambda ≠ 0`, `weights_m_(0) + 14 * 1/(2*(n_aug+lambda)) = 1`, every entry
after the first is `1/(2*(n_aug+lambda))` and the 15 entries sum to 1.  The weights
the constructor stores, computed in `double` arithmetic, have the exact sum
`1 - 3/2^35`: within `1e-10` of `1`, not exactly `1`. -/
theorem C1_mean_weights_sum_near_one (kappa beta alpha : ℝ) (x0 : Fin 5 → ℝ)
    (X0 : Matrix (Fin 5) (Fin 15) ℝ)
    (h : (n_aug_ : ℝ) + (UKF.construct kappa beta alpha x0 X0).lambda_ ≠ 0) :
    ((UKF.construct kappa beta alpha x0 X0).weights_m_ 0
        + 14 * (1 / (2 * ((n_aug_ : ℝ) + (UKF.construct kappa beta alpha x0 X0).lambda_))) = 1
      ∧ (∀ i, i ≠ 0 → (UKF.construct kappa beta alpha x0 X0).weights_m_ i
          = 1 / (2 * ((n_aug_ : ℝ) + (UKF.construct kappa beta alpha x0 X0).lambda_)))
      ∧ ∑ i, (UKF.construct kappa beta alpha x0 X0).weights_m_ i = 1) ∧
    ∑ i, (UKF.new64 x0 X0).weights_m_ i = 1 - 3 / 34359738368 ∧
    |∑ i, (UKF.new64 x0 X0).weights_m_ i - 1| ≤ 1 / 10000000000 ∧
    ∑ i, (UKF.new64 x0 X0).weights_m_ i ≠ 1 := by
  refine ⟨⟨?_, ?_, ?_⟩, new64_weights_m_sum x0 X0, ?_, ?_⟩
  · have h7 : (7 : ℝ) + ctorLambda kappa alpha ≠ 0 := by
      simpa [UKF.construct] using h
    simp only [UKF.construct, ctorWeightsM, if_true]
    push_cast
    field_simp
    ring
  · intro i hi
    simp [UKF.construct, ctorWeightsM, hi]
  · exact ctorWeightsM_sum _ h
  · rw [new64_weights_m_sum]
    rw [abs_le]
    constructor <;> norm_num
  · rw [new64_weights_m_sum]
    norm_num

/-- C1 (amended) at the constructor's parameters `alpha = 0.001`, `kappa = 0`: the
exact weights sum to 1, the stored ones to `1 - 3/2^35`. -/
theorem C1_mean_weights_sum_near_one_witness :
    (n_aug_ : ℝ) + (UKF.new (0 : Fin 5 → ℝ) 0).lambda_ ≠ 0 ∧
    ∑ i, (UKF.new (0 : Fin 5 → ℝ) 0).weights_m_ i = 1 ∧
    ∑ i, (UKF.new64 (0 : Fin 5 → ℝ) 0).weights_m_ i = 1 - 3 / 34359738368 :=
  ⟨by norm_num [UKF.new, UKF.construct, ctorLambda],
   (C1_mean_weights_sum_near_one 0 2 (1 / 1000) 0 0
      (by norm_num [UKF.construct, ctorLambda])).1.2.2,
   (C1_mean_weights_sum_near_one 0 2 (1 / 1000) 0 0
      (by norm_num [UKF.construct, ctorLambda])).2.1⟩

/-! ## `NormalizeAngle` in `double` arithmetic -/

theorem two_M_PI64 : mul64 2 M_PI64 = 884279719003555 / 140737488355328 := by
  unfold mul64 M_PI64
  rw [round64_eq_pos _ (-50) 7074237752028440 (by norm_num) (by norm_num)
    (by norm_num) (by norm_num)]
  norm_num

/-- At `1e17` the spacing of the `double`s is 16, and `1e17 - 2*M_PI` rounds back
to `1e17`. -/
theorem sub64_stuck : sub64 100000000000000000 (mul64 2 M_PI64) = 100000000000000000 := by
  rw [two_M_PI64]
  unfold sub64
  rw [round64_eq_pos _ 4 6250000000000000 (by norm_num) (by norm_num)
    (by norm_num) (by norm_num)]
  norm_num

theorem whileAbove64_stuck (fuel : ℕ) : whileAbove64 fuel 100000000000000000 = none := by
  have hgt : (100000000000000000 : ℚ) > M_PI64 := by
    unfold M_PI64
    norm_num
  induction fuel with
  | zero => simp [whileAbove64, hgt]
  | succ f ih =>
    unfold whileAbove64
    rw [if_pos hgt, sub64_stuck]
    exact ih

/-- C3 (as stated, refuted). The angle `1e17` is a `double`; in `double` arithmetic
`1e17 - 2.*M_PI` is `1e17` again, so the loop of line 108 never ends: for every
fuel `NormalizeAngle` does not return. -/
theorem C3_counterexample :
    round64 100000000000000000 = 100000000000000000 ∧
    sub64 100000000000000000 (mul64 2 M_PI64) = 100000000000000000 ∧
    ∀ fuel : ℕ, NormalizeAngle64 fuel 100000000000000000 = none := by
  refine ⟨?_, sub64_stuck, fun fuel => ?_⟩
  · rw [round64_eq_pos _ 4 6250000000000000 (by norm_num) (by norm_num)
      (by norm_num) (by norm_num)]
    norm_num
  · unfold NormalizeAngle64
    rw [whileAbove64_stuck]
    rfl

/-- One pass of the loop of line 108 on an angle above `M_PI` of magnitude at most
`B ≤ 2^52`: the rounded difference is within `B/2^53` of the exact one and at least
`5` below the angle. -/
theorem sub64_step (a B : ℚ) (h4 : 4 ≤ B) (hB : B ≤ 2 ^ 52) (hP : M_PI64 < a) (ha : a ≤ B) :
    |sub64 a (mul64 2 M_PI64) - (a - 884279719003555 / 140737488355328)| ≤ B / 2 ^ 53 ∧
    sub64 a (mul64 2 M_PI64) ≤ a - 5 ∧ -B ≤ sub64 a (mul64 2 M_PI64) := by
  rw [two_M_PI64]
  unfold M_PI64 at hP
  have herr := round64_error (a - 884279719003555 / 140737488355328)
  have habs : |a - 884279719003555 / 140737488355328| ≤ B := by
    rw [abs_le]
    constructor <;> linarith
  have hE : |sub64 a (884279719003555 / 140737488355328)
      - (a - 884279719003555 / 140737488355328)| ≤ B / 2 ^ 53 := by
    unfold sub64
    exact herr.trans (div_le_div_of_nonneg_right habs (by norm_num))
  have hhalf : B / 2 ^ 53 ≤ 1 / 2 := by
    rw [div_le_div_iff (by norm_num) (by norm_num)]
    linarith
  obtain ⟨h1, h2⟩ := abs_le.mp hE
  refine ⟨hE, ?_, ?_⟩ <;> linarith

/-- One pass of the loop of line 109 on an angle below `-M_PI` of magnitude at most
`B ≤ 2^52`. -/
theorem add64_step (a B : ℚ) (h4 : 4 ≤ B) (hB : B ≤ 2 ^ 52) (hP : a < -M_PI64) (ha : -B ≤ a) :
    |add64 a (mul64 2 M_PI64) - (a + 884279719003555 / 140737488355328)| ≤ B / 2 ^ 53 ∧
    a + 5 ≤ add64 a (mul64 2 M_PI64) ∧ add64 a (mul64 2 M_PI64) ≤ B := by
  rw [two_M_PI64]
  unfold M_PI64 at hP
  have herr := round64_error (a + 884279719003555 / 140737488355328)
  have habs : |a + 884279719003555 / 140737488355328| ≤ B := by
    rw [abs_le]
    constructor <;> linarith
  have hE : |add64 a (884279719003555 / 140737488355328)
      - (a + 884279719003555 / 140737488355328)| ≤ B / 2 ^ 53 := by
    unfold add64
    exact herr.trans (div_le_div_of_nonneg_right habs (by norm_num))
  have hhalf : B / 2 ^ 53 ≤ 1 / 2 := by
    rw [div_le_div_iff (by norm_num) (by norm_num)]
    linarith
  obtain ⟨h1, h2⟩ := abs_le.mp hE
  refine ⟨hE, ?_, ?_⟩ <;> linarith

/-- The loop of line 108 in `double` arithmetic ends within `n` passes when the
angle is at most `M_PI + 5n` (and of magnitude at most `B ≤ 2^52`); `j` passes
leave the angle within `j * B/2^53` of `angle - j * 2*M_PI`. -/
theorem whileAbove64_spec (B : ℚ) (h4 : 4 ≤ B) (hB : B ≤ 2 ^ 52) :
    ∀ (n : ℕ) (a : ℚ), a ≤ B → -B ≤ a → a ≤ M_PI64 + 5 * n → ∀ fuel, n ≤ fuel →
      ∃ (r : ℚ) (j : ℕ), whileAbove64 fuel a = some r ∧ j ≤ n ∧ -B ≤ r ∧ r ≤ B ∧
        |r - (a - 884279719003555 / 140737488355328 * j)| ≤ j * (B / 2 ^ 53) := by
  intro n
  induction n with
  | zero =>
    intro a ha1 ha2 ha fuel _
    have hle : ¬ a > M_PI64 := by
      simp only [Nat.cast_zero, mul_zero, add_zero] at ha
      exact not_lt.mpr ha
    refine ⟨a, 0, ?_, le_rfl, ha2, ha1, ?_⟩
    · cases fuel <;> simp [whileAbove64, hle]
    · simp
  | succ n ih =>
    intro a ha1 ha2 ha fuel hfuel
    by_cases hgt : a > M_PI64
    · obtain ⟨f, rfl⟩ : ∃ f, fuel = f + 1 := ⟨fuel - 1, by omega⟩
      obtain ⟨hE, hdown, hlow⟩ := sub64_step a B h4 hB hgt ha1
      have hn : sub64 a (mul64 2 M_PI64) ≤ M_PI64 + 5 * n := by
        push_cast at ha
        linarith
      obtain ⟨r, j, hr, hj, hr1, hr2, herr⟩ := ih _ (by linarith) hlow hn f (by omega)
      refine ⟨r, j + 1, ?_, by omega, hr1, hr2, ?_⟩
      · unfold whileAbove64
        rw [if_pos hgt]
        exact hr
      · have e : r - (a - 884279719003555 / 140737488355328 * ((j + 1 : ℕ) : ℚ))
            = (r - (sub64 a (mul64 2 M_PI64) - 884279719003555 / 140737488355328 * j))
              + (sub64 a (mul64 2 M_PI64) - (a - 884279719003555 / 140737488355328)) := by
          push_cast
          ring
        rw [e]
        refine (abs_add _ _).trans ?_
        push_cast
        linarith
    · refine ⟨a, 0, ?_, Nat.zero_le _, ha2, ha1, ?_⟩
      · cases fuel <;> simp [whileAbove64, hgt]
      · simp

/-- The loop of line 109 in `double` arithmetic ends within `n` passes when the
angle is at least `-M_PI - 5n` (and of magnitude at most `B ≤ 2^52`). -/
theorem whileBelow64_spec (B : ℚ) (h4 : 4 ≤ B) (hB : B ≤ 2 ^ 52) :
    ∀ (n : ℕ) (a : ℚ), a ≤ B → -B ≤ a → -M_PI64 - 5 * n ≤ a → ∀ fuel, n ≤ fuel →
      ∃ (r : ℚ) (j : ℕ), whileBelow64 fuel a = some r ∧ j ≤ n ∧
        |r - (a + 884279719003555 / 140737488355328 * j)| ≤ j * (B / 2 ^ 53) := by
  intro n
  induction n with
  | zero =>
    intro a ha1 ha2 ha fuel _
    have hle : ¬ a < -M_PI64 := by
      simp only [Nat.cast_zero, mul_zero, sub_zero] at ha
      exact not_lt.mpr ha
    refine ⟨a, 0, ?_, le_rfl, ?_⟩
    · cases fuel <;> simp [whileBelow64, hle]
    · simp
  | succ n ih =>
    intro a ha1 ha2 ha fuel hfuel
    by_cases hlt : a < -M_PI64
    · obtain ⟨f, rfl⟩ : ∃ f, fuel = f + 1 := ⟨fuel - 1, by omega⟩
      obtain ⟨hE, hup, hhigh⟩ := add64_step a B h4 hB hlt ha2
      have hn : -M_PI64 - 5 * n ≤ add64 a (mul64 2 M_PI64) := by
        push_cast at ha
        linarith
      obtain ⟨r, j, hr, hj, herr⟩ := ih _ hhigh (by linarith) hn f (by omega)
      refine ⟨r, j + 1, ?_, by omega, ?_⟩
      · unfold whileBelow64
        rw [if_pos hlt]
        exact hr
      · have e : r - (a + 884279719003555 / 140737488355328 * ((j + 1 : ℕ) : ℚ))
            = (r - (add64 a (mul64 2 M_PI64) + 884279719003555 / 140737488355328 * j))
              + (add64 a (mul64 2 M_PI64) - (a + 884279719003555 / 140737488355328)) := by
          push_cast
          ring
        rw [e]
        refine (abs_add _ _).trans ?_
        push_cast
        linarith
    · refine ⟨a, 0, ?_, Nat.zero_le _, ?_⟩
      · cases fuel <;> simp [whileBelow64, hlt]
      · simp

/-- C3 (amended). In `double` arithmetic, for every input angle `θ` of magnitude at
most `2^52`, `NormalizeAngle` terminates (it returns for every large enough fuel)
and its result differs from `θ + 2*M_PI*k`, for an integer `k`, by at most the
rounding accumulated by the repeated subtraction, `(|θ| + 4)^2 / 2^53`. -/
theorem C3_double_normalisation (θ : ℚ) (h : |θ| ≤ 2 ^ 52) :
    ∃ N : ℕ, ∀ fuel, N ≤ fuel → ∃ (r : ℚ) (k : ℤ),
      NormalizeAngle64 fuel θ = some r ∧
        |r - (θ + 2 * M_PI64 * k)| ≤ (|θ| + 4) ^ 2 / 2 ^ 53 := by
  obtain ⟨B, hBdef⟩ : ∃ B, B = max |θ| 4 := ⟨_, rfl⟩
  have h4 : 4 ≤ B := by
    rw [hBdef]
    exact le_max_right _ _
  have hθB : |θ| ≤ B := by
    rw [hBdef]
    exact le_max_left _ _
  have hB : B ≤ 2 ^ 52 := by
    rw [hBdef]
    exact max_le h (by norm_num)
  have hB4 : B ≤ |θ| + 4 := by
    rw [hBdef]
    exact max_le (by linarith) (by linarith [abs_nonneg θ])
  obtain ⟨hθ1, hθ2⟩ := abs_le.mp hθB
  have hP : (0 : ℚ) ≤ M_PI64 := by
    unfold M_PI64
    norm_num
  obtain ⟨n, hn⟩ : ∃ n : ℕ, n = ⌈B / 5⌉₊ := ⟨_, rfl⟩
  have hn5 : B ≤ 5 * n := by
    have := Nat.le_ceil (B / 5)
    rw [← hn] at this
    linarith
  have hn' : (n : ℚ) ≤ B / 5 + 1 := by
    rw [hn]
    exact (Nat.ceil_lt_add_one (by linarith)).le
  refine ⟨n, fun fuel hfuel => ?_⟩
  obtain ⟨r1, j1, hr1, hj1, hlow, hhigh, he1⟩ := whileAbove64_spec B h4 hB n θ hθ2 hθ1
    (by linarith) fuel hfuel
  obtain ⟨r, j2, hr, hj2, he2⟩ := whileBelow64_spec B h4 hB n r1 hhigh hlow
    (by linarith) fuel hfuel
  refine ⟨r, (j2 : ℤ) - j1, ?_, ?_⟩
  · unfold NormalizeAngle64
    rw [hr1, Option.some_bind, hr]
  · have e : r - (θ + 2 * M_PI64 * (((j2 : ℤ) - j1 : ℤ) : ℚ))
        = (r - (r1 + 884279719003555 / 140737488355328 * j2))
          + (r1 - (θ - 884279719003555 / 140737488355328 * j1)) := by
      unfold M_PI64
      push_cast
      ring
    rw [e]
    refine (abs_add _ _).trans ?_
    have hj1' : (j1 : ℚ) ≤ n := by exact_mod_cast hj1
    have hj2' : (j2 : ℚ) ≤ n := by exact_mod_cast hj2
    have hE : 0 ≤ B / 2 ^ 53 := by positivity
    have hsteps : (j2 : ℚ) * (B / 2 ^ 53) + j1 * (B / 2 ^ 53) ≤ (2 * n) * (B / 2 ^ 53) := by
      nlinarith
    have hbound : (2 * (n : ℚ)) * (B / 2 ^ 53) ≤ (|θ| + 4) ^ 2 / 2 ^ 53 := by
      rw [mul_div_assoc', div_le_div_right (by norm_num)]
      have h2n : 2 * (n : ℚ) ≤ |θ| + 4 := by linarith
      nlinarith [abs_nonneg θ]
    linarith

/-- C3 (amended) at the angle `10`. -/
theorem C3_double_normalisation_witness :
    ∃ N : ℕ, ∀ fuel, N ≤ fuel → ∃ (r : ℚ) (k : ℤ),
      NormalizeAngle64 fuel 10 = some r ∧
        |r - (10 + 2 * M_PI64 * k)| ≤ (|(10 : ℚ)| + 4) ^ 2 / 2 ^ 53 :=
  C3_double_normalisation 10 (by
    rw [abs_of_pos (by norm_num)]
    norm_num)

/-! ## Filters that hold the stored weights -/

theorem UKF.new64_configured (x0 : Fin 5 → K) (X0 : Matrix (Fin 5) (Fin 15) K) :
    (UKF.new64 x0 X0).Configured64 := ⟨rfl, rfl, rfl⟩

/-- The values of `lambda_`, `weights_m_` and `weights_c_(1 .. 14)` that the
constructor stores. -/
theorem UKF.Configured64.values {s : UKF K} (h : s.Configured64) :
    s.lambda_ = -1970322866649755 / 281474976710656 ∧
    (∀ i, s.weights_m_ i
      = if i = 0 then -4294963000977319 / 4294967296 else 4908534052508131 / 68719476736) ∧
    ∀ i : Fin 14, s.weights_c_ i.succ = 4908534052508131 / 68719476736 := by
  obtain ⟨h1, h2, h3⟩ := h
  refine ⟨?_, fun i => ?_, fun i => ?_⟩
  · rw [h1, ctorLambda64_eq]
    push_cast
    rfl
  · rw [h2]
    show ((ctorWeightsM64 (ctorLambda64 0 alpha64) i : ℚ) : K) = _
    rw [ctorWeightsM64_eq]
    split_ifs <;> push_cast <;> rfl
  · rw [h3]
    show ((ctorWeightsC64 2 alpha64 (ctorLambda64 0 alpha64) i.succ : ℚ) : K) = _
    unfold ctorWeightsC64
    rw [if_neg (Fin.succ_ne_zero i), ctorWeightsM64_eq, if_neg (Fin.succ_ne_zero i)]
    push_cast
    rfl

/-- Recombining sigma points with weights that are equal from entry 1 on gives the
mean times the sum of the weights. -/
theorem sigmaColumns_mulVec_weights (x_aug : Fin 7 → K) (A : Matrix (Fin 7) (Fin 7) K)
    (w : Fin 15 → K) (w1 : K) (hw : ∀ i, i ≠ 0 → w i = w1) :
    sigmaColumns x_aug A *ᵥ w = (w 0 + 14 * w1) • x_aug := by
  funext r
  simp only [mulVec, dotProduct, sigmaColumns, Fin.sum_univ_succ, Fin.sum_univ_zero,
    hw _ (Fin.succ_ne_zero _), Pi.smul_apply, smul_eq_mul]
  simp [Fin.ext_iff]
  ring

/-- With the stored weights, the sigma points recombine to `(1 - 3/2^35)` times the
augmented mean (sums and sigma points in exact arithmetic). -/
theorem recombine64 (m : Libm K) (s : UKF K) (Xsig_aug : Matrix (Fin 7) (Fin 15) K)
    (hcfg : s.Configured64) (hgen : GenerateAugmentedSigmaPoints m s = some Xsig_aug) :
    Xsig_aug *ᵥ s.weights_m_ = (1 - 3 / 34359738368 : K) • augmentedMean s.x_ := by
  obtain ⟨L, -, hX⟩ := GenerateAugmentedSigmaPoints_some m s Xsig_aug hgen
  obtain ⟨-, hw, -⟩ := hcfg.values
  rw [hX, sigmaColumns_mulVec_weights _ _ s.weights_m_ (4908534052508131 / 68719476736)
    (fun i hi => by rw [hw, if_neg hi]), hw, if_pos rfl]
  congr 1
  norm_num

/-- C6 (amended). For every state `x_` and covariance `P_` for which the Cholesky
factor exists, in a filter holding the weights the constructor stores, the product
`Xsig_aug * weights_m_` agrees with the augmented mean `(x_, 0, 0)` up to `1e-8`
relative to the size of the sigma points: in each row the difference is at most
`1e-8 * B`, for any bound `B` on the entries of that row of `Xsig_aug`. -/
theorem C6_sigma_points_recombine_near (m : Libm ℝ) (s : UKF ℝ)
    (Xsig_aug : Matrix (Fin 7) (Fin 15) ℝ) (hcfg : s.Configured64)
    (hgen : GenerateAugmentedSigmaPoints m s = some Xsig_aug) :
    ∀ (r : Fin 7) (B : ℝ), (∀ i, |Xsig_aug r i| ≤ B) →
      |(Xsig_aug *ᵥ s.weights_m_) r - ![s.x_ 0, s.x_ 1, s.x_ 2, s.x_ 3, s.x_ 4, 0, 0] r|
        ≤ B / 100000000 := by
  intro r B hB
  obtain ⟨L, -, hX⟩ := GenerateAugmentedSigmaPoints_some m s Xsig_aug hgen
  have h0 : |augmentedMean s.x_ r| ≤ B := by
    have := hB 0
    rw [hX] at this
    simpa [sigmaColumns] using this
  rw [recombine64 m s Xsig_aug hcfg hgen, ← augmentedMean_eq, Pi.smul_apply, smul_eq_mul]
  have e : (1 - 3 / 34359738368 : ℝ) * augmentedMean s.x_ r - augmentedMean s.x_ r
      = -(3 / 34359738368) * augmentedMean s.x_ r := by ring
  rw [e, abs_mul, abs_neg, abs_of_pos (by norm_num : (0 : ℝ) < 3 / 34359738368)]
  have hB0 : 0 ≤ B := (abs_nonneg _).trans h0
  nlinarith

/-! ## Prediction over no time with the stored weights -/

theorem sum_shifted_deviation_products (x_aug : Fin 7 → K) (A : Matrix (Fin 7) (Fin 7) K)
    (w ea eb : K) (a b : Fin 7) :
    ∑ i : Fin 14, w * ((sigmaColumns x_aug A a i.succ - x_aug a + ea)
        * (sigmaColumns x_aug A b i.succ - x_aug b + eb))
      = w * (14 * (ea * eb) + 2 * ∑ j : Fin 7, A a j * A b j) := by
  simp only [sigmaColumns_deviation]
  rw [Fin.sum_univ_seven]
  simp only [Fin.sum_univ_succ, Fin.sum_univ_zero]
  simp
  ring

/-- The result of `Prediction` when the predicted sigma points are of the form
"mean, mean plus columns, mean minus columns" (for a vector `y` and a matrix `A`),
the weights are equal from entry 1 on and sum to `σ`, and the yaw deviations need
no normalisation: the new state is `σ * y` and the new covariance is
`wc * (14 * (1-σ)^2 * y * yᵀ + 2 * A * Aᵀ)`. -/
theorem Prediction_of_sigma_weights (m : Libm K) (fuel : ℕ) (s : UKF K) (delta_t : K)
    (Xsig_aug : Matrix (Fin 7) (Fin 15) K) (y : Fin 7 → K) (A : Matrix (Fin 7) (Fin 7) K)
    (σ w1 wc : K) (hσ : σ = s.weights_m_ 0 + 14 * w1)
    (hw : ∀ i, i ≠ 0 → s.weights_m_ i = w1) (hwc : ∀ i : Fin 14, s.weights_c_ i.succ = wc)
    (hgen : GenerateAugmentedSigmaPoints m s = some Xsig_aug)
    (hcol : ∀ i, predictColumn m fuel (fun r => Xsig_aug r i) delta_t
      = some fun r => sigmaColumns y A (Fin.castLE (by norm_num) r) i)
    (hsmall : ∀ j : Fin 7, (-m.M_PI ≤ (1 - σ) * y 3 + A 3 j ∧ (1 - σ) * y 3 + A 3 j ≤ m.M_PI) ∧
      -m.M_PI ≤ (1 - σ) * y 3 - A 3 j ∧ (1 - σ) * y 3 - A 3 j ≤ m.M_PI) :
    Prediction m fuel s delta_t = some { s with
      Xsig_pred_ := fun r i => sigmaColumns y A (Fin.castLE (by norm_num) r) i
      x_ := fun r => σ * y (Fin.castLE (by norm_num) r)
      P_ := fun a b => wc
        * (14 * (((1 - σ) * y (Fin.castLE (by norm_num) a))
            * ((1 - σ) * y (Fin.castLE (by norm_num) b)))
          + 2 * ∑ j, A (Fin.castLE (by norm_num) a) j * A (Fin.castLE (by norm_num) b) j) } := by
  obtain ⟨up, hup⟩ : ∃ up : Fin 5 → Fin 7, up = Fin.castLE (by norm_num) := ⟨_, rfl⟩
  simp only [← hup] at hcol ⊢
  obtain ⟨Xp, hXp⟩ : ∃ Xp : Matrix (Fin 5) (Fin 15) K,
      Xp = fun r i => sigmaColumns y A (up r) i := ⟨_, rfl⟩
  have hXp' : ∀ r i, Xp r i = sigmaColumns y A (up r) i := by
    intro r i
    rw [hXp]
  have hcol' : ∀ i, predictColumn m fuel (fun r => Xsig_aug r i) delta_t
      = some fun r => Xp r i := by
    intro i
    rw [hcol i, hXp]
  have hmean : Xp *ᵥ s.weights_m_ = fun r => σ * y (up r) := by
    funext r
    have := congrFun (sigmaColumns_mulVec_weights y A s.weights_m_ w1 hw) (up r)
    rw [Pi.smul_apply, smul_eq_mul, ← hσ] at this
    rw [← this]
    simp only [mulVec, dotProduct, hXp']
  obtain ⟨D, hD⟩ : ∃ D : Fin 14 → Fin 5 → K,
      ∀ i r, D i r = sigmaColumns y A (up r) i.succ - y (up r) + (1 - σ) * y (up r) :=
    ⟨_, fun _ _ => rfl⟩
  have hdiff : ∀ i : Fin 14,
      angleDiff m fuel 3 (fun r => Xp r i.succ) (Xp *ᵥ s.weights_m_) = some (D i) := by
    intro i
    have e : (fun r => Xp r i.succ) - Xp *ᵥ s.weights_m_ = D i := by
      funext r
      rw [Pi.sub_apply, hmean, hXp', hD]
      ring
    rw [← e]
    have e3 : Xp 3 i.succ - (Xp *ᵥ s.weights_m_) 3
        = (if h : i.val < 7 then A 3 ⟨i.val, h⟩ else -(A 3 ⟨i.val - 7, by omega⟩))
          + (1 - σ) * y 3 := by
      have := congrFun e 3
      rw [Pi.sub_apply] at this
      rw [this, hD, sigmaColumns_deviation, hup]
      rfl
    apply angleDiff_of_mem
    · rw [e3]
      split_ifs
      · linarith [(hsmall ⟨i.val, by assumption⟩).1.1]
      · linarith [(hsmall ⟨i.val - 7, by omega⟩).2.1]
    · rw [e3]
      split_ifs
      · linarith [(hsmall ⟨i.val, by assumption⟩).1.2]
      · linarith [(hsmall ⟨i.val - 7, by omega⟩).2.2]
  have hP : (∑ i : Fin 14, s.weights_c_ i.succ • vecMulVec (D i) (D i))
      = fun a b => wc * (14 * (((1 - σ) * y (up a)) * ((1 - σ) * y (up b)))
          + 2 * ∑ j, A (up a) j * A (up b) j) := by
    funext a b
    rw [Matrix.sum_apply]
    simp only [Matrix.smul_apply, vecMulVec_apply, hD, smul_eq_mul, hwc]
    exact sum_shifted_deviation_products y A wc _ _ (up a) (up b)
  rw [Prediction_eq m fuel s delta_t Xsig_aug Xp D hgen hcol' hdiff, hmean, hP, hXp]

/-- The scale `sqrt(lambda_ + n_aug_)` of a filter holding the stored `lambda_`. -/
theorem scale_bounds64 (s : UKF ℝ) (hcfg : s.Configured64) :
    Real.sqrt (s.lambda_ + (n_aug_ : ℝ)) * Real.sqrt (s.lambda_ + (n_aug_ : ℝ))
        = 1970324837 / 281474976710656 ∧
      0 ≤ Real.sqrt (s.lambda_ + (n_aug_ : ℝ)) ∧
      Real.sqrt (s.lambda_ + (n_aug_ : ℝ)) ≤ 1 / 2 := by
  have h : s.lambda_ + (n_aug_ : ℝ) = 1970324837 / 281474976710656 := by
    rw [hcfg.values.1]
    norm_num [n_aug_]
  rw [h]
  refine ⟨Real.mul_self_sqrt (by norm_num), Real.sqrt_nonneg _, ?_⟩
  rw [Real.sqrt_le_iff]
  norm_num

/-- `Prediction(0)` with the stored weights, when no yaw needs normalisation: the new
state is `(1 - 3/2^35) * x_` and the new covariance is `P_` up to the factors the
stored weights leave (sums and sigma points in exact arithmetic). -/
theorem Prediction_zero64 (m : Libm ℝ) (fuel : ℕ) (s : UKF ℝ)
    (Xsig_aug : Matrix (Fin 7) (Fin 15) ℝ)
    (hsqrt : m.sqrt = Real.sqrt) (hpi : m.M_PI = Real.pi)
    (hcfg : s.Configured64) (hsymm : s.P_.IsSymm)
    (hgen : GenerateAugmentedSigmaPoints m s = some Xsig_aug)
    (hyaw : ∀ i, Xsig_aug 3 i ∈ Set.Icc (-Real.pi) Real.pi) :
    ∃ s', Prediction m fuel s 0 = some s' ∧
      (∀ r, s'.x_ r = (1 - 3 / 34359738368) * s.x_ r) ∧
      ∀ a b, s'.P_ a b = 4908534052508131 / 68719476736
        * (14 * ((3 / 34359738368 * s.x_ a) * (3 / 34359738368 * s.x_ b))
          + 2 * (1970324837 / 281474976710656 * s.P_ a b)) := by
  obtain ⟨L, hL, hXa⟩ := GenerateAugmentedSigmaPoints_some m s Xsig_aug hgen
  have hLL := llt_mul_transpose m.sqrt (by rw [hsqrt]; exact real_sqrt_law) _ _
    (augmentedCovariance_symm s hsymm) hL
  obtain ⟨hc, -, -⟩ := scale_bounds64 s hcfg
  obtain ⟨-, hw, hwc⟩ := hcfg.values
  obtain ⟨c, hcdef⟩ : ∃ c, c = m.sqrt (s.lambda_ + (n_aug_ : ℝ)) := ⟨_, rfl⟩
  rw [← hsqrt, ← hcdef] at hc
  rw [← hcdef] at hXa
  rw [hXa] at hyaw
  have hx3 : augmentedMean s.x_ 3 = s.x_ 3 := augmentedMean_castLE s.x_ 3
  have hcol : ∀ i, predictColumn m fuel (fun r => Xsig_aug r i) 0
      = some fun r => sigmaColumns (augmentedMean s.x_) (c • L)
          (Fin.castLE (by norm_num) r) i := by
    intro i
    rw [hXa]
    simp only [predictColumn_zero]
    rw [NormalizeAngle_of_mem fuel (by rw [hpi]; exact (hyaw i).1)
      (by rw [hpi]; exact (hyaw i).2), Option.map_some']
    congr 1
    funext r
    fin_cases r <;> rfl
  have hsmall : ∀ j : Fin 7,
      (-m.M_PI ≤ (1 - (1 - 3 / 34359738368 : ℝ)) * augmentedMean s.x_ 3 + (c • L) 3 j ∧
        (1 - (1 - 3 / 34359738368 : ℝ)) * augmentedMean s.x_ 3 + (c • L) 3 j ≤ m.M_PI) ∧
      -m.M_PI ≤ (1 - (1 - 3 / 34359738368 : ℝ)) * augmentedMean s.x_ 3 - (c • L) 3 j ∧
        (1 - (1 - 3 / 34359738368 : ℝ)) * augmentedMean s.x_ 3 - (c • L) 3 j ≤ m.M_PI := by
    intro j
    have h1 := hyaw (Fin.succ ⟨j.val, by omega⟩)
    have h2 := hyaw (Fin.succ ⟨j.val + 7, by omega⟩)
    have e1 := sigmaColumns_deviation (augmentedMean s.x_) (c • L) 3 ⟨j.val, by omega⟩
    have e2 := sigmaColumns_deviation (augmentedMean s.x_) (c • L) 3 ⟨j.val + 7, by omega⟩
    rw [dif_pos (show (⟨j.val, by omega⟩ : Fin 14).val < 7 from j.isLt)] at e1
    rw [dif_neg (show ¬ (⟨j.val + 7, by omega⟩ : Fin 14).val < 7 from by simp)] at e2
    simp only [Fin.eta, Nat.add_sub_cancel] at e1 e2
    rw [hpi]
    obtain ⟨h1a, h1b⟩ := h1
    obtain ⟨h2a, h2b⟩ := h2
    refine ⟨⟨?_, ?_⟩, ?_, ?_⟩ <;> linarith
  have hres := Prediction_of_sigma_weights m fuel s 0 Xsig_aug (augmentedMean s.x_) (c • L)
    (1 - 3 / 34359738368) (4908534052508131 / 68719476736) (4908534052508131 / 68719476736)
    (by rw [hw, if_pos rfl]; norm_num) (fun i hi => by rw [hw, if_neg hi]) hwc hgen hcol hsmall
  refine ⟨_, hres, fun r => ?_, fun a b => ?_⟩
  · show (1 - 3 / 34359738368 : ℝ) * augmentedMean s.x_ (Fin.castLE (by norm_num) r) = _
    rw [augmentedMean_castLE]
  · show 4908534052508131 / 68719476736
        * (14 * (((1 - (1 - 3 / 34359738368 : ℝ))
              * augmentedMean s.x_ (Fin.castLE (by norm_num) a))
            * ((1 - (1 - 3 / 34359738368 : ℝ))
              * augmentedMean s.x_ (Fin.castLE (by norm_num) b)))
          + 2 * ∑ j, (c • L) (Fin.castLE (by norm_num) a) j
            * (c • L) (Fin.castLE (by norm_num) b) j) = _
    have h1 : ∑ j, L (Fin.castLE (by norm_num) a) j * L (Fin.castLE (by norm_num) b) j
        = s.P_ a b := by
      rw [← augmentedCovariance_castLE s a b, ← hLL]
      simp [Matrix.mul_apply, Matrix.transpose_apply]
    have h2 : ∑ j, (c • L) (Fin.castLE (by norm_num) a) j * (c • L) (Fin.castLE (by norm_num) b) j
        = 1970324837 / 281474976710656 * ∑ j, L (Fin.castLE (by norm_num) a) j
            * L (Fin.castLE (by norm_num) b) j := by
      rw [← hc, Finset.mul_sum]
      refine Finset.sum_congr rfl fun j _ => ?_
      simp only [Matrix.smul_apply, smul_eq_mul]
      ring
    rw [h2, h1, augmentedMean_castLE, augmentedMean_castLE]
    ring

/-- C5 (amended). For every state `x_` and every symmetric covariance `P_` whose
augmented matrix the Cholesky step factors, in a filter holding the weights the
constructor stores, if the yaw component of each of the 15 sigma points lies in
`[-π, π]`, then `Prediction(0)` returns, and it leaves `x_` and `P_` unchanged up to
`1e-8` relative to their size: for any bound `B` on the entries of rows `0 .. 4` of
the sigma points and any bound `C` on the entries of `P_`, every component of `x_`
moves by at most `1e-8 * B` and every entry of `P_` by at most `1e-8 * (C + B^2)`. -/
theorem C5_prediction_zero_dt_near (m : Libm ℝ) (fuel : ℕ) (s : UKF ℝ)
    (Xsig_aug : Matrix (Fin 7) (Fin 15) ℝ)
    (hsqrt : m.sqrt = Real.sqrt) (hpi : m.M_PI = Real.pi)
    (hcfg : s.Configured64) (hsymm : s.P_.IsSymm)
    (hgen : GenerateAugmentedSigmaPoints m s = some Xsig_aug)
    (hyaw : ∀ i, Xsig_aug 3 i ∈ Set.Icc (-Real.pi) Real.pi) :
    ∃ s', Prediction m fuel s 0 = some s' ∧
      ∀ B C : ℝ, (∀ (r : Fin 5) i, |Xsig_aug (Fin.castLE (by norm_num) r) i| ≤ B) →
        (∀ a b, |s.P_ a b| ≤ C) →
        (∀ r, |s'.x_ r - s.x_ r| ≤ B / 100000000) ∧
        ∀ a b, |s'.P_ a b - s.P_ a b| ≤ (C + B ^ 2) / 100000000 := by
  obtain ⟨s', hs', hx, hP⟩ := Prediction_zero64 m fuel s Xsig_aug hsqrt hpi hcfg hsymm hgen hyaw
  refine ⟨s', hs', fun B C hB hC => ?_⟩
  obtain ⟨L, -, hXa⟩ := GenerateAugmentedSigmaPoints_some m s Xsig_aug hgen
  have hxB : ∀ r, |s.x_ r| ≤ B := by
    intro r
    have := hB r 0
    rw [hXa] at this
    simpa [sigmaColumns, augmentedMean_castLE] using this
  have hB0 : 0 ≤ B := (abs_nonneg _).trans (hxB 0)
  have hC0 : 0 ≤ C := (abs_nonneg _).trans (hC 0 0)
  refine ⟨fun r => ?_, fun a b => ?_⟩
  · rw [hx r]
    have e : (1 - 3 / 34359738368 : ℝ) * s.x_ r - s.x_ r = -(3 / 34359738368) * s.x_ r := by
      ring
    rw [e, abs_mul, abs_neg, abs_of_pos (by norm_num : (0 : ℝ) < 3 / 34359738368)]
    have := hxB r
    nlinarith
  · rw [hP a b]
    obtain ⟨k1, hk1def⟩ : ∃ k1 : ℝ,
        k1 = 4908534052508131 / 68719476736 * 14 * (3 / 34359738368) ^ 2 := ⟨_, rfl⟩
    obtain ⟨k2, hk2def⟩ : ∃ k2 : ℝ,
        k2 = 4908534052508131 / 68719476736 * 2 * (1970324837 / 281474976710656) - 1 :=
      ⟨_, rfl⟩
    have e : (4908534052508131 / 68719476736 : ℝ)
          * (14 * ((3 / 34359738368 * s.x_ a) * (3 / 34359738368 * s.x_ b))
            + 2 * (1970324837 / 281474976710656 * s.P_ a b)) - s.P_ a b
        = k1 * (s.x_ a * s.x_ b) + k2 * s.P_ a b := by
      rw [hk1def, hk2def]
      ring
    have hk1 : |k1| ≤ 1 / 100000000 := by
      rw [hk1def, abs_le]
      constructor <;> norm_num
    have hk2 : |k2| ≤ 1 / 100000000 := by
      rw [hk2def, abs_le]
      constructor <;> norm_num
    have hab : |s.x_ a * s.x_ b| ≤ B ^ 2 := by
      rw [abs_mul, pow_two]
      exact mul_le_mul (hxB a) (hxB b) (abs_nonneg _) hB0
    rw [e]
    refine (abs_add _ _).trans ?_
    rw [abs_mul k1, abs_mul k2]
    have h1 := mul_le_mul hk1 hab (abs_nonneg _) (by norm_num)
    have h2 := mul_le_mul hk2 (hC a b) (abs_nonneg _) (by norm_num)
    linarith

/-! ## A new filter holding the stored weights -/

/-- Every sigma point of a new filter is within `1/2` of the augmented mean, in
every row. -/
theorem new64_sigma_bound (x0 : Fin 5 → ℝ) (X0 : Matrix (Fin 5) (Fin 15) ℝ) (r : Fin 7)
    (i : Fin 15) :
    |sigmaColumns (augmentedMean x0)
        (Real.sqrt ((UKF.new64 x0 X0).lambda_ + (n_aug_ : ℝ))
          • (Matrix.diagonal ![1, 1, 1, 1, 1, 8 / 10, 6 / 10] : Matrix (Fin 7) (Fin 7) ℝ)) r i
      - augmentedMean x0 r| ≤ 1 / 2 := by
  obtain ⟨-, h0, h1⟩ := scale_bounds64 (UKF.new64 x0 X0) (UKF.new64_configured x0 X0)
  have hrow : ∀ j : Fin 7, |(Real.sqrt ((UKF.new64 x0 X0).lambda_ + (n_aug_ : ℝ))
      • (Matrix.diagonal ![1, 1, 1, 1, 1, 8 / 10, 6 / 10] : Matrix (Fin 7) (Fin 7) ℝ)) r j|
      ≤ 1 / 2 := by
    intro j
    rw [Matrix.smul_apply, smul_eq_mul]
    by_cases hj : r = j
    · subst hj
      obtain ⟨hd0, hd1⟩ := rest_factor_bounds r
      rw [Matrix.diagonal_apply_eq, abs_of_nonneg (mul_nonneg h0 hd0)]
      nlinarith
    · rw [Matrix.diagonal_apply_ne _ hj]
      simp
  refine Fin.cases ?_ (fun k => ?_) i
  · simp [sigmaColumns]
  · rw [sigmaColumns_deviation]
    split_ifs
    · exact hrow _
    · rw [abs_neg]
      exact hrow _

theorem new64_generate (x0 : Fin 5 → ℝ) (X0 : Matrix (Fin 5) (Fin 15) ℝ) :
    GenerateAugmentedSigmaPoints
        (Libm.mk Real.pi Real.sqrt Real.sin Real.cos fun y x => Complex.arg ⟨x, y⟩)
        (UKF.new64 x0 X0)
      = some (sigmaColumns (augmentedMean x0)
        (Real.sqrt ((UKF.new64 x0 X0).lambda_ + (n_aug_ : ℝ))
          • (Matrix.diagonal ![1, 1, 1, 1, 1, 8 / 10, 6 / 10] : Matrix (Fin 7) (Fin 7) ℝ))) :=
  GenerateAugmentedSigmaPoints_eq _ _ _ (llt_of_identity _ rfl rfl rfl)

/-- C5 (amended) at a new filter with the state `(1, 2, 0, 1/2, 0)` and `P_ = I`:
the sigma points have entries of magnitude at most `3`, their yaws lie in `[0, 1]`,
and `Prediction(0)` moves `x_` by at most `3e-8` and `P_` by at most `1e-7`. -/
theorem C5_prediction_zero_dt_near_witness :
    ∃ s', Prediction (Libm.mk Real.pi Real.sqrt Real.sin Real.cos fun y x => Complex.arg ⟨x, y⟩)
        0 (UKF.new64 ![1, 2, 0, 1 / 2, 0] 0) 0 = some s' ∧
      (∀ r, |s'.x_ r - (![1, 2, 0, 1 / 2, 0] : Fin 5 → ℝ) r| ≤ 3 / 100000000) ∧
      ∀ a b, |s'.P_ a b - (1 : Matrix (Fin 5) (Fin 5) ℝ) a b| ≤ (1 + 3 ^ 2) / 100000000 := by
  obtain ⟨s', hs', hbound⟩ := C5_prediction_zero_dt_near
    (Libm.mk Real.pi Real.sqrt Real.sin Real.cos fun y x => Complex.arg ⟨x, y⟩) 0
    (UKF.new64 ![1, 2, 0, 1 / 2, 0] 0) _ rfl rfl (UKF.new64_configured _ _)
    Matrix.isSymm_one (new64_generate _ _)
    (fun i => by
      have h := abs_le.mp (new64_sigma_bound ![1, 2, 0, 1 / 2, 0] 0 3 i)
      have hx : augmentedMean (![1, 2, 0, 1 / 2, 0] : Fin 5 → ℝ) 3 = 1 / 2 :=
        augmentedMean_castLE _ 3
      rw [hx] at h
      have hpi1 := Real.pi_gt_three
      exact ⟨by linarith [h.1], by linarith [h.2]⟩)
  refine ⟨s', hs', hbound 3 1 (fun r i => ?_) (fun a b => ?_)⟩
  · have h := abs_le.mp (new64_sigma_bound ![1, 2, 0, 1 / 2, 0] 0 (Fin.castLE (by norm_num) r) i)
    rw [augmentedMean_castLE] at h
    have hx : |(![1, 2, 0, 1 / 2, 0] : Fin 5 → ℝ) r| ≤ 2 := by
      fin_cases r <;> simp [abs_le] <;> norm_num
    obtain ⟨hx1, hx2⟩ := abs_le.mp hx
    rw [abs_le]
    constructor <;> linarith [h.1, h.2]
  · show |(1 : Matrix (Fin 5) (Fin 5) ℝ) a b| ≤ 1
    rw [Matrix.one_apply]
    split_ifs <;> simp

/-- C6 (amended) at a new filter with the state `(1, 0, 0, 0, 0)` and `P_ = I`: the
entries of row 0 of the sigma points are at most `2`, and the recombination is
within `2e-8` of `x_(0) = 1`. -/
theorem C6_sigma_points_recombine_near_witness :
    ∃ Xsig_aug,
      GenerateAugmentedSigmaPoints
          (Libm.mk Real.pi Real.sqrt Real.sin Real.cos fun y x => Complex.arg ⟨x, y⟩)
          (UKF.new64 ![1, 0, 0, 0, 0] 0) = some Xsig_aug ∧
        (∀ i, |Xsig_aug 0 i| ≤ 2) ∧
        |(Xsig_aug *ᵥ (UKF.new64 (![1, 0, 0, 0, 0] : Fin 5 → ℝ) 0).weights_m_) 0 - 1|
          ≤ 2 / 100000000 := by
  have hB : ∀ i, |sigmaColumns (augmentedMean (![1, 0, 0, 0, 0] : Fin 5 → ℝ))
      (Real.sqrt ((UKF.new64 (![1, 0, 0, 0, 0] : Fin 5 → ℝ) 0).lambda_ + (n_aug_ : ℝ))
        • (Matrix.diagonal ![1, 1, 1, 1, 1, 8 / 10, 6 / 10] : Matrix (Fin 7) (Fin 7) ℝ)) 0 i|
      ≤ 2 := by
    intro i
    have h := abs_le.mp (new64_sigma_bound ![1, 0, 0, 0, 0] 0 0 i)
    have hx : augmentedMean (![1, 0, 0, 0, 0] : Fin 5 → ℝ) 0 = 1 := augmentedMean_castLE _ 0
    rw [hx] at h
    rw [abs_le]
    constructor <;> linarith [h.1, h.2]
  exact ⟨_, new64_generate _ _, hB,
    C6_sigma_points_recombine_near _ (UKF.new64 ![1, 0, 0, 0, 0] 0) _
      (UKF.new64_configured _ _) (new64_generate _ _) 0 2 hB⟩

/-! ## Symmetry of the covariance and the matrices inverted -/

/-- For a non-zero determinant, `inverse` is the inverse. -/
theorem inverse_mul_cancel {n : ℕ} (A : Matrix (Fin n) (Fin n) K) (h : A.det ≠ 0) :
    inverse A * A = 1 := by
  have e : inverse A = A⁻¹ := by
    rw [Matrix.inv_def, Ring.inverse_eq_inv']
    rfl
  rw [e]
  exact Matrix.nonsing_inv_mul A (isUnit_iff_ne_zero.mpr h)

/-- What a returned `UpdateRadar` does to `P_`: nothing (the early returns), or it
subtracts `K*S*Kᵀ` with `S` the sum of the weighted residual products plus the
noise `R` and `K = Tc * S.inverse()`. -/
theorem UpdateRadar_inv (m : Libm K) (fuel : ℕ) (s s' : UKF K)
    (meas_package : MeasurementPackage K)
    (h : UpdateRadar m fuel s meas_package = some s') :
    s'.P_ = s.P_ ∨ ∃ (Tc : Matrix (Fin 5) (Fin 3) K) (Dz : Fin 14 → Fin 3 → K),
      s'.P_ = s.P_
        - (Tc * inverse ((∑ i : Fin 14, s.weights_c_ i.succ • vecMulVec (Dz i) (Dz i))
            + radarR s))
          * ((∑ i : Fin 14, s.weights_c_ i.succ • vecMulVec (Dz i) (Dz i)) + radarR s)
          * (Tc * inverse ((∑ i : Fin 14, s.weights_c_ i.succ • vecMulVec (Dz i) (Dz i))
            + radarR s))ᵀ := by
  unfold UpdateRadar at h
  by_cases htag : meas_package.sensor_type_ ≠ SensorType.RADAR
  · rw [if_pos htag] at h
    cases h
    exact Or.inl rfl
  · rw [if_neg htag] at h
    cases hloop : fillColumns (fun i => radarColumn m (fun r => s.Xsig_pred_ r i))
        (List.finRange 15) 0 with
    | none =>
      rw [hloop] at h
      cases h
      exact Or.inl rfl
    | some Z =>
      rw [hloop] at h
      simp only [] at h
      cases hphi : NormalizeAngle m.M_PI fuel ((Z *ᵥ s.weights_m_) 1) with
      | none =>
        rw [hphi] at h
        cases h
      | some phi =>
        rw [hphi, Option.some_bind] at h
        cases hS : radarS m fuel s.weights_c_ Z
            (Function.update (Z *ᵥ s.weights_m_) 1 phi) with
        | none =>
          rw [hS] at h
          cases h
        | some S =>
          rw [hS, Option.some_bind] at h
          cases hT : radarTc m fuel s.weights_c_ s.Xsig_pred_ s.x_ Z
              (Function.update (Z *ᵥ s.weights_m_) 1 phi) with
          | none =>
            rw [hT] at h
            cases h
          | some Tc =>
            rw [hT, Option.some_bind] at h
            obtain ⟨Dz, -, hSeq⟩ := radarS_inv m fuel _ Z _ S hS
            rw [hSeq] at h
            match hraw : meas_package.raw_measurements_ with
            | [z0, z1, z2] =>
              rw [hraw] at h
              cases h
              exact Or.inr ⟨Tc, Dz, rfl⟩
            | [] => rw [hraw] at h; cases h
            | [_] => rw [hraw] at h; cases h
            | [_, _] => rw [hraw] at h; cases h
            | _ :: _ :: _ :: _ :: _ => rw [hraw] at h; cases h

/-- With non-negative covariance weights and non-zero radar noise, the innovation
covariance of the radar is positive definite, hence invertible. -/
theorem radar_innovation_det (s : UKF ℝ) (Dz : Fin 14 → Fin 3 → ℝ)
    (hw : ∀ i : Fin 14, 0 ≤ s.weights_c_ i.succ)
    (h1 : s.std_radr_ ≠ 0) (h2 : s.std_radphi_ ≠ 0) (h3 : s.std_radrd_ ≠ 0) :
    ((∑ i : Fin 14, s.weights_c_ i.succ • vecMulVec (Dz i) (Dz i)) + radarR s).det ≠ 0 := by
  have hS : (∑ i : Fin 14, s.weights_c_ i.succ • vecMulVec (Dz i) (Dz i)).PosSemidef :=
    posSemidef_sum_vecMulVec (fun i => s.weights_c_ i.succ) hw Dz
  have hR : (radarR s).PosDef := by
    unfold radarR
    apply Matrix.PosDef.diagonal
    intro i
    fin_cases i
    · exact mul_self_pos.mpr h1
    · exact mul_self_pos.mpr h2
    · exact mul_self_pos.mpr h3
  exact (Matrix.PosDef.posSemidef_add hS hR).det_pos.ne'

/-- For a positive-definite `P_` and positive lidar noise, the innovation covariance
of the lidar is invertible. -/
theorem lidar_innovation_det (s : UKF ℝ) (hP : s.P_.PosDef) (hpx : 0 < s.std_laspx_)
    (hpy : 0 < s.std_laspy_) : (lidarS s).det ≠ 0 := by
  obtain ⟨hsymm, h0, h1, hdet⟩ := posDef_position_block s.P_ hP
  rw [lidarS_eq, Matrix.det_fin_two_of, hsymm]
  have hu : 0 < s.std_laspx_ * s.std_laspx_ := mul_pos hpx hpx
  have hv : 0 < s.std_laspy_ * s.std_laspy_ := mul_pos hpy hpy
  nlinarith [mul_pos h0 hv, mul_pos hu h1, mul_pos hu hv]

/-- C12 (as stated, refuted). A filter whose `P_` is the symmetric matrix
`diag(-(0.15)^2, 1, 1, 1, 1)`: the innovation covariance `S = H*P_*Hᵀ + R` of
`UpdateLidar` has the entry `S(0,0) = 0` and determinant `0`, so it has no inverse
and `S.inverse()` on line 293 divides by zero. -/
theorem C12_counterexample :
    ({ UKF.new (0 : Fin 5 → ℝ) 0 with
        P_ := Matrix.diagonal ![-(15 / 100 * (15 / 100)), 1, 1, 1, 1] } : UKF ℝ).P_.IsSymm ∧
    lidarS ({ UKF.new (0 : Fin 5 → ℝ) 0 with
        P_ := Matrix.diagonal ![-(15 / 100 * (15 / 100)), 1, 1, 1, 1] } : UKF ℝ) 0 0 = 0 ∧
    (lidarS ({ UKF.new (0 : Fin 5 → ℝ) 0 with
        P_ := Matrix.diagonal ![-(15 / 100 * (15 / 100)), 1, 1, 1, 1] } : UKF ℝ)).det = 0 ∧
    ∀ B : Matrix (Fin 2) (Fin 2) ℝ,
      B * lidarS ({ UKF.new (0 : Fin 5 → ℝ) 0 with
        P_ := Matrix.diagonal ![-(15 / 100 * (15 / 100)), 1, 1, 1, 1] } : UKF ℝ) ≠ 1 := by
  have hS : lidarS ({ UKF.new (0 : Fin 5 → ℝ) 0 with
      P_ := Matrix.diagonal ![-(15 / 100 * (15 / 100)), 1, 1, 1, 1] } : UKF ℝ)
      = !![0, 0; 0, 1 + 15 / 100 * (15 / 100)] := by
    rw [lidarS_eq]
    simp [UKF.new, UKF.construct]
  have hdet : (lidarS ({ UKF.new (0 : Fin 5 → ℝ) 0 with
      P_ := Matrix.diagonal ![-(15 / 100 * (15 / 100)), 1, 1, 1, 1] } : UKF ℝ)).det = 0 := by
    rw [hS, Matrix.det_fin_two_of]
    ring
  refine ⟨Matrix.isSymm_diagonal _, ?_, hdet, fun B hB => ?_⟩
  · rw [hS]
    rfl
  · have := congrArg Matrix.det hB
    rw [Matrix.det_mul, hdet, mul_zero, Matrix.det_one] at this
    exact zero_ne_one this

/-- C12 (amended). The constructed `P_` is symmetric, and for a symmetric `P_`
(in exact arithmetic): `Prediction` returns a symmetric `P_` for every `delta_t`;
`UpdateLidar` returns a symmetric `P_` for every LASER record when the innovation
covariance `S` it inverts is non-singular, as it is for a positive-definite `P_`
and positive lidar noise; `UpdateRadar` returns a symmetric `P_` for every RADAR
record when the covariance weights `1 .. 14` are non-negative and the radar noise
is non-zero, in which case the `S` it inverts is non-singular.  The calls do return:
`Prediction` for every large enough fuel when the Cholesky factorisation succeeds,
`UpdateLidar` on every LASER record of two values, `UpdateRadar` on every RADAR
record of three values for every large enough fuel. -/
theorem C12_covariance_symmetry (m : Libm ℝ) (hp : 0 < m.M_PI) (s : UKF ℝ)
    (hsymm : s.P_.IsSymm) :
    (∀ (x0 : Fin 5 → ℝ) (X0 : Matrix (Fin 5) (Fin 15) ℝ), (UKF.new x0 X0).P_.IsSymm) ∧
    (∀ fuel delta_t s', Prediction m fuel s delta_t = some s' → s'.P_.IsSymm) ∧
    ((lidarS s).det ≠ 0 →
      inverse (lidarS s) * lidarS s = 1 ∧
      ∀ meas_package s', meas_package.sensor_type_ = SensorType.LASER →
        UpdateLidar s meas_package = some s' → s'.P_.IsSymm) ∧
    (s.P_.PosDef → 0 < s.std_laspx_ → 0 < s.std_laspy_ → (lidarS s).det ≠ 0) ∧
    ((∀ i : Fin 14, 0 ≤ s.weights_c_ i.succ) → s.std_radr_ ≠ 0 → s.std_radphi_ ≠ 0 →
      s.std_radrd_ ≠ 0 →
      ∀ fuel meas_package s', meas_package.sensor_type_ = SensorType.RADAR →
        UpdateRadar m fuel s meas_package = some s' →
        s'.P_.IsSymm ∧
        (s'.P_ = s.P_ ∨ ∃ (Tc : Matrix (Fin 5) (Fin 3) ℝ) (S : Matrix (Fin 3) (Fin 3) ℝ),
          S.det ≠ 0 ∧ inverse S * S = 1 ∧
          s'.P_ = s.P_ - (Tc * inverse S) * S * (Tc * inverse S)ᵀ)) ∧
    (∀ delta_t Xsig_aug, GenerateAugmentedSigmaPoints m s = some Xsig_aug →
      ∃ (s' : UKF ℝ) (N : ℕ), ∀ fuel, N ≤ fuel → Prediction m fuel s delta_t = some s') ∧
    (∀ t z0 z1, ∃ s', UpdateLidar s ⟨t, SensorType.LASER, [z0, z1]⟩ = some s') ∧
    (∀ t z0 z1 z2, ∃ (s' : UKF ℝ) (N : ℕ), ∀ fuel, N ≤ fuel →
      UpdateRadar m fuel s ⟨t, SensorType.RADAR, [z0, z1, z2]⟩ = some s') := by
  refine ⟨fun _ _ => Matrix.isSymm_one, ?_, ?_, ?_, ?_, ?_, ?_, ?_⟩
  · intro fuel delta_t s' h
    obtain ⟨Xa, Xp, D, -, -, -, rfl⟩ := Prediction_inv m fuel s s' delta_t h
    show Matrix.IsSymm (∑ i : Fin 14, s.weights_c_ i.succ • vecMulVec (D i) (D i))
    exact sum_vecMulVec_symm _ D
  · intro hdet
    refine ⟨inverse_mul_cancel _ hdet, fun meas_package s' _ h => ?_⟩
    unfold UpdateLidar at h
    match hraw : meas_package.raw_measurements_ with
    | [z0, z1] =>
      rw [hraw] at h
      cases h
      exact lidar_P_symm s hsymm
    | [] => rw [hraw] at h; cases h
    | [_] => rw [hraw] at h; cases h
    | _ :: _ :: _ :: _ => rw [hraw] at h; cases h
  · exact fun hP hpx hpy => lidar_innovation_det s hP hpx hpy
  · intro hw h1 h2 h3 fuel meas_package s' _ h
    rcases UpdateRadar_inv m fuel s s' meas_package h with e | ⟨Tc, Dz, e⟩
    · refine ⟨?_, Or.inl e⟩
      rw [e]
      exact hsymm
    · have hdet := radar_innovation_det s Dz hw h1 h2 h3
      have hS : ((∑ i : Fin 14, s.weights_c_ i.succ • vecMulVec (Dz i) (Dz i))
          + radarR s).IsSymm :=
        (sum_vecMulVec_symm _ _).add (Matrix.isSymm_diagonal _)
      refine ⟨?_, Or.inr ⟨Tc, _, hdet, inverse_mul_cancel _ hdet, e⟩⟩
      rw [e]
      unfold Matrix.IsSymm
      simp only [Matrix.transpose_sub, Matrix.transpose_mul, Matrix.transpose_transpose,
        hS.eq, hsymm.eq, Matrix.mul_assoc]
  · intro delta_t Xsig_aug hgen
    obtain ⟨Xp, D, N, hN⟩ := Prediction_stable m hp s delta_t Xsig_aug hgen
    exact ⟨_, N, fun fuel hfuel => (hN fuel hfuel).2.2⟩
  · intro t z0 z1
    exact ⟨_, UpdateLidar_eq s t _ z0 z1⟩
  · intro t z0 z1 z2
    exact UpdateRadar_stable m hp s t z0 z1 z2

/-- C12 (amended) at a new filter (whose `P_`, the identity, is symmetric positive
definite) with the LASER record `(1, 0)`, and at `besideSensor` with the RADAR record
`(5, 3/2, 0)`, an update that changes `P_`. -/
theorem C12_covariance_symmetry_witness :
    (∃ s', UpdateLidar (UKF.new (0 : Fin 5 → ℝ) 0) ⟨0, SensorType.LASER, [1, 0]⟩ = some s' ∧
      s'.P_.IsSymm) ∧
    ∃ s', UpdateRadar
        (Libm.mk Real.pi Real.sqrt Real.sin Real.cos fun y x => Complex.arg ⟨x, y⟩) 0
        besideSensor ⟨0, SensorType.RADAR, [5, 3 / 2, 0]⟩ = some s' ∧
      s'.P_.IsSymm ∧ s'.P_ ≠ (besideSensor : UKF ℝ).P_ := by
  constructor
  · obtain ⟨-, -, hL, hdet, -, -, hl, -⟩ := C12_covariance_symmetry
      (Libm.mk Real.pi Real.sqrt Real.sin Real.cos fun y x => Complex.arg ⟨x, y⟩) Real.pi_pos
      (UKF.new (0 : Fin 5 → ℝ) 0) Matrix.isSymm_one
    obtain ⟨s1, h1⟩ := hl 0 1 0
    have hd := hdet Matrix.PosDef.one (by norm_num [UKF.new, UKF.construct])
      (by norm_num [UKF.new, UKF.construct])
    exact ⟨s1, h1, (hL hd).2 _ s1 rfl h1⟩
  · obtain ⟨-, -, -, -, hR, -, -, -⟩ := C12_covariance_symmetry
      (Libm.mk Real.pi Real.sqrt Real.sin Real.cos fun y x => Complex.arg ⟨x, y⟩) Real.pi_pos
      (besideSensor : UKF ℝ) Matrix.isSymm_one
    obtain ⟨s2, h2, hlt⟩ := besideSensor_update 0 0 5 (3 / 2) 0
    have hsym := (hR (fun i => (besideSensor_configured.weights_c_succ i).2.le)
      (by norm_num [besideSensor, UKF.new, UKF.construct])
      (by norm_num [besideSensor, UKF.new, UKF.construct])
      (by norm_num [besideSensor, UKF.new, UKF.construct]) 0 _ s2 rfl h2).1
    exact ⟨s2, h2, hsym, fun h => absurd (congrFun (congrFun h 2) 2) hlt.ne⟩

/-- C6 (as stated, refuted). A filter with the stored weights, the state
`(20, -35, 5, 1/2, 1/10)` and `P_ = I`: the Cholesky step succeeds, and in row 1 the
product `Xsig_aug * weights_m_` differs from the mean `x_(1) = -35`, by more than
`1e-9`. -/
theorem C6_counterexample :
    ∃ Xsig_aug,
      GenerateAugmentedSigmaPoints
          (Libm.mk Real.pi Real.sqrt Real.sin Real.cos fun y x => Complex.arg ⟨x, y⟩)
          (UKF.new64 ![20, -35, 5, 1 / 2, 1 / 10] 0) = some Xsig_aug ∧
        (UKF.new64 (![20, -35, 5, 1 / 2, 1 / 10] : Fin 5 → ℝ) 0).x_ 1 = -35 ∧
        (Xsig_aug *ᵥ (UKF.new64 (![20, -35, 5, 1 / 2, 1 / 10] : Fin 5 → ℝ) 0).weights_m_) 1
          ≠ -35 ∧
        1 / 1000000000 < |(Xsig_aug
          *ᵥ (UKF.new64 (![20, -35, 5, 1 / 2, 1 / 10] : Fin 5 → ℝ) 0).weights_m_) 1 - -35| := by
  have hgen := new64_generate (![20, -35, 5, 1 / 2, 1 / 10] : Fin 5 → ℝ) 0
  have hval : ((sigmaColumns (augmentedMean (![20, -35, 5, 1 / 2, 1 / 10] : Fin 5 → ℝ))
      (Real.sqrt ((UKF.new64 (![20, -35, 5, 1 / 2, 1 / 10] : Fin 5 → ℝ) 0).lambda_
          + (n_aug_ : ℝ))
        • (Matrix.diagonal ![1, 1, 1, 1, 1, 8 / 10, 6 / 10] : Matrix (Fin 7) (Fin 7) ℝ)))
      *ᵥ (UKF.new64 (![20, -35, 5, 1 / 2, 1 / 10] : Fin 5 → ℝ) 0).weights_m_) 1
      = (1 - 3 / 34359738368) * -35 := by
    rw [recombine64 _ _ _ (UKF.new64_configured _ _) hgen]
    have hx : augmentedMean (UKF.new64 (![20, -35, 5, 1 / 2, 1 / 10] : Fin 5 → ℝ) 0).x_ 1
        = -35 := augmentedMean_castLE _ 1
    rw [Pi.smul_apply, hx, smul_eq_mul]
  refine ⟨_, hgen, rfl, ?_, ?_⟩
  · rw [hval]
    norm_num
  · rw [hval]
    have e : (1 - 3 / 34359738368 : ℝ) * -35 - -35 = 105 / 34359738368 := by ring
    rw [e, abs_of_pos (by norm_num)]
    norm_num

end UKFModel
